import Mathlib

/-!
# Verification of the tower sum-check argument engine (ceno)

Shallow embedding of `ceno_zkvm/src/scheme/{utils,prover,verifier}.rs`:
the layered witness builders (`interleaving_mles_to_mles`,
`infer_tower_product_witness`, `infer_tower_logup_witness`), the tower
prover (`TowerProver::create_proof`) and the tower verifier
(`TowerVerify::verify`).

Multilinear-extension tables are `List F` of length `2 ^ n`, indexed with
the first variable as the least significant bit (the convention of the
`multilinear_extensions` crate).  The generic sum-check sub-protocol and
the Fiat-Shamir transcript are external collaborators of this subsystem
and are modelled from the spec (see the doc comments of the corresponding
definitions).  Field arithmetic is over an arbitrary commutative ring with
decidable equality, instantiated with `ZMod p` in concrete scenarios.
-/

/-- Fuel-driven halving recursion computing `Nat.clog 2` (kept structurally
recursive so that concrete instances evaluate inside the kernel). -/
def ceilLog2Aux : Nat → Nat → Nat
  | 0, _ => 0
  | fuel + 1, m => if m ≤ 1 then 0 else ceilLog2Aux fuel ((m + 1) / 2) + 1

/-- `ceil_log2` from `multilinear_extensions::util`:
`n.next_power_of_two().trailing_zeros()`, i.e. the least `k` with `n ≤ 2 ^ k`
(that is, `Nat.clog 2 n`; see `ceil_log2_eq_clog`). -/
def ceil_log2 (n : Nat) : Nat := ceilLog2Aux n n

theorem ceilLog2Aux_eq_clog (fuel : Nat) :
    ∀ m, m ≤ fuel → ceilLog2Aux fuel m = Nat.clog 2 m := by
  induction fuel with
  | zero =>
      intro m hm
      interval_cases m
      rw [ceilLog2Aux, Nat.clog_of_right_le_one (by omega)]
  | succ fuel ih =>
      intro m hm
      by_cases h1 : m ≤ 1
      · rw [ceilLog2Aux, if_pos h1, Nat.clog_of_right_le_one h1]
      · have h2 : 2 ≤ m := by omega
        rw [ceilLog2Aux, if_neg h1, ih ((m + 1) / 2) (by omega),
          Nat.clog_of_two_le (by norm_num) h2]
        norm_num

theorem ceil_log2_eq_clog (n : Nat) : ceil_log2 n = Nat.clog 2 n :=
  ceilLog2Aux_eq_clog n n (le_refl n)

section PolyMle

variable {F : Type} [CommRing F]

/-- Univariate polynomial (coefficient list, lowest degree first) evaluated
by Horner's rule. -/
def polyEval (p : List F) (x : F) : F := p.foldr (fun a acc => a + x * acc) 0

/-- Coefficient-wise sum of two univariate polynomials. -/
def polyAdd : List F → List F → List F
  | [], q => q
  | p, [] => p
  | a :: p, b :: q => (a + b) :: polyAdd p q

/-- Scale a univariate polynomial by a constant. -/
def polyScale (c : F) (p : List F) : List F := p.map (fun a => c * a)

/-- Product of two univariate polynomials in coefficient form. -/
def polyMul : List F → List F → List F
  | [], _ => []
  | a :: p, q => polyAdd (polyScale a q) (0 :: polyMul p q)

/-- Sum of a list of univariate polynomials. -/
def sumPolys (l : List (List F)) : List F := l.foldr polyAdd []

/-- Fix the first (least-significant) variable of a multilinear table to `r`:
each adjacent pair `(a, b)` becomes `a + r * (b - a)`. -/
def fold1 (r : F) : List F → List F
  | a :: b :: rest => (a + r * (b - a)) :: fold1 r rest
  | _ => []

/-- Evaluate the multilinear extension of table `v` at point `pt`
(first coordinate = least significant bit), by iterated variable fixing. -/
def mleEval (v : List F) : List F → F
  | [] => v.headD 0
  | r :: rs => mleEval (fold1 r v) rs

/-- `build_eq_x_r_vec(pt)`: the table of `eq(pt, x)` over all hypercube
points `x`, in the same index convention as `mleEval`. -/
def eqTable : List F → List F
  | [] => [1]
  | r :: rs => (eqTable rs).flatMap (fun e => [(1 - r) * e, r * e])

/-- `eq_eval(a, b) = ∏ i, (aᵢ·bᵢ + (1-aᵢ)·(1-bᵢ))`, the multilinear equality
polynomial (from `multilinear_extensions::virtual_poly`). -/
def eq_eval (a b : List F) : F :=
  (List.zipWith (fun x y => x * y + (1 - x) * (1 - y)) a b).prod

end PolyMle

section Builders

variable {F : Type} [CommRing F]

/-- One halving step of `infer_tower_product_witness` (the body of its fold):
branch `index` of the coarser layer starts from the all-ones vector and is
multiplied pointwise by the slice `[index*cur_len .. index*cur_len+cur_len)`
of every branch of the finer layer. -/
def productNextLayer (num_product_fanin : Nat) (next_layer : List (List F)) : List (List F) :=
  let cur_len := (next_layer.headD []).length / num_product_fanin
  (List.range num_product_fanin).map (fun index =>
    next_layer.foldl
      (fun evaluations f =>
        List.zipWith (fun e v => e * v) evaluations ((f.drop (index * cur_len)).take cur_len))
      (List.replicate cur_len (1 : F)))

/-- The chain of layers produced by folding `productNextLayer` `k` times and
reversing: `[C^k l, …, C l, l]` (coarsest first, as the Rust fold + reverse). -/
def productLayerChain (num_product_fanin : Nat) : Nat → List (List F) → List (List (List F))
  | 0, l => [l]
  | k + 1, l => productLayerChain num_product_fanin k (productNextLayer num_product_fanin l) ++ [l]

/-- `infer_tower_product_witness` from `ceno_zkvm/src/scheme/utils.rs`:
infer the whole product tower from the finest (`last`) layer; the result
lists layers from the 2-branch root (index 0) down to `last_layer`
(index `num_vars - 1`). -/
def infer_tower_product_witness (num_vars : Nat) (last_layer : List (List F))
    (num_product_fanin : Nat) : List (List (List F)) :=
  productLayerChain num_product_fanin (num_vars - 1) last_layer

/-- One derivation step of `infer_tower_logup_witness` (the body of its fold):
from the optional `(p1, p2)` pair and the `(q1, q2)` pair of the finer level,
produce the `((p1', p2'), (q1', q2'))` of the coarser level; branch `index`
reads the slice `[cur_len*index ..)` of each input vector and computes
`p = p2*q1 + p1*q2` (or `q1 + q2` when `p` is absent, i.e. `p1 = p2 = 1`)
and `q = q1*q2` pointwise. -/
def logupDerive (p : Option (List F × List F)) (q : List F × List F) :
    (List F × List F) × (List F × List F) :=
  let q1 := q.1
  let q2 := q.2
  let cur_len := q1.length / 2
  let slice := fun (v : List F) (index : Nat) => (v.drop (cur_len * index)).take cur_len
  match p with
  | some (p1, p2) =>
      ((List.zipWith (· + ·)
          (List.zipWith (· * ·) (slice p2 0) (slice q1 0))
          (List.zipWith (· * ·) (slice p1 0) (slice q2 0)),
        List.zipWith (· + ·)
          (List.zipWith (· * ·) (slice p2 1) (slice q1 1))
          (List.zipWith (· * ·) (slice p1 1) (slice q2 1))),
       (List.zipWith (· * ·) (slice q1 0) (slice q2 0),
        List.zipWith (· * ·) (slice q1 1) (slice q2 1)))
  | none =>
      ((List.zipWith (· + ·) (slice q1 0) (slice q2 0),
        List.zipWith (· + ·) (slice q1 1) (slice q2 1)),
       (List.zipWith (· * ·) (slice q1 0) (slice q2 0),
        List.zipWith (· * ·) (slice q1 1) (slice q2 1)))

/-- The chain of `(p?, q)` levels of the logup tower, coarsest first
(Rust fold + reverse). -/
def logupLayerChain :
    Nat → Option (List F × List F) × (List F × List F) →
      List (Option (List F × List F) × (List F × List F))
  | 0, st => [st]
  | k + 1, st =>
      logupLayerChain k (let d := logupDerive st.1 st.2; (some d.1, d.2)) ++ [st]

/-- The final `map` closure of `infer_tower_logup_witness`: materialise a
chain level as the 4-vector layer `[p1, p2, q1, q2]`, the input layer's `p`
components (absent, i.e. `None`) being all-ones vectors. -/
def logupToLayer (l : Option (List F × List F) × (List F × List F)) : List (List F) :=
  match l.1 with
  | none => [List.replicate l.2.1.length (1 : F), List.replicate l.2.1.length (1 : F),
             l.2.1, l.2.2]
  | some p => [p.1, p.2, l.2.1, l.2.2]

/-- `infer_tower_logup_witness` from `ceno_zkvm/src/scheme/utils.rs`:
infer the logup tower from the two leaf denominator vectors; each returned
layer is `[p1, p2, q1, q2]`, the input (leaf) layer's `p` components being
all-ones vectors.  Layers are listed root (index 0) first. -/
def infer_tower_logup_witness (q_mles : List (List F)) : List (List (List F)) :=
  let q1 := q_mles.headD []
  let q2 := (q_mles.drop 1).headD []
  let num_vars := ceil_log2 q1.length
  (logupLayerChain num_vars (none, (q1, q2))).map logupToLayer

/-- `interleaving_mles_to_mles` from `ceno_zkvm/src/scheme/utils.rs`:
horizontally interleave `mles` into `num_limbs` output vectors; output
`fanin_index` starts as `default` everywhere and receives, for each input
`i` and each position `j` of the `fanin_index`-th slice of length
`per_fanin_len`, the value `mles[i][start + j]` at position
`j * per_instance_size + i`. -/
def interleaving_mles_to_mles (mles : List (List F)) (log2_num_instances : Nat)
    (log2_per_instance_size : Nat) (num_limbs : Nat) (default : F) : List (List F) :=
  let per_fanin_len := (mles.headD []).length / num_limbs
  let log_num_limbs := ceil_log2 num_limbs
  (List.range num_limbs).map (fun fanin_index =>
    let per_instance_size := 2 ^ log2_per_instance_size
    let start := per_fanin_len * fanin_index
    (List.range mles.length).foldl
      (fun evaluations i =>
        (List.range per_fanin_len).foldl
          (fun ev j => ev.set (j * per_instance_size + i) ((mles.getD i []).getD (start + j) 0))
          evaluations)
      (List.replicate (2 ^ (log2_num_instances + log2_per_instance_size - log_num_limbs)) default))

end Builders

section Protocol

variable {F : Type} [CommRing F]

/-- Modelled from the spec: the Fiat-Shamir transcript, a sequential,
mutating, deterministic challenge source (the `transcript` crate is outside
this subsystem).  `chal` is the deterministic challenge-derivation function
applied to all previously absorbed data; two transcripts seeded identically
share `chal` and `log`. -/
structure Transcript (F : Type) where
  chal : List F → F
  log : List F

/-- Absorb a message (a list of scalars) into the transcript. -/
def Transcript.append (t : Transcript F) (msg : List F) : Transcript F :=
  ⟨t.chal, msg ++ t.log⟩

/-- `get_and_append_challenge`: derive a challenge from the current state and
absorb it. -/
def Transcript.get_and_append_challenge (t : Transcript F) : F × Transcript F :=
  (t.chal t.log, ⟨t.chal, t.chal t.log :: t.log⟩)

/-- Draw `n` successive challenges (the `(0..n).map(|_| get_and_append_challenge)`
pattern of the prover and verifier). -/
def drawChallenges : Nat → Transcript F → List F × Transcript F
  | 0, t => ([], t)
  | n + 1, t =>
      let c := t.get_and_append_challenge
      let rest := drawChallenges n c.2
      (c.1 :: rest.1, rest.2)

/-- Modelled from the spec: `get_challenge_pows` (in `ceno_zkvm/src/utils.rs`,
not part of this source tree) — the "alpha powers", a batch of scalars
obtained as the powers `α^0, …, α^(size-1)` of one freshly drawn challenge. -/
def get_challenge_pows (size : Nat) (t : Transcript F) : List F × Transcript F :=
  let c := t.get_and_append_challenge
  ((List.range size).map (fun i => c.1 ^ i), c.2)

/-- Per-pair linear restrictions of a multilinear table: pair `(a, b)` becomes
the univariate `a + (b - a)·X` in coefficient form. -/
def linTable : List F → List (List F)
  | a :: b :: rest => [a, b - a] :: linTable rest
  | _ => []

/-- Position-wise product of lists of univariate polynomials. -/
def prodLin : List (List (List F)) → List (List F)
  | [] => []
  | [l] => l
  | l :: rest => List.zipWith polyMul l (prodLin rest)

/-- Pointwise product of a nonempty list of equal-length tables. -/
def prodTables : List (List F) → List F
  | [] => []
  | [v] => v
  | v :: rest => List.zipWith (· * ·) v (prodTables rest)

/-- Modelled from the spec: one round message of the generic sum-check prover
for a virtual polynomial `Σ_t c_t · Π_i m_{t,i}(x)` — the univariate
`g(X) = Σ_t c_t Σ_y Π_i m_{t,i}(X, y)` in coefficient form. -/
def roundMsg (terms : List (F × List (List F))) : List F :=
  sumPolys (terms.map (fun ct => polyScale ct.1 (sumPolys (prodLin (ct.2.map linTable)))))

/-- Fold every table of a term with challenge `r`. -/
def foldTerm (r : F) (ct : F × List (List F)) : F × List (List F) :=
  (ct.1, ct.2.map (fold1 r))

/-- Modelled from the spec: the generic sum-check prover
(`IOPProverStateV2::prove_batch_polys`, external crate), run for `n` rounds.
`polys` is the deduplicated store of the distinct multilinear polynomials in
insertion order (as kept by `VirtualPolynomials`); `terms` are the weighted
products.  Returns (round messages, challenge point, final folded store —
whose heads are `get_mle_final_evaluations` —, transcript).  Each round the
message is absorbed before the round challenge is drawn. -/
def sumcheckProve : Nat → List (List F) → List (F × List (List F)) → Transcript F →
    List (List F) × List F × List (List F) × Transcript F
  | 0, polys, _, t => ([], [], polys, t)
  | n + 1, polys, terms, t =>
      let g := roundMsg terms
      let c := (t.append g).get_and_append_challenge
      let rest := sumcheckProve n (polys.map (fold1 c.1)) (terms.map (foldTerm c.1)) c.2
      (g :: rest.1, c.1 :: rest.2.1, rest.2.2)

/-- Modelled from the spec: the round loop of the generic sum-check verifier —
check `g(0) + g(1)` against the running claim, absorb the message, draw the
round challenge, continue with claim `g(r)`; rejection is a sub-protocol
failure.  Returns (point, expected_evaluation, transcript). -/
def sumcheckVerifyAux [DecidableEq F] : F → List (List F) → Transcript F →
    Option (List F × F × Transcript F)
  | claim, [], t => some ([], claim, t)
  | claim, g :: msgs, t =>
      if polyEval g 0 + polyEval g 1 = claim then
        let c := (t.append g).get_and_append_challenge
        (sumcheckVerifyAux (polyEval g c.1) msgs c.2).map (fun res => (c.1 :: res.1, res.2))
      else none

/-- Modelled from the spec: `IOPVerifierState::verify` with
`aux_info.num_variables = num_variables`; a proof with the wrong number of
round messages is rejected. -/
def sumcheckVerify [DecidableEq F] (num_variables : Nat) (claim : F) (msgs : List (List F))
    (t : Transcript F) : Option (List F × F × Transcript F) :=
  if msgs.length = num_variables then sumcheckVerifyAux claim msgs t else none

end Protocol

section Tower

variable {F : Type} [CommRing F]

/-- `NUM_FANIN` from `ceno_zkvm/src/scheme/constants.rs` (fixed fan-in 2). -/
def NUM_FANIN : Nat := 2

/-- `TowerProverSpec` (from `ceno_zkvm/src/structs.rs`, declared outside this
source tree; its single field is visible at every use site in `prover.rs`):
the layer list of one spec, root (index 0) first. -/
structure TowerProverSpec (F : Type) where
  witness : List (List (List F))

/-- `PointAndEval` (from `ceno_zkvm/src/structs.rs`): an opening point paired
with a claimed evaluation; `Default` is the empty point with evaluation 0. -/
structure PointAndEval (F : Type) where
  point : List F
  eval : F
deriving DecidableEq, Repr

/-- Replace the element at index `i` (no-op when out of range) — the shape of
the `self.xs[i].push(..)` updates of `TowerProofs`. -/
def updateAt {α : Type} : Nat → (α → α) → List α → List α
  | _, _, [] => []
  | 0, f, a :: l => f a :: l
  | i + 1, f, a :: l => a :: updateAt i f l

/-- `TowerProofs` (fields as constructed in `ceno_zkvm/src/scheme/prover.rs`):
per-round sum-check messages, and per-spec lists of per-round evaluation
lists and opening points. -/
structure TowerProofs (F : Type) where
  proofs : List (List (List F))
  prod_specs_eval : List (List (List F))
  logup_specs_eval : List (List (List F))
  prod_specs_points : List (List (List F))
  logup_specs_points : List (List (List F))
deriving DecidableEq, Repr

/-- `TowerProofs::new`. -/
def TowerProofs.new (F : Type) (prod_spec_size logup_spec_size : Nat) : TowerProofs F :=
  ⟨[], List.replicate prod_spec_size [], List.replicate logup_spec_size [],
    List.replicate prod_spec_size [], List.replicate logup_spec_size []⟩

/-- `TowerProofs::push_sumcheck_proofs`. -/
def TowerProofs.push_sumcheck_proofs (pr : TowerProofs F) (msgs : List (List F)) :
    TowerProofs F :=
  { pr with proofs := pr.proofs ++ [msgs] }

/-- `TowerProofs::push_prod_evals_and_point`. -/
def TowerProofs.push_prod_evals_and_point (pr : TowerProofs F) (spec_index : Nat)
    (evals point : List F) : TowerProofs F :=
  { pr with
    prod_specs_eval := updateAt spec_index (fun l => l ++ [evals]) pr.prod_specs_eval
    prod_specs_points := updateAt spec_index (fun l => l ++ [point]) pr.prod_specs_points }

/-- `TowerProofs::push_logup_evals_and_point`. -/
def TowerProofs.push_logup_evals_and_point (pr : TowerProofs F) (spec_index : Nat)
    (evals point : List F) : TowerProofs F :=
  { pr with
    logup_specs_eval := updateAt spec_index (fun l => l ++ [evals]) pr.logup_specs_eval
    logup_specs_points := updateAt spec_index (fun l => l ++ [point]) pr.logup_specs_points }

/-- `TowerProofs::prod_spec_size`. -/
def TowerProofs.prod_spec_size (pr : TowerProofs F) : Nat := pr.prod_specs_eval.length

/-- `TowerProofs::logup_spec_size`. -/
def TowerProofs.logup_spec_size (pr : TowerProofs F) : Nat := pr.logup_specs_eval.length

/-- `alpha_pows[..].chunks(2)` as used for logup specs (numerator weight,
denominator weight). -/
def alphaPairs : List F → List (F × F)
  | a :: b :: rest => (a, b) :: alphaPairs rest
  | _ => []

/-- The sum-check terms contributed by the (not yet exhausted) product specs
at a round: `eq(rt,·) · alpha · Π layer branches` (prover.rs lines 511-529). -/
def prodSpecTerms (round : Nat) (eqT : List F) :
    List (TowerProverSpec F × F) → List (F × List (List F))
  | [] => []
  | (s, alpha) :: rest =>
      if round < s.witness.length then
        (alpha, eqT :: s.witness.getD round []) :: prodSpecTerms round eqT rest
      else prodSpecTerms round eqT rest

/-- The sum-check terms contributed by the logup specs at a round:
`eq·alpha_numerator·p1·q2`, `eq·alpha_numerator·p2·q1`,
`eq·alpha_denominator·q1·q2` (prover.rs lines 531-561). -/
def logupSpecTerms (round : Nat) (eqT : List F) :
    List (TowerProverSpec F × (F × F)) → List (F × List (List F))
  | [] => []
  | (s, al) :: rest =>
      if round < s.witness.length then
        let layer := s.witness.getD round []
        let p1 := layer.getD 0 []
        let p2 := layer.getD 1 []
        let q1 := layer.getD 2 []
        let q2 := layer.getD 3 []
        (al.1, [eqT, p1, q2]) :: (al.1, [eqT, p2, q1]) :: (al.2, [eqT, q1, q2]) ::
          logupSpecTerms round eqT rest
      else logupSpecTerms round eqT rest

/-- The distinct multilinear polynomials contributed by product specs, in
`VirtualPolynomials` insertion order (branch 0, branch 1 per active spec). -/
def prodSpecPolys (round : Nat) : List (TowerProverSpec F) → List (List F)
  | [] => []
  | s :: rest =>
      (if round < s.witness.length then s.witness.getD round [] else []) ++
        prodSpecPolys round rest

/-- The distinct multilinear polynomials contributed by logup specs, in
`VirtualPolynomials` insertion order (`p1, q2, p2, q1` per active spec). -/
def logupSpecPolys (round : Nat) : List (TowerProverSpec F) → List (List F)
  | [] => []
  | s :: rest =>
      (if round < s.witness.length then
        let layer := s.witness.getD round []
        [layer.getD 0 [], layer.getD 3 [], layer.getD 1 [], layer.getD 2 []]
      else []) ++ logupSpecPolys round rest

/-- Distribute the sum-check final evaluations back to the active product
specs (`evals_iter` consumption, prover.rs lines 584-595): each active spec
records its `num_fanin` evaluations together with `rt_prime`. -/
def pushProdEvals (num_fanin round : Nat) (rt_prime : List F) :
    List (TowerProverSpec F) → Nat → List F → TowerProofs F → TowerProofs F × List F
  | [], _, evals, pr => (pr, evals)
  | s :: rest, i, evals, pr =>
      if round < s.witness.length then
        pushProdEvals num_fanin round rt_prime rest (i + 1) (evals.drop num_fanin)
          (pr.push_prod_evals_and_point i (evals.take num_fanin) rt_prime)
      else pushProdEvals num_fanin round rt_prime rest (i + 1) evals pr

/-- Distribute the sum-check final evaluations back to the active logup specs
(prover.rs lines 596-606): evaluations arrive in order `p1, q2, p2, q1` and
are recorded as `[p1, p2, q1, q2]`. -/
def pushLogupEvals (round : Nat) (rt_prime : List F) :
    List (TowerProverSpec F) → Nat → List F → TowerProofs F → TowerProofs F × List F
  | [], _, evals, pr => (pr, evals)
  | s :: rest, i, evals, pr =>
      if round < s.witness.length then
        let p1 := evals.getD 0 0
        let q2 := evals.getD 1 0
        let p2 := evals.getD 2 0
        let q1 := evals.getD 3 0
        pushLogupEvals round rt_prime rest (i + 1) (evals.drop 4)
          (pr.push_logup_evals_and_point i [p1, p2, q1, q2] rt_prime)
      else pushLogupEvals round rt_prime rest (i + 1) evals pr

/-- One round of `TowerProver::create_proof` (the body of the fold over
rounds `1..=max_round_index`): assemble the batched instance, run the
sum-check prover, draw `r_merge`, extend the point, draw the next alpha
powers, and record the per-spec evaluations and points. -/
def towerRound (num_fanin : Nat) (prod_specs logup_specs : List (TowerProverSpec F))
    (st : (List F × List F) × TowerProofs F × Transcript F) (round : Nat) :
    (List F × List F) × TowerProofs F × Transcript F :=
  let out_rt := st.1.1
  let alpha_pows := st.1.2
  let eqT := eqTable out_rt
  let polys := eqT :: (prodSpecPolys round prod_specs ++ logupSpecPolys round logup_specs)
  let terms := prodSpecTerms round eqT (prod_specs.zip alpha_pows) ++
      logupSpecTerms round eqT
        (logup_specs.zip (alphaPairs (alpha_pows.drop prod_specs.length)))
  let sc := sumcheckProve out_rt.length polys terms st.2.2
  let proofs1 := st.2.1.push_sumcheck_proofs sc.1
  let rm := drawChallenges (ceil_log2 num_fanin) sc.2.2.2
  let rt_prime := sc.2.1 ++ rm.1
  let na := get_challenge_pows (prod_specs.length + logup_specs.length * 2) rm.2
  let evals := sc.2.2.1.map (fun p => p.headD 0)
  let step1 := pushProdEvals num_fanin round rt_prime prod_specs 0 (evals.drop 1) proofs1
  let step2 := pushLogupEvals round rt_prime logup_specs 0 step1.2 step1.1
  ((rt_prime, na.1), step2.1, na.2)

/-- The body of `TowerProver::create_proof` after its entry assertions:
draw the alpha powers and the initial point, then fold `towerRound` over
rounds `1..=max_round_index`.  Returns (final point, `TowerProofs`,
transcript). -/
def createProofCore (prod_specs logup_specs : List (TowerProverSpec F)) (num_fanin : Nat)
    (t : Transcript F) : List F × TowerProofs F × Transcript F :=
  let log_num_fanin := ceil_log2 num_fanin
  let max_round_index :=
    (((prod_specs ++ logup_specs).map (fun s => s.witness.length)).foldr max 0) - 1
  let ap := get_challenge_pows (prod_specs.length + logup_specs.length * 2) t
  let rt := drawChallenges log_num_fanin ap.2
  let fin := (List.range' 1 max_round_index).foldl
    (towerRound num_fanin prod_specs logup_specs)
    ((rt.1, ap.1), TowerProofs.new F prod_specs.length logup_specs.length, rt.2)
  (fin.1.1, fin.2)

/-- `TowerProver::create_proof` from `ceno_zkvm/src/scheme/prover.rs`.
`none` models a panic of the entry assertions `assert_eq!(num_fanin, 2)` and
`assert!(!prod_specs.is_empty())`; the in-loop sanity assertions on layer
shapes hold for every input considered by the theorems below (their
conditions appear as well-formedness hypotheses). -/
def TowerProver.create_proof (prod_specs logup_specs : List (TowerProverSpec F))
    (num_fanin : Nat) (t : Transcript F) :
    Option (List F × TowerProofs F × Transcript F) :=
  if num_fanin = 2 ∧ prod_specs.isEmpty = false then
    some (createProofCore prod_specs logup_specs num_fanin t)
  else none

end Tower

section Verifier

variable {F : Type} [CommRing F]

/-- Verifier-side failures.  `towerEvaluationMismatch` is
`ZKVMError::VerifyError("mismatch tower evaluation")` (verifier.rs line 1044),
`lookupTableWitnessNotOne` is
`ZKVMError::VerifyError("Lookup table witness p(x) != constant 1")`
(verifier.rs line 514), `sumcheckRejected` is a rejection of the generic
sum-check sub-protocol (modelled from the spec), and `assertionFailed`
models a panic of the entry assertions of `TowerVerify::verify`. -/
inductive VError where
  | assertionFailed
  | sumcheckRejected
  | towerEvaluationMismatch
  | lookupTableWitnessNotOne
deriving DecidableEq, Repr

/-- The verifier's running state across rounds: the current
point-and-claim, the current alpha powers, the three per-spec input-layer
evaluation vectors, and the transcript. -/
structure TowerVerifyState (F : Type) where
  pe : PointAndEval F
  alpha_pows : List F
  prodILE : List (PointAndEval F)
  logupPILE : List (PointAndEval F)
  logupQILE : List (PointAndEval F)
  tr : Transcript F

/-- `(0..n).zip(xs.iter()).zip(ys.iter())` flattened to index/value triples
(zips truncate at the shortest list, as in Rust). -/
def zip3Idx {α β : Type} (n : Nat) (xs : List α) (ys : List β) : List (Nat × α × β) :=
  ((List.range n).zip (xs.zip ys)).map (fun p => (p.1, p.2.1, p.2.2))

/-- The verifier's independently recomputed expected value, product part
(verifier.rs lines 1016-1026): `eq(out_rt, rt) · alpha · Π evals[round]`,
or 0 for a spec already exhausted at this round. -/
def expectedProdSum (tower_proofs : TowerProofs F) (round : Nat) (out_rt rt : List F) :
    List (Nat × F × Nat) → F
  | [] => 0
  | (i, alpha, max_round) :: rest =>
      eq_eval out_rt rt * alpha *
          (if round < max_round - 1 then
            ((tower_proofs.prod_specs_eval.getD i []).getD round []).prod
          else 0) +
        expectedProdSum tower_proofs round out_rt rt rest

/-- The verifier's independently recomputed expected value, logup part
(verifier.rs lines 1027-1042):
`eq(out_rt, rt) · (alpha_numerator·(p1·q2 + p2·q1) + alpha_denominator·(q1·q2))`,
or 0 for an exhausted spec. -/
def expectedLogupSum (tower_proofs : TowerProofs F) (round : Nat) (out_rt rt : List F) :
    List (Nat × (F × F) × Nat) → F
  | [] => 0
  | (i, al, max_round) :: rest =>
      eq_eval out_rt rt *
          (if round < max_round - 1 then
            let entry := (tower_proofs.logup_specs_eval.getD i []).getD round []
            al.1 * (entry.getD 0 0 * entry.getD 3 0 + entry.getD 1 0 * entry.getD 2 0) +
              al.2 * (entry.getD 2 0 * entry.getD 3 0)
          else 0) +
        expectedLogupSum tower_proofs round out_rt rt rest

/-- Next-claim contribution and input-layer-evaluation update for the product
specs (verifier.rs lines 1063-1086): each non-exhausted spec merges its
recorded evaluations with the `eq(r_merge,·)` coefficients, overwrites its
`PointAndEval`, and contributes `alpha · merged` to the next claim only if it
still has a further round. -/
def nextProdEvalsFold (tower_proofs : TowerProofs F) (round : Nat) (coeffs rt_prime : List F) :
    List (Nat × F × Nat) → List (PointAndEval F) → F × List (PointAndEval F)
  | [], ile => (0, ile)
  | (i, alpha, max_round) :: rest, ile =>
      if round < max_round - 1 then
        let evals :=
          (List.zipWith (· * ·) ((tower_proofs.prod_specs_eval.getD i []).getD round [])
            coeffs).sum
        let r := nextProdEvalsFold tower_proofs round coeffs rt_prime rest
          (updateAt i (fun _ => ⟨rt_prime, evals⟩) ile)
        ((if round + 1 < max_round - 1 then alpha * evals else 0) + r.1, r.2)
      else
        let r := nextProdEvalsFold tower_proofs round coeffs rt_prime rest ile
        (0 + r.1, r.2)

/-- Next-claim contribution and input-layer-evaluation updates for the logup
specs (verifier.rs lines 1087-1121). -/
def nextLogupEvalsFold (tower_proofs : TowerProofs F) (round : Nat) (coeffs rt_prime : List F) :
    List (Nat × (F × F) × Nat) → List (PointAndEval F) × List (PointAndEval F) →
      F × List (PointAndEval F) × List (PointAndEval F)
  | [], ile => (0, ile)
  | (i, al, max_round) :: rest, ile =>
      if round < max_round - 1 then
        let entry := (tower_proofs.logup_specs_eval.getD i []).getD round []
        let p_evals := (List.zipWith (· * ·) (entry.take 2) coeffs).sum
        let q_evals := (List.zipWith (· * ·) ((entry.drop 2).take 2) coeffs).sum
        let r := nextLogupEvalsFold tower_proofs round coeffs rt_prime rest
          (updateAt i (fun _ => ⟨rt_prime, p_evals⟩) ile.1,
           updateAt i (fun _ => ⟨rt_prime, q_evals⟩) ile.2)
        ((if round + 1 < max_round - 1 then al.1 * p_evals + al.2 * q_evals else 0) + r.1, r.2)
      else
        let r := nextLogupEvalsFold tower_proofs round coeffs rt_prime rest ile
        (0 + r.1, r.2)

/-- One round of `TowerVerify::verify` (the body of the `try_fold` over
rounds `0..expected_max_round-1`, verifier.rs lines 989-1129): verify the
sum-check sub-proof against the running claim, recompute the expected value
independently from the recorded evaluation lists and abort with the
tower-evaluation-mismatch error on any inequality, then draw `r_merge`,
extend the point, draw the next alpha powers, and merge each non-exhausted
spec's evaluations. -/
def towerVerifyRound [DecidableEq F] (tower_proofs : TowerProofs F)
    (expected_rounds : List Nat) (num_prod_spec num_logup_spec log2_num_fanin : Nat)
    (st : TowerVerifyState F) (round : Nat) : Except VError (TowerVerifyState F) :=
  let out_rt := st.pe.point
  match sumcheckVerify ((round + 1) * log2_num_fanin) st.pe.eval
      (tower_proofs.proofs.getD round []) st.tr with
  | none => .error .sumcheckRejected
  | some res =>
      let rt := res.1
      let expected_evaluation :=
        expectedProdSum tower_proofs round out_rt rt
            (zip3Idx num_prod_spec st.alpha_pows expected_rounds) +
          expectedLogupSum tower_proofs round out_rt rt
            (zip3Idx num_logup_spec (alphaPairs (st.alpha_pows.drop num_prod_spec))
              (expected_rounds.drop num_prod_spec))
      if expected_evaluation = res.2.1 then
        let rm := drawChallenges log2_num_fanin res.2.2
        let coeffs := eqTable rm.1
        let rt_prime := rt ++ rm.1
        let na := get_challenge_pows (num_prod_spec + num_logup_spec * 2) rm.2
        let p := nextProdEvalsFold tower_proofs round coeffs rt_prime
          (zip3Idx num_prod_spec na.1 expected_rounds) st.prodILE
        let l := nextLogupEvalsFold tower_proofs round coeffs rt_prime
          (zip3Idx num_logup_spec (alphaPairs (na.1.drop num_prod_spec))
            (expected_rounds.drop num_prod_spec))
          (st.logupPILE, st.logupQILE)
        .ok ⟨⟨rt_prime, p.1 + l.1⟩, na.1, p.2, l.2.1, l.2.2, na.2⟩
      else .error .towerEvaluationMismatch

/-- `TowerVerify::verify` from `ceno_zkvm/src/scheme/verifier.rs`.
`.error .assertionFailed` models a panic of the entry assertions
(`num_fanin == 2`, size checks, and `.max().unwrap()` on an empty
`expected_rounds`).  Returns the final point, the per-spec product,
logup-numerator and logup-denominator `PointAndEval`s, and the transcript. -/
def TowerVerify.verify [DecidableEq F] (prod_out_evals logup_out_evals : List (List F))
    (tower_proofs : TowerProofs F) (expected_rounds : List Nat) (num_fanin : Nat)
    (t : Transcript F) :
    Except VError
      (List F × List (PointAndEval F) × List (PointAndEval F) × List (PointAndEval F) ×
        Transcript F) :=
  if num_fanin = 2 ∧ prod_out_evals.length = tower_proofs.prod_spec_size ∧
      prod_out_evals.all (fun e => e.length = num_fanin) ∧
      logup_out_evals.length = tower_proofs.logup_spec_size ∧
      logup_out_evals.all (fun e => e.length = 4) ∧
      expected_rounds.length = prod_out_evals.length + logup_out_evals.length ∧
      expected_rounds.isEmpty = false then
    let num_prod_spec := prod_out_evals.length
    let num_logup_spec := logup_out_evals.length
    let log2_num_fanin := ceil_log2 num_fanin
    let ap := get_challenge_pows (num_prod_spec + num_logup_spec * 2) t
    let rt := drawChallenges log2_num_fanin ap.2
    let initial_claim :=
      ((prod_out_evals.zip ap.1).map (fun pe => mleEval pe.1 rt.1 * pe.2)).sum +
        ((logup_out_evals.zip (alphaPairs (ap.1.drop num_prod_spec))).map (fun pe =>
          mleEval [pe.1.getD 0 0, pe.1.getD 1 0] rt.1 * pe.2.1 +
            mleEval [pe.1.getD 2 0, pe.1.getD 3 0] rt.1 * pe.2.2)).sum
    let expected_max_round := expected_rounds.foldr max 0
    match (List.range (expected_max_round - 1)).foldlM
        (towerVerifyRound tower_proofs expected_rounds num_prod_spec num_logup_spec
          log2_num_fanin)
        ⟨⟨rt.1, initial_claim⟩, ap.1,
          List.replicate num_prod_spec ⟨[], 0⟩,
          List.replicate num_logup_spec ⟨[], 0⟩,
          List.replicate num_logup_spec ⟨[], 0⟩, rt.2⟩ with
    | .error e => .error e
    | .ok fin => .ok (fin.pe.point, fin.prodILE, fin.logupPILE, fin.logupQILE, fin.tr)
  else .error .assertionFailed

/-- The stage of `ZKVMVerifier::verify_opcode_proof` surrounding the tower
verification (verifier.rs lines 487-517): run `TowerVerify::verify`, then
check that the numerator `PointAndEval` of the logup spec at index 0 (the
fixed-lookup-table spec) evaluates to exactly 1, failing with the
lookup-table-witness-not-one error otherwise; the remainder of the function
(main sum-check, record checks, PCS openings) is abstracted as the
continuation `rest`. -/
def verifyOpcodeTowerStage {α : Type} [DecidableEq F]
    (prod_out_evals logup_out_evals : List (List F)) (tower_proofs : TowerProofs F)
    (expected_rounds : List Nat) (num_product_fanin : Nat) (t : Transcript F)
    (rest : List F → List (PointAndEval F) → List (PointAndEval F) →
      List (PointAndEval F) → Transcript F → Except VError α) : Except VError α := do
  let r ← TowerVerify.verify prod_out_evals logup_out_evals tower_proofs expected_rounds
    num_product_fanin t
  if (r.2.2.1.getD 0 ⟨[], 0⟩).eval ≠ 1 then
    .error .lookupTableWitnessNotOne
  else
    rest r.1 r.2.1 r.2.2.1 r.2.2.2.1 r.2.2.2.2

end Verifier

section ProductTowerLemmas

variable {F : Type} [CommRing F]

theorem zipWith_one_mul (n : Nat) (l : List F) :
    List.zipWith (fun e v => e * v) (List.replicate n (1 : F)) l = l.take n := by
  induction n generalizing l with
  | zero => simp
  | succ n ih =>
      cases l with
      | nil => simp
      | cons a l => simp [List.replicate_succ, ih]

theorem productNextLayer_pair (A B : List F) (m : Nat) (hA : A.length = 2 * m)
    (hB : B.length = 2 * m) :
    productNextLayer 2 [A, B] =
      [List.zipWith (· * ·) (A.take m) (B.take m),
       List.zipWith (· * ·) (A.drop m) (B.drop m)] := by
  have hm : A.length / 2 = m := by omega
  have hAt : (A.drop 0).take (A.length / 2) = A.take m := by simp [hm]
  have hBt : (B.drop 0).take (A.length / 2) = B.take m := by simp [hm]
  have hAd : (A.drop (1 * (A.length / 2))).take (A.length / 2) = A.drop m := by
    rw [hm, one_mul]
    exact List.take_of_length_le (by rw [List.length_drop, hA]; omega)
  have hBd : (B.drop (1 * (A.length / 2))).take (A.length / 2) = B.drop m := by
    rw [hm, one_mul]
    exact List.take_of_length_le (by rw [List.length_drop, hB]; omega)
  have hone : ∀ l : List F, l.length = m →
      List.zipWith (fun e v => e * v) (List.replicate (A.length / 2) (1 : F)) l = l := by
    intro l hl
    rw [zipWith_one_mul]
    exact List.take_of_length_le (by rw [hl, hm])
  simp only [productNextLayer, List.headD_cons, List.range_succ, List.range_zero,
    List.nil_append, List.map_append, List.map_cons, List.map_nil, List.foldl_cons,
    List.foldl_nil, Nat.zero_mul, List.singleton_append]
  rw [hAt, hBt, hAd, hBd,
    hone (A.take m) (by rw [List.length_take, hA]; omega),
    hone (A.drop m) (by rw [List.length_drop, hA]; omega)]

theorem productNextLayer_concat (A B : List F) (m : Nat) (hA : A.length = 2 * m)
    (hB : B.length = 2 * m) :
    (productNextLayer 2 [A, B]).getD 0 [] ++ (productNextLayer 2 [A, B]).getD 1 [] =
      List.zipWith (· * ·) A B := by
  rw [productNextLayer_pair A B m hA hB]
  show List.zipWith (· * ·) (A.take m) (B.take m) ++ List.zipWith (· * ·) (A.drop m) (B.drop m) =
    List.zipWith (· * ·) A B
  rw [← List.zipWith_append (· * ·) (A.take m) (A.drop m) (B.take m) (B.drop m)
    (by rw [List.length_take, List.length_take, hA, hB])]
  rw [List.take_append_drop, List.take_append_drop]

theorem productLayerChain_length (f k : Nat) (l : List (List F)) :
    (productLayerChain f k l).length = k + 1 := by
  induction k generalizing l with
  | zero => rfl
  | succ k ih => simp [productLayerChain, ih]

theorem productLayerChain_getD_last (f k : Nat) (l : List (List F)) :
    (productLayerChain f k l).getD k [] = l := by
  induction k generalizing l with
  | zero => rfl
  | succ k ih =>
      show (productLayerChain f k _ ++ [l]).getD (k + 1) [] = l
      rw [List.getD_append_right _ _ _ _ (by rw [productLayerChain_length])]
      simp [productLayerChain_length]

theorem productLayerChain_step (f k : Nat) (l : List (List F)) (j : Nat) (hj : j < k) :
    (productLayerChain f k l).getD j [] =
      productNextLayer f ((productLayerChain f k l).getD (j + 1) []) := by
  induction k generalizing l j with
  | zero => omega
  | succ k ih =>
      show (productLayerChain f k _ ++ [l]).getD j [] =
        productNextLayer f ((productLayerChain f k _ ++ [l]).getD (j + 1) [])
      by_cases h : j < k
      · rw [List.getD_append _ _ _ j (by rw [productLayerChain_length]; omega),
          List.getD_append _ _ _ (j + 1) (by rw [productLayerChain_length]; omega)]
        exact ih _ _ h
      · have hjk : j = k := by omega
        subst hjk
        rw [List.getD_append _ _ _ j (by rw [productLayerChain_length]; omega),
          List.getD_append_right _ _ _ _ (by rw [productLayerChain_length])]
        rw [productLayerChain_length, Nat.sub_self, List.getD_cons_zero]
        exact productLayerChain_getD_last f j _

/-- Shape of one tower layer: exactly two branches, each of length `2 ^ j`. -/
def isLayer2 (j : Nat) (layer : List (List F)) : Prop :=
  ∃ A B : List F, layer = [A, B] ∧ A.length = 2 ^ j ∧ B.length = 2 ^ j

theorem productLayerChain_shape (k : Nat) :
    ∀ l : List (List F), isLayer2 k l →
      ∀ j, j ≤ k → isLayer2 j ((productLayerChain 2 k l).getD j []) := by
  induction k with
  | zero =>
      intro l hl j hj
      interval_cases j
      exact hl
  | succ k ih =>
      intro l hl j hj
      obtain ⟨A, B, rfl, hA, hB⟩ := hl
      have hpow : (2 : Nat) ^ (k + 1) = 2 * 2 ^ k := by ring
      show isLayer2 j ((productLayerChain 2 k (productNextLayer 2 [A, B]) ++ [[A, B]]).getD j [])
      by_cases h : j < k + 1
      · rw [List.getD_append _ _ _ j (by rw [productLayerChain_length]; omega)]
        refine ih (productNextLayer 2 [A, B]) ?_ j (by omega)
        rw [productNextLayer_pair A B (2 ^ k) (by rw [hA, hpow]) (by rw [hB, hpow])]
        refine ⟨_, _, rfl, ?_, ?_⟩
        · rw [List.length_zipWith, List.length_take, List.length_take, hA, hB, hpow]
          omega
        · rw [List.length_zipWith, List.length_drop, List.length_drop, hA, hB, hpow]
          omega
      · have hjk : j = k + 1 := by omega
        subst hjk
        rw [List.getD_append_right _ _ _ _ (by rw [productLayerChain_length])]
        simpa [productLayerChain_length] using ⟨A, B, rfl, hA, hB⟩

end ProductTowerLemmas

section ClaimC2

variable {F : Type} [CommRing F]

/-- The halving rule exactly as worded by the C2 claim (for comparison with
the source): branch `i` of the new coarser layer would be the pointwise
product of the two halves of branch `i` of the previous finer layer. -/
def claimC2NextLayer (next_layer : List (List F)) : List (List F) :=
  next_layer.map (fun b =>
    List.zipWith (· * ·) (b.take (b.length / 2)) (b.drop (b.length / 2)))

/-- C2 counterexample: on the finer layer `[[1,2],[3,4]]` the code's coarser
layer is `[[3],[8]]` (the i-th halves of the two branches multiplied
pointwise), not `[[2],[12]]` (the two halves of branch i multiplied
pointwise) as the claim's wording prescribes. -/
theorem claim_C2_counterexample :
    (infer_tower_product_witness 2 [[1, 2], [3, 4]] 2 : List (List (List (ZMod 97)))).getD 0 [] =
        [[3], [8]] ∧
      claimC2NextLayer ([[1, 2], [3, 4]] : List (List (ZMod 97))) = [[2], [12]] ∧
      (infer_tower_product_witness 2 [[1, 2], [3, 4]] 2 : List (List (List (ZMod 97)))).getD 0 []
        ≠ claimC2NextLayer ([[1, 2], [3, 4]] : List (List (ZMod 97))) := by
  decide

/-- C2 (amended): in `infer_tower_product_witness`, every new coarser layer's
branch `i` is the pointwise product of the i-th halves of the two branches of
the previous (finer) layer — branch lengths halving repeatedly until a
2-branch root layer (of singleton branches) is reached. -/
theorem claim_C2_amended (num_vars : Nat) (last_layer : List (List F)) (hv : 1 ≤ num_vars)
    (hl : isLayer2 (num_vars - 1) last_layer) :
    (infer_tower_product_witness num_vars last_layer 2).length = num_vars ∧
      ((infer_tower_product_witness num_vars last_layer 2).getD 0 []).length = 2 ∧
      (∀ i, i < 2 →
        (((infer_tower_product_witness num_vars last_layer 2).getD 0 []).getD i []).length = 1) ∧
      (∀ k, k + 1 < num_vars → ∀ i, i < 2 →
        ((infer_tower_product_witness num_vars last_layer 2).getD k []).getD i [] =
          List.zipWith (· * ·)
            ((((infer_tower_product_witness num_vars last_layer 2).getD (k + 1) []).getD 0
                []).drop (i * 2 ^ k) |>.take (2 ^ k))
            ((((infer_tower_product_witness num_vars last_layer 2).getD (k + 1) []).getD 1
                []).drop (i * 2 ^ k) |>.take (2 ^ k))) := by
  unfold infer_tower_product_witness
  have hshape := productLayerChain_shape (num_vars - 1) last_layer hl
  refine ⟨?_, ?_, ?_, ?_⟩
  · rw [productLayerChain_length]; omega
  · obtain ⟨A, B, hAB, hA, hB⟩ := hshape 0 (by omega)
    rw [hAB]
    rfl
  · obtain ⟨A, B, hAB, hA, hB⟩ := hshape 0 (by omega)
    rw [hAB]
    intro i hi
    interval_cases i
    · simpa using hA
    · simpa using hB
  · intro k hk i hi
    have hstep := productLayerChain_step 2 (num_vars - 1) last_layer k (by omega)
    obtain ⟨A, B, hAB, hA, hB⟩ := hshape (k + 1) (by omega)
    have hpow : (2 : Nat) ^ (k + 1) = 2 * 2 ^ k := by ring
    rw [hstep, hAB,
      productNextLayer_pair A B (2 ^ k) (by rw [hA, hpow]) (by rw [hB, hpow])]
    interval_cases i
    · simp
    · simp only [one_mul, List.getD_cons_succ, List.getD_cons_zero]
      rw [List.take_of_length_le (by rw [List.length_drop, hA]; omega),
        List.take_of_length_le (by rw [List.length_drop, hB]; omega)]

/-- Witness for `claim_C2_amended` at the concrete tower of the Rust unit
test. -/
theorem claim_C2_amended_witness :
    (infer_tower_product_witness 2 [[1, 2], [3, 4]] 2 : List (List (List (ZMod 97)))).length
      = 2 :=
  (claim_C2_amended 2 [[1, 2], [3, 4]] (by norm_num)
    ⟨[1, 2], [3, 4], rfl, by decide, by decide⟩).1

end ClaimC2

section LogupTowerLemmas

variable {F : Type} [CommRing F]

/-- The chain-state successor of `logupLayerChain` (the `acc.push` payload of
the Rust fold). -/
def logupStepState (s : Option (List F × List F) × (List F × List F)) :
    Option (List F × List F) × (List F × List F) :=
  (some (logupDerive s.1 s.2).1, (logupDerive s.1 s.2).2)

theorem logupLayerChain_length (k : Nat)
    (st : Option (List F × List F) × (List F × List F)) :
    (logupLayerChain k st).length = k + 1 := by
  induction k generalizing st with
  | zero => rfl
  | succ k ih => simp [logupLayerChain, ih]

theorem logupLayerChain_getD_last (k : Nat)
    (st d : Option (List F × List F) × (List F × List F)) :
    (logupLayerChain k st).getD k d = st := by
  induction k generalizing st with
  | zero => rfl
  | succ k ih =>
      show (logupLayerChain k _ ++ [st]).getD (k + 1) d = st
      rw [List.getD_append_right _ _ _ _ (by rw [logupLayerChain_length])]
      rw [logupLayerChain_length, Nat.sub_self, List.getD_cons_zero]

theorem logupLayerChain_step (k : Nat)
    (st d : Option (List F × List F) × (List F × List F)) (j : Nat) (hj : j < k) :
    (logupLayerChain k st).getD j d =
      logupStepState ((logupLayerChain k st).getD (j + 1) d) := by
  induction k generalizing st j with
  | zero => omega
  | succ k ih =>
      show (logupLayerChain k (logupStepState st) ++ [st]).getD j d =
        logupStepState ((logupLayerChain k (logupStepState st) ++ [st]).getD (j + 1) d)
      by_cases h : j < k
      · rw [List.getD_append _ _ _ j (by rw [logupLayerChain_length]; omega),
          List.getD_append _ _ _ (j + 1) (by rw [logupLayerChain_length]; omega)]
        exact ih _ _ h
      · have hjk : j = k := by omega
        subst hjk
        rw [List.getD_append _ _ _ j (by rw [logupLayerChain_length]; omega),
          List.getD_append_right _ _ _ _ (by rw [logupLayerChain_length])]
        rw [logupLayerChain_length, Nat.sub_self, List.getD_cons_zero]
        exact logupLayerChain_getD_last j _ d

/-- Shape of a logup tower layer: exactly four vectors, each of length `2 ^ j`. -/
def isLayer4 (j : Nat) (layer : List (List F)) : Prop :=
  ∃ p1 p2 q1 q2 : List F, layer = [p1, p2, q1, q2] ∧
    p1.length = 2 ^ j ∧ p2.length = 2 ^ j ∧ q1.length = 2 ^ j ∧ q2.length = 2 ^ j

/-- Shape of a chain state of the logup fold. -/
def logupStShape (j : Nat) (st : Option (List F × List F) × (List F × List F)) : Prop :=
  (∀ pp : List F × List F, st.1 = some pp → pp.1.length = 2 ^ j ∧ pp.2.length = 2 ^ j) ∧
    st.2.1.length = 2 ^ j ∧ st.2.2.length = 2 ^ j

/-- The half-slice `[cur_len*i .. cur_len*i + cur_len)` read by the tower
builders, with `cur_len = 2 ^ j`. -/
def towerSlice (j i : Nat) (v : List F) : List F := (v.drop (2 ^ j * i)).take (2 ^ j)

theorem towerSlice_length (j i : Nat) (v : List F) (hi : i < 2)
    (hv : v.length = 2 ^ (j + 1)) : (towerSlice j i v).length = 2 ^ j := by
  rw [towerSlice, List.length_take, List.length_drop, hv]
  interval_cases i <;> omega

theorem logupStepState_some (p1 p2 q1 q2 : List F) (j : Nat)
    (hq1 : q1.length = 2 ^ (j + 1)) :
    logupStepState (some (p1, p2), (q1, q2)) =
      (some
        (List.zipWith (· + ·)
            (List.zipWith (· * ·) (towerSlice j 0 p2) (towerSlice j 0 q1))
            (List.zipWith (· * ·) (towerSlice j 0 p1) (towerSlice j 0 q2)),
          List.zipWith (· + ·)
            (List.zipWith (· * ·) (towerSlice j 1 p2) (towerSlice j 1 q1))
            (List.zipWith (· * ·) (towerSlice j 1 p1) (towerSlice j 1 q2))),
       (List.zipWith (· * ·) (towerSlice j 0 q1) (towerSlice j 0 q2),
        List.zipWith (· * ·) (towerSlice j 1 q1) (towerSlice j 1 q2))) := by
  have hc : q1.length / 2 = 2 ^ j := by rw [hq1]; omega
  simp only [logupStepState, logupDerive, hc, towerSlice]

theorem logupStepState_none (q1 q2 : List F) (j : Nat) (hq1 : q1.length = 2 ^ (j + 1)) :
    logupStepState (none, (q1, q2)) =
      (some
        (List.zipWith (· + ·) (towerSlice j 0 q1) (towerSlice j 0 q2),
          List.zipWith (· + ·) (towerSlice j 1 q1) (towerSlice j 1 q2)),
       (List.zipWith (· * ·) (towerSlice j 0 q1) (towerSlice j 0 q2),
        List.zipWith (· * ·) (towerSlice j 1 q1) (towerSlice j 1 q2))) := by
  have hc : q1.length / 2 = 2 ^ j := by rw [hq1]; omega
  simp only [logupStepState, logupDerive, hc, towerSlice]

theorem zipWith_length_eq {α : Type} (f : α → α → α) (a b : List α) (m : Nat)
    (ha : a.length = m) (hb : b.length = m) : (List.zipWith f a b).length = m := by
  rw [List.length_zipWith, ha, hb, Nat.min_self]

theorem logupDerive_shape (j : Nat) (st : Option (List F × List F) × (List F × List F))
    (h : logupStShape (j + 1) st) : logupStShape j (logupStepState st) := by
  obtain ⟨hp, hq1, hq2⟩ := h
  obtain ⟨po, q1, q2⟩ := st
  simp only at hq1 hq2
  cases po with
  | none =>
      rw [logupStepState_none q1 q2 j hq1]
      refine ⟨?_, ?_, ?_⟩
      · rintro pp ⟨rfl⟩
        constructor <;>
          exact zipWith_length_eq (· + ·) _ _ _ (towerSlice_length _ _ _ (by omega) hq1)
            (towerSlice_length _ _ _ (by omega) hq2)
      · exact zipWith_length_eq (· * ·) _ _ _ (towerSlice_length _ _ _ (by omega) hq1)
          (towerSlice_length _ _ _ (by omega) hq2)
      · exact zipWith_length_eq (· * ·) _ _ _ (towerSlice_length _ _ _ (by omega) hq1)
          (towerSlice_length _ _ _ (by omega) hq2)
  | some pp =>
      obtain ⟨hp1, hp2⟩ := hp pp rfl
      obtain ⟨p1, p2⟩ := pp
      simp only at hp1 hp2
      rw [logupStepState_some p1 p2 q1 q2 j hq1]
      refine ⟨?_, ?_, ?_⟩
      · rintro pp2 ⟨rfl⟩
        constructor <;>
          exact zipWith_length_eq (· + ·) _ _ _
            (zipWith_length_eq (· * ·) _ _ _ (towerSlice_length _ _ _ (by omega) hp2)
              (towerSlice_length _ _ _ (by omega) hq1))
            (zipWith_length_eq (· * ·) _ _ _ (towerSlice_length _ _ _ (by omega) hp1)
              (towerSlice_length _ _ _ (by omega) hq2))
      · exact zipWith_length_eq (· * ·) _ _ _ (towerSlice_length _ _ _ (by omega) hq1)
          (towerSlice_length _ _ _ (by omega) hq2)
      · exact zipWith_length_eq (· * ·) _ _ _ (towerSlice_length _ _ _ (by omega) hq1)
          (towerSlice_length _ _ _ (by omega) hq2)

theorem logupLayerChain_shape (k : Nat) :
    ∀ st : Option (List F × List F) × (List F × List F), logupStShape k st →
      ∀ j, j ≤ k → logupStShape j ((logupLayerChain k st).getD j (none, ([], []))) := by
  induction k with
  | zero =>
      intro st hst j hj
      interval_cases j
      exact hst
  | succ k ih =>
      intro st hst j hj
      show logupStShape j ((logupLayerChain k (logupStepState st) ++ [st]).getD j _)
      by_cases h : j < k + 1
      · rw [List.getD_append _ _ _ j (by rw [logupLayerChain_length]; omega)]
        exact ih _ (logupDerive_shape k st hst) j (by omega)
      · have hjk : j = k + 1 := by omega
        subst hjk
        rw [List.getD_append_right _ _ _ _ (by rw [logupLayerChain_length])]
        rw [logupLayerChain_length, Nat.sub_self, List.getD_cons_zero]
        exact hst

theorem getD_map_of_lt {α β : Type} (l : List α) (f : α → β) (n : Nat) (d : α) (d2 : β)
    (h : n < l.length) : (l.map f).getD n d2 = f (l.getD n d) := by
  rw [List.getD_eq_getElem _ _ (by simpa using h), List.getD_eq_getElem _ _ h,
    List.getElem_map]

end LogupTowerLemmas

section ClaimC4

variable {F : Type} [CommRing F]

theorem zipWith_add_comm (a b : List F) :
    List.zipWith (· + ·) a b = List.zipWith (· + ·) b a := by
  induction a generalizing b with
  | nil => cases b <;> rfl
  | cons x a ih =>
      cases b with
      | nil => rfl
      | cons y b => simp [ih, add_comm]

theorem towerSlice_replicate (k i : Nat) (hi : i < 2) :
    towerSlice k i (List.replicate (2 ^ (k + 1)) (1 : F)) = List.replicate (2 ^ k) 1 := by
  rw [towerSlice, List.drop_replicate, List.take_replicate]
  congr 1
  interval_cases i <;> omega

theorem zipWith_one_mul_full (l : List F) (m : Nat) (hl : l.length = m) :
    List.zipWith (· * ·) (List.replicate m (1 : F)) l = l := by
  rw [show ((· * ·) : F → F → F) = fun e v => e * v from rfl, zipWith_one_mul]
  exact List.take_of_length_le (by omega)

/-- C4: in `infer_tower_logup_witness` the returned leaf layer's two
p-components are identically the constant-1 vector (and its q-components are
the two inputs), and every coarser layer is derived from the two halves of
the finer layer by `p_next = p1·q2 + p2·q1` and `q_next = q1·q2` pointwise. -/
theorem claim_C4 (q1 q2 : List F) (n : Nat) (h1 : q1.length = 2 ^ n)
    (h2 : q2.length = 2 ^ n) :
    (infer_tower_logup_witness [q1, q2]).length = n + 1 ∧
      (infer_tower_logup_witness [q1, q2]).getD n [] =
        [List.replicate (2 ^ n) 1, List.replicate (2 ^ n) 1, q1, q2] ∧
      (∀ k, k < n → ∀ i, i < 2 →
        ((infer_tower_logup_witness [q1, q2]).getD k []).getD i [] =
          List.zipWith (· + ·)
            (List.zipWith (· * ·)
              (towerSlice k i (((infer_tower_logup_witness [q1, q2]).getD (k + 1) []).getD 0 []))
              (towerSlice k i (((infer_tower_logup_witness [q1, q2]).getD (k + 1) []).getD 3 [])))
            (List.zipWith (· * ·)
              (towerSlice k i (((infer_tower_logup_witness [q1, q2]).getD (k + 1) []).getD 1 []))
              (towerSlice k i (((infer_tower_logup_witness [q1, q2]).getD (k + 1) []).getD 2 [])))
        ∧
        ((infer_tower_logup_witness [q1, q2]).getD k []).getD (2 + i) [] =
          List.zipWith (· * ·)
            (towerSlice k i (((infer_tower_logup_witness [q1, q2]).getD (k + 1) []).getD 2 []))
            (towerSlice k i (((infer_tower_logup_witness [q1, q2]).getD (k + 1) []).getD 3 []))) := by
  have hnum : ceil_log2 q1.length = n := by
    rw [h1, ceil_log2_eq_clog, Nat.clog_pow 2 n (by norm_num)]
  have hW : infer_tower_logup_witness [q1, q2] =
      (logupLayerChain n (none, (q1, q2))).map logupToLayer := by
    unfold infer_tower_logup_witness
    simp only [List.headD_cons, List.drop_succ_cons, List.drop_zero, hnum]
  have hshape := logupLayerChain_shape n (none, (q1, q2))
    ⟨(fun pp h => nomatch h), h1, h2⟩
  refine ⟨?_, ?_, ?_⟩
  · rw [hW, List.length_map, logupLayerChain_length]
  · rw [hW, getD_map_of_lt (logupLayerChain n (none, (q1, q2))) logupToLayer n
      (none, ([], [])) [] (by rw [logupLayerChain_length]; omega),
      logupLayerChain_getD_last]
    simp only [logupToLayer, h1]
  · intro k hk i hi
    have hmap0 : (infer_tower_logup_witness [q1, q2]).getD k [] =
        logupToLayer ((logupLayerChain n (none, (q1, q2))).getD k (none, ([], []))) := by
      rw [hW, getD_map_of_lt (logupLayerChain n (none, (q1, q2))) logupToLayer k
        (none, ([], [])) [] (by rw [logupLayerChain_length]; omega)]
    have hmap1 : (infer_tower_logup_witness [q1, q2]).getD (k + 1) [] =
        logupToLayer ((logupLayerChain n (none, (q1, q2))).getD (k + 1) (none, ([], []))) := by
      rw [hW, getD_map_of_lt (logupLayerChain n (none, (q1, q2))) logupToLayer (k + 1)
        (none, ([], [])) [] (by rw [logupLayerChain_length]; omega)]
    have hstep := logupLayerChain_step n (none, (q1, q2)) (none, ([], [])) k hk
    rcases hsplit : (logupLayerChain n (none, (q1, q2))).getD (k + 1) (none, ([], []))
      with ⟨po, qq1, qq2⟩
    rw [hsplit] at hstep hmap1
    have hshape1 := hshape (k + 1) (by omega)
    rw [hsplit] at hshape1
    obtain ⟨hsh, hq1s, hq2s⟩ := hshape1
    simp only at hq1s hq2s
    by_cases hk1 : k + 1 < n
    · -- the finer level still has materialised p-components
      have hstep1 := logupLayerChain_step n (none, (q1, q2)) (none, ([], [])) (k + 1) hk1
      rw [hsplit] at hstep1
      have hpo := congrArg Prod.fst hstep1
      simp only [logupStepState] at hpo
      cases po with
      | none => exact absurd hpo (by simp)
      | some pp =>
          obtain ⟨pp1, pp2⟩ := pp
          obtain ⟨hp1, hp2⟩ := hsh (pp1, pp2) rfl
          simp only at hp1 hp2
          rw [hmap0, hmap1, hstep, logupStepState_some pp1 pp2 qq1 qq2 k hq1s]
          simp only [logupToLayer]
          interval_cases i
          · refine ⟨?_, rfl⟩
            simp only [List.getD_cons_zero, List.getD_cons_succ]
            rw [zipWith_add_comm]
          · refine ⟨?_, rfl⟩
            simp only [List.getD_cons_zero, List.getD_cons_succ]
            rw [zipWith_add_comm]
    · -- the finer level is the leaf: its p-components are all-ones vectors
      have hkn : k + 1 = n := by omega
      have hlast : (logupLayerChain n (none, (q1, q2))).getD (k + 1) (none, ([], [])) =
          (none, (q1, q2)) := by
        rw [hkn]
        exact logupLayerChain_getD_last n _ _
      rw [hsplit] at hlast
      obtain ⟨hpo, hqq1, hqq2⟩ : po = none ∧ qq1 = q1 ∧ qq2 = q2 := by
        refine ⟨congrArg Prod.fst hlast, ?_, ?_⟩
        · have := congrArg (fun x => x.2.1) hlast
          simpa using this
        · have := congrArg (fun x => x.2.2) hlast
          simpa using this
      subst hpo
      simp only [hqq1, hqq2] at hstep hmap1 hq1s hq2s
      rw [hmap0, hmap1, hstep, logupStepState_none q1 q2 k hq1s]
      simp only [logupToLayer, h1]
      have h1k : q1.length = 2 ^ (k + 1) := hq1s
      have h2k : q2.length = 2 ^ (k + 1) := hq2s
      have hone : ∀ v : List F, v.length = 2 ^ (k + 1) → ∀ ii, ii < 2 →
          List.zipWith (· * ·) (towerSlice k ii (List.replicate (2 ^ (k + 1)) (1 : F)))
            (towerSlice k ii v) = towerSlice k ii v := by
        intro v hv ii hii
        rw [towerSlice_replicate k ii hii]
        exact zipWith_one_mul_full _ _ (towerSlice_length k ii v hii hv)
      have hrepl : (2 : Nat) ^ n = 2 ^ (k + 1) := by rw [hkn]
      interval_cases i
      · refine ⟨?_, rfl⟩
        simp only [List.getD_cons_zero, List.getD_cons_succ, hrepl]
        rw [hone q2 h2k 0 (by omega), hone q1 h1k 0 (by omega), zipWith_add_comm]
      · refine ⟨?_, rfl⟩
        simp only [List.getD_cons_zero, List.getD_cons_succ, hrepl]
        rw [hone q2 h2k 1 (by omega), hone q1 h1k 1 (by omega), zipWith_add_comm]

/-- Witness for `claim_C4` at the concrete logup tower of the Rust unit
test. -/
theorem claim_C4_witness :
    (infer_tower_logup_witness [[1, 2], [3, 4]] : List (List (List (ZMod 97)))).getD 1 [] =
      [List.replicate 2 1, List.replicate 2 1, [1, 2], [3, 4]] :=
  (claim_C4 [1, 2] [3, 4] 1 (by decide) (by decide)).2.1

end ClaimC4

section ClaimC5

variable {F : Type} [CommRing F]

/-- The read-record leaf layer of `ZKVMProver::create_proof`
(prover.rs lines 98-99): interleave the per-instance read records into
`NUM_FANIN` vectors, padding missing slots with the multiplicative identity
`E::ONE`.  The `log2_per_instance_size` argument of the 5-parameter
`interleaving_mles_to_mles` of this tree is the log of the padded
per-instance record count, `ceil_log2` of the record count (as in its unit
tests). -/
def r_records_last_layer (r_records_wit : List (List F)) (log2_num_instances : Nat) :
    List (List F) :=
  interleaving_mles_to_mles r_records_wit log2_num_instances
    (ceil_log2 r_records_wit.length) NUM_FANIN 1

/-- The write-record leaf layer (prover.rs lines 114-115), padded with
`E::ONE`. -/
def w_records_last_layer (w_records_wit : List (List F)) (log2_num_instances : Nat) :
    List (List F) :=
  interleaving_mles_to_mles w_records_wit log2_num_instances
    (ceil_log2 w_records_wit.length) NUM_FANIN 1

/-- The lookup-record leaf layer (prover.rs lines 129-134): padded with the
challenge `chip_record_alpha` — not with 1. -/
def lk_records_last_layer (lk_records_wit : List (List F)) (log2_num_instances : Nat)
    (chip_record_alpha : F) : List (List F) :=
  interleaving_mles_to_mles lk_records_wit log2_num_instances
    (ceil_log2 lk_records_wit.length) NUM_FANIN chip_record_alpha

theorem getD_foldl_set {α : Type} (idxf : Nat → Nat) (valf : Nat → α) (js : List Nat)
    (ev : List α) (p : Nat) (d : α) (h : ∀ j ∈ js, idxf j ≠ p) :
    ((js.foldl (fun e j => e.set (idxf j) (valf j)) ev).getD p d) = ev.getD p d := by
  induction js generalizing ev with
  | nil => rfl
  | cons j js ih =>
      rw [List.foldl_cons, ih _ (fun x hx => h x (List.mem_cons_of_mem _ hx)),
        List.getD_eq_getElem?_getD, List.getD_eq_getElem?_getD,
        List.getElem?_set_ne (h j (List.mem_cons_self j js))]

/-- The `fanin_index`-th output of `interleaving_mles_to_mles`, as an explicit
double fold of `List.set` updates. -/
theorem interleaving_getD (mles : List (List F)) (log2_num_instances : Nat)
    (log2_per_instance_size : Nat) (num_limbs : Nat) (default : F)
    (fanin_index : Nat) (hf : fanin_index < num_limbs) :
    (interleaving_mles_to_mles mles log2_num_instances log2_per_instance_size num_limbs
        default).getD fanin_index [] =
      (List.range mles.length).foldl
        (fun evaluations i =>
          (List.range ((mles.headD []).length / num_limbs)).foldl
            (fun ev j => ev.set (j * 2 ^ log2_per_instance_size + i)
              ((mles.getD i []).getD ((mles.headD []).length / num_limbs * fanin_index + j) 0))
            evaluations)
        (List.replicate
          (2 ^ (log2_num_instances + log2_per_instance_size - ceil_log2 num_limbs))
          default) := by
  unfold interleaving_mles_to_mles
  rw [getD_map_of_lt (List.range num_limbs) _ fanin_index 0 [] (by simpa using hf)]
  have hidx : (List.range num_limbs).getD fanin_index 0 = fanin_index := by
    rw [List.getD_eq_getElem _ _ (by simpa using hf), List.getElem_range]
  rw [hidx]

/-- Positions whose in-chunk offset is at least `mles.length` are never
written by `interleaving_mles_to_mles` and keep the `default` value. -/
theorem interleaving_padding (mles : List (List F)) (log2_num_instances : Nat)
    (log2_per_instance_size : Nat) (num_limbs : Nat) (default : F)
    (fanin_index : Nat) (hf : fanin_index < num_limbs)
    (j0 i0 : Nat) (hi0 : mles.length ≤ i0) (hi0b : i0 < 2 ^ log2_per_instance_size) :
    ((interleaving_mles_to_mles mles log2_num_instances log2_per_instance_size num_limbs
        default).getD fanin_index []).getD (j0 * 2 ^ log2_per_instance_size + i0) default =
      default := by
  rw [interleaving_getD mles log2_num_instances log2_per_instance_size num_limbs default
    fanin_index hf]
  have hkey : ∀ is : List Nat, (∀ x ∈ is, x < mles.length) → ∀ ev : List F,
      ((is.foldl
          (fun evaluations i =>
            (List.range ((mles.headD []).length / num_limbs)).foldl
              (fun ev j => ev.set (j * 2 ^ log2_per_instance_size + i)
                ((mles.getD i []).getD
                  ((mles.headD []).length / num_limbs * fanin_index + j) 0))
              evaluations)
          ev).getD (j0 * 2 ^ log2_per_instance_size + i0) default) =
        ev.getD (j0 * 2 ^ log2_per_instance_size + i0) default := by
    intro is his
    induction is with
    | nil => intro ev; rfl
    | cons i is ih =>
        intro ev
        rw [List.foldl_cons, ih (fun x hx => his x (List.mem_cons_of_mem _ hx))]
        refine getD_foldl_set _ _ _ _ _ _ ?_
        intro j _ heq
        have hilt : i < mles.length := his i (List.mem_cons_self i is)
        have hmod1 : (j * 2 ^ log2_per_instance_size + i) % 2 ^ log2_per_instance_size =
            i := by
          rw [Nat.mul_comm j, Nat.mul_add_mod]
          exact Nat.mod_eq_of_lt (by omega)
        have hmod0 : (j0 * 2 ^ log2_per_instance_size + i0) % 2 ^ log2_per_instance_size =
            i0 := by
          rw [Nat.mul_comm j0, Nat.mul_add_mod]
          exact Nat.mod_eq_of_lt hi0b
        rw [heq, hmod0] at hmod1
        omega
  rw [hkey (List.range mles.length) (fun x hx => by simpa using hx)]
  rw [List.getD_eq_getElem?_getD, List.getElem?_replicate]
  split <;> rfl

/-- C5 (amended): when fewer top-level per-instance terms are supplied than
the next power of two, `interleaving_mles_to_mles` pads every missing slot
with its caller-supplied `default`; at the prover call sites that default is
1 for the product specs (read and write records) but `chip_record_alpha`
(the dummy-table-item challenge) for the logup denominator — padded logup
lanes contribute `1/alpha` each, compensated by the outer verifier's dummy
multiplicity count rather than leaving the fractional sum unchanged.  (The
logup numerator is the constant-1 vector, built by
`infer_tower_logup_witness`; see `claim_C4`.) -/
theorem claim_C5_amended (wit : List (List F)) (log2_num_instances : Nat)
    (chip_record_alpha : F) (fanin_index : Nat) (hf : fanin_index < NUM_FANIN)
    (j0 i0 : Nat) (hi0 : wit.length ≤ i0) (hi0b : i0 < 2 ^ ceil_log2 wit.length) :
    (∀ (l2pis nl : Nat) (df : F) (fi j i : Nat), fi < nl → wit.length ≤ i →
        i < 2 ^ l2pis →
        ((interleaving_mles_to_mles wit log2_num_instances l2pis nl df).getD fi
          []).getD (j * 2 ^ l2pis + i) df = df) ∧
      ((r_records_last_layer wit log2_num_instances).getD fanin_index []).getD
          (j0 * 2 ^ ceil_log2 wit.length + i0) 1 = 1 ∧
      ((w_records_last_layer wit log2_num_instances).getD fanin_index []).getD
          (j0 * 2 ^ ceil_log2 wit.length + i0) 1 = 1 ∧
      ((lk_records_last_layer wit log2_num_instances chip_record_alpha).getD fanin_index
          []).getD (j0 * 2 ^ ceil_log2 wit.length + i0) chip_record_alpha =
        chip_record_alpha := by
  refine ⟨?_, ?_, ?_, ?_⟩
  · intro l2pis nl df fi j i hfi hi hib
    exact interleaving_padding wit log2_num_instances l2pis nl df fi hfi j i hi hib
  · exact interleaving_padding wit log2_num_instances _ NUM_FANIN 1 fanin_index hf
      j0 i0 hi0 hi0b
  · exact interleaving_padding wit log2_num_instances _ NUM_FANIN 1 fanin_index hf
      j0 i0 hi0 hi0b
  · exact interleaving_padding wit log2_num_instances _ NUM_FANIN chip_record_alpha
      fanin_index hf j0 i0 hi0 hi0b

/-- Witness for `claim_C5_amended` at the padded-interleaving unit test
shape. -/
theorem claim_C5_amended_witness :
    ((lk_records_last_layer [[1, 2], [3, 4], [5, 6]] 1 (2 : ZMod 97)).getD 0 []).getD
        (0 * 2 ^ ceil_log2 3 + 3) 2 = 2 :=
  (claim_C5_amended [[1, 2], [3, 4], [5, 6]] 1 (2 : ZMod 97) 0 (by norm_num [NUM_FANIN])
    0 3 (by norm_num) (by decide)).2.2.2

/-- C5 counterexample: with `chip_record_alpha = 2`, the padded slot of the
logup denominator leaf layer holds 2, not the claimed identity 1
(the concrete layer is `[[1,3,5,2],[2,4,6,2]]`). -/
theorem claim_C5_counterexample :
    lk_records_last_layer [[1, 2], [3, 4], [5, 6]] 1 (2 : ZMod 97) =
        [[1, 3, 5, 2], [2, 4, 6, 2]] ∧
      ((lk_records_last_layer [[1, 2], [3, 4], [5, 6]] 1 (2 : ZMod 97)).getD 0 []).getD 3 0
        ≠ 1 := by
  constructor
  · decide
  · decide

end ClaimC5

section SumcheckLemmas

variable {F : Type} [CommRing F]

theorem polyEval_cons (a : F) (p : List F) (x : F) :
    polyEval (a :: p) x = a + x * polyEval p x := rfl

theorem polyEval_polyAdd (p q : List F) (x : F) :
    polyEval (polyAdd p q) x = polyEval p x + polyEval q x := by
  induction p generalizing q with
  | nil => simp [polyAdd, polyEval]
  | cons a p ih =>
      cases q with
      | nil => simp [polyAdd, polyEval]
      | cons b q =>
          simp only [polyAdd, polyEval_cons, ih]
          ring

theorem polyEval_polyScale (c : F) (p : List F) (x : F) :
    polyEval (polyScale c p) x = c * polyEval p x := by
  induction p with
  | nil => simp [polyScale, polyEval]
  | cons a p ih =>
      simp only [polyScale, List.map_cons, polyEval_cons] at *
      rw [ih]
      ring

theorem polyEval_polyMul (p q : List F) (x : F) :
    polyEval (polyMul p q) x = polyEval p x * polyEval q x := by
  induction p with
  | nil => simp [polyMul, polyEval]
  | cons a p ih =>
      simp only [polyMul, polyEval_polyAdd, polyEval_polyScale, polyEval_cons, ih]
      ring

theorem polyEval_sumPolys (l : List (List F)) (x : F) :
    polyEval (sumPolys l) x = (l.map (fun p => polyEval p x)).sum := by
  induction l with
  | nil => rfl
  | cons p l ih =>
      simp only [sumPolys, List.foldr_cons, List.map_cons, List.sum_cons] at *
      rw [polyEval_polyAdd, ih]

theorem map_polyEval_zipWith_polyMul (u v : List (List F)) (x : F) :
    (List.zipWith polyMul u v).map (fun p => polyEval p x) =
      List.zipWith (· * ·) (u.map (fun p => polyEval p x))
        (v.map (fun p => polyEval p x)) := by
  induction u generalizing v with
  | nil => rfl
  | cons a u ih =>
      cases v with
      | nil => rfl
      | cons b v => simp [polyEval_polyMul, ih]

theorem map_polyEval_linTable : ∀ (v : List F) (r : F),
    (linTable v).map (fun p => polyEval p r) = fold1 r v
  | [], _ => rfl
  | [_], _ => rfl
  | a :: b :: rest, r => by
      simp only [linTable, fold1, List.map_cons]
      rw [map_polyEval_linTable rest r]
      congr 1
      simp [polyEval]

theorem map_polyEval_prodLin : ∀ (ts : List (List F)) (r : F),
    (prodLin (ts.map linTable)).map (fun p => polyEval p r) =
      prodTables (ts.map (fold1 r))
  | [], _ => rfl
  | [t], r => map_polyEval_linTable t r
  | t :: t2 :: rest, r => by
      simp only [List.map_cons, prodLin, prodTables]
      rw [map_polyEval_zipWith_polyMul, map_polyEval_linTable]
      have := map_polyEval_prodLin (t2 :: rest) r
      simp only [List.map_cons, prodLin, prodTables] at this
      rw [this]

/-- The value of a batched sum-check instance: `Σ_t c_t · Σ_x Π_i m_{t,i}[x]`. -/
def instanceSum (terms : List (F × List (List F))) : F :=
  (terms.map (fun ct => ct.1 * (prodTables ct.2).sum)).sum

/-- The fully-reduced value of a batched instance at a point:
`Σ_t c_t · Π_i MLE(m_{t,i})(pt)`. -/
def instanceSumAt (pt : List F) (terms : List (F × List (List F))) : F :=
  (terms.map (fun ct => ct.1 * (ct.2.map (fun tb => mleEval tb pt)).prod)).sum

/-- Well-formedness of a batched instance over `n` variables: every term has
at least one table and all tables have length `2 ^ n`. -/
def termsWF (n : Nat) (terms : List (F × List (List F))) : Prop :=
  ∀ ct ∈ terms, ct.2 ≠ [] ∧ ∀ t ∈ ct.2, t.length = 2 ^ n

theorem polyEval_roundMsg (terms : List (F × List (List F))) (r : F) :
    polyEval (roundMsg terms) r = instanceSum (terms.map (foldTerm r)) := by
  rw [roundMsg, polyEval_sumPolys, instanceSum, List.map_map, List.map_map]
  congr 1
  refine List.map_congr_left ?_
  intro ct _
  simp only [Function.comp_apply, foldTerm]
  rw [polyEval_polyScale, polyEval_sumPolys, map_polyEval_prodLin]

theorem fold1_length : ∀ v : List F, ∀ r : F, (fold1 r v).length = v.length / 2
  | [], _ => by simp [fold1]
  | [_], _ => by simp [fold1]
  | _ :: _ :: rest, r => by
      simp only [fold1, List.length_cons, fold1_length rest r]
      omega

theorem sum_fold1_zero_one : ∀ v : List F, Even v.length →
    (fold1 (0 : F) v).sum + (fold1 (1 : F) v).sum = v.sum
  | [], _ => by simp [fold1]
  | [_], h => by simp at h
  | a :: b :: rest, h => by
      have hrest : Even rest.length := by
        rcases h with ⟨m, hm⟩
        simp only [List.length_cons] at hm
        exact ⟨m - 1, by omega⟩
      simp only [fold1, List.sum_cons]
      rw [← sum_fold1_zero_one rest hrest]
      ring

end SumcheckLemmas

section SumcheckComplete

variable {F : Type} [CommRing F] [DecidableEq F]

theorem fold1_zero_zipWith_mul : ∀ u v : List F,
    fold1 (0 : F) (List.zipWith (· * ·) u v) =
      List.zipWith (· * ·) (fold1 0 u) (fold1 0 v)
  | [], v => by simp [fold1]
  | a :: u, [] => by simp [fold1]
  | [a], b :: v => by cases v <;> simp [fold1]
  | a :: a2 :: u, [b] => by simp [fold1]
  | a :: a2 :: u, b :: b2 :: v => by
      simp only [List.zipWith_cons_cons, fold1]
      rw [fold1_zero_zipWith_mul u v]
      congr 1
      ring

theorem fold1_one_zipWith_mul : ∀ u v : List F,
    fold1 (1 : F) (List.zipWith (· * ·) u v) =
      List.zipWith (· * ·) (fold1 1 u) (fold1 1 v)
  | [], v => by simp [fold1]
  | a :: u, [] => by simp [fold1]
  | [a], b :: v => by cases v <;> simp [fold1]
  | a :: a2 :: u, [b] => by simp [fold1]
  | a :: a2 :: u, b :: b2 :: v => by
      simp only [List.zipWith_cons_cons, fold1]
      rw [fold1_one_zipWith_mul u v]
      congr 1
      ring

theorem prodTables_map_fold1_zero : ∀ ts : List (List F),
    prodTables (ts.map (fold1 (0 : F))) = fold1 0 (prodTables ts)
  | [] => by simp [prodTables, fold1]
  | [t] => rfl
  | t :: t2 :: ts => by
      have ih := prodTables_map_fold1_zero (t2 :: ts)
      simp only [List.map_cons, prodTables] at ih ⊢
      rw [ih, ← fold1_zero_zipWith_mul]

theorem prodTables_map_fold1_one : ∀ ts : List (List F),
    prodTables (ts.map (fold1 (1 : F))) = fold1 1 (prodTables ts)
  | [] => by simp [prodTables, fold1]
  | [t] => rfl
  | t :: t2 :: ts => by
      have ih := prodTables_map_fold1_one (t2 :: ts)
      simp only [List.map_cons, prodTables] at ih ⊢
      rw [ih, ← fold1_one_zipWith_mul]

theorem prodTables_length : ∀ (ts : List (List F)) (m : Nat), ts ≠ [] →
    (∀ t ∈ ts, t.length = m) → (prodTables ts).length = m
  | [], _, h, _ => absurd rfl h
  | [t], m, _, hm => hm t (by simp)
  | t :: t2 :: ts, m, _, hm => by
      simp only [prodTables]
      exact zipWith_length_eq _ _ _ _ (hm t (by simp))
        (prodTables_length (t2 :: ts) m (by simp)
          (fun x hx => hm x (List.mem_cons_of_mem _ hx)))

theorem instanceSum_fold_split (n : Nat) : ∀ terms : List (F × List (List F)),
    termsWF (n + 1) terms →
    instanceSum (terms.map (foldTerm (0 : F))) +
        instanceSum (terms.map (foldTerm (1 : F))) =
      instanceSum terms := by
  intro terms
  induction terms with
  | nil => intro _; simp [instanceSum]
  | cons ct terms ih =>
      intro h
      have hct := h ct (List.mem_cons_self _ _)
      have h2 : termsWF (n + 1) terms := fun x hx => h x (List.mem_cons_of_mem _ hx)
      simp only [instanceSum, List.map_cons, List.sum_cons, foldTerm] at ih ⊢
      have hhead : ct.1 * (prodTables (ct.2.map (fold1 (0 : F)))).sum +
          ct.1 * (prodTables (ct.2.map (fold1 (1 : F)))).sum =
          ct.1 * (prodTables ct.2).sum := by
        rw [prodTables_map_fold1_zero, prodTables_map_fold1_one, ← mul_add,
          sum_fold1_zero_one (prodTables ct.2)
            (by
              rw [prodTables_length ct.2 (2 ^ (n + 1)) hct.1 hct.2]
              exact ⟨2 ^ n, by ring⟩)]
      have htail := ih h2
      linear_combination hhead + htail

theorem list_length_one {α : Type} (l : List α) (h : l.length = 1) : ∃ x, l = [x] := by
  cases l with
  | nil => simp at h
  | cons a l =>
      cases l with
      | nil => exact ⟨a, rfl⟩
      | cons b l => simp at h

theorem prodTables_sum_singletons : ∀ ts : List (List F), ts ≠ [] →
    (∀ t ∈ ts, t.length = 1) →
    (prodTables ts).sum = (ts.map (fun t => t.headD 0)).prod
  | [], h, _ => absurd rfl h
  | [t], _, hm => by
      obtain ⟨a, rfl⟩ := list_length_one t (hm t (by simp))
      simp [prodTables]
  | t :: t2 :: ts, _, hm => by
      obtain ⟨a, rfl⟩ := list_length_one t (hm _ (by simp))
      obtain ⟨b, hb⟩ := list_length_one (prodTables (t2 :: ts))
        (prodTables_length (t2 :: ts) 1 (by simp)
          (fun x hx => hm x (List.mem_cons_of_mem _ hx)))
      have ih := prodTables_sum_singletons (t2 :: ts) (by simp)
        (fun x hx => hm x (List.mem_cons_of_mem _ hx))
      rw [hb] at ih
      have ih2 : b = (List.map (fun t => t.headD 0) (t2 :: ts)).prod := by simpa using ih
      show (List.zipWith (· * ·) [a] (prodTables (t2 :: ts))).sum = _
      rw [hb, List.map_cons, List.prod_cons, ← ih2]
      simp

end SumcheckComplete

section SumcheckComplete2

variable {F : Type} [CommRing F] [DecidableEq F]

theorem instanceSum_singletons (terms : List (F × List (List F))) (h : termsWF 0 terms) :
    instanceSum terms = instanceSumAt [] terms := by
  unfold instanceSum instanceSumAt
  congr 1
  refine List.map_congr_left ?_
  intro ct hct
  obtain ⟨hne, hlen⟩ := h ct hct
  congr 1
  rw [prodTables_sum_singletons ct.2 hne (by simpa using hlen)]
  rfl

theorem instanceSumAt_cons (r : F) (pt : List F) (terms : List (F × List (List F))) :
    instanceSumAt (r :: pt) terms = instanceSumAt pt (terms.map (foldTerm r)) := by
  unfold instanceSumAt
  rw [List.map_map]
  congr 1
  refine List.map_congr_left ?_
  intro ct _
  simp only [Function.comp_apply, foldTerm, List.map_map]
  rfl

theorem termsWF_fold (n : Nat) (terms : List (F × List (List F))) (r : F)
    (h : termsWF (n + 1) terms) : termsWF n (terms.map (foldTerm r)) := by
  intro ct hct
  rw [List.mem_map] at hct
  obtain ⟨ct0, hct0, rfl⟩ := hct
  obtain ⟨hne, hlen⟩ := h ct0 hct0
  refine ⟨by simpa [foldTerm] using hne, ?_⟩
  intro tb htb
  simp only [foldTerm, List.mem_map] at htb
  obtain ⟨t0, ht0, rfl⟩ := htb
  rw [fold1_length, hlen t0 ht0]
  omega

theorem roundMsg_zero_one (n : Nat) (terms : List (F × List (List F)))
    (h : termsWF (n + 1) terms) :
    polyEval (roundMsg terms) 0 + polyEval (roundMsg terms) 1 = instanceSum terms := by
  rw [polyEval_roundMsg, polyEval_roundMsg]
  exact instanceSum_fold_split n terms h

theorem sumcheckProve_msgs_length : ∀ (n : Nat) (polys : List (List F))
    (terms : List (F × List (List F))) (t : Transcript F),
    (sumcheckProve n polys terms t).1.length = n
  | 0, _, _, _ => rfl
  | n + 1, polys, terms, t => by
      simp only [sumcheckProve, List.length_cons]
      rw [sumcheckProve_msgs_length n]

theorem sumcheckVerifyAux_complete : ∀ (n : Nat) (polys : List (List F))
    (terms : List (F × List (List F))) (t : Transcript F), termsWF n terms →
    sumcheckVerifyAux (instanceSum terms) ((sumcheckProve n polys terms t).1) t =
      some ((sumcheckProve n polys terms t).2.1,
        instanceSumAt ((sumcheckProve n polys terms t).2.1) terms,
        (sumcheckProve n polys terms t).2.2.2)
  | 0, polys, terms, t, h => by
      simp only [sumcheckProve, sumcheckVerifyAux]
      rw [instanceSum_singletons terms h]
  | n + 1, polys, terms, t, h => by
      have hg := roundMsg_zero_one n terms h
      simp only [sumcheckProve, sumcheckVerifyAux]
      rw [if_pos hg, polyEval_roundMsg,
        sumcheckVerifyAux_complete n (polys.map (fold1 _)) (terms.map (foldTerm _)) _
          (termsWF_fold n terms _ h)]
      simp only [Option.map_some']
      rw [instanceSumAt_cons]

theorem sumcheckProve_finalEvals : ∀ (n : Nat) (polys : List (List F))
    (terms : List (F × List (List F))) (t : Transcript F),
    ((sumcheckProve n polys terms t).2.2.1).map (fun p => p.headD 0) =
      polys.map (fun p => mleEval p ((sumcheckProve n polys terms t).2.1))
  | 0, polys, terms, t => rfl
  | n + 1, polys, terms, t => by
      simp only [sumcheckProve]
      rw [sumcheckProve_finalEvals n, List.map_map]
      rfl

end SumcheckComplete2

section ClaimsConcrete

/-- A deterministic Fiat-Shamir oracle over `ZMod 97`, used by the
concrete-scenario theorems below (both parties derive every challenge from
the absorbed messages alone, so seeding prover and verifier identically
means giving them this same oracle and starting log). -/
def demoTch : Transcript (ZMod 97) := ⟨fun l => l.sum + 3, []⟩

/-- The concrete product tower of the two-leaf scenario: leaf branch
vectors `[1,2]` and `[3,4]`, fan-in 2. -/
def demoProdW : List (List (List (ZMod 97))) :=
  infer_tower_product_witness 2 [[1, 2], [3, 4]] 2

/-- The `TowerProofs` produced by `TowerProver::create_proof` on the
two-leaf product scenario. -/
def demoProof : TowerProofs (ZMod 97) :=
  ((TowerProver.create_proof [⟨demoProdW⟩] [] 2 demoTch).map (fun r => r.2.1)).getD
    (TowerProofs.new (ZMod 97) 0 0)

/-- C3: on the concrete input of two product-spec leaf branch vectors
`[1,2]` and `[3,4]` with fan-in 2, the built tower's root layer has branch
values `[3]` and `[8]` (that is, `1*3` and `2*4`), the final product across
both branches is `24 = (1*2)*(3*4)`, the prover emits a 1-round proof, and
the verifier accepts it, ending at the same final point as the prover. -/
theorem claim_C3 :
    (demoProdW.getD 0 []).getD 0 [] = [3] ∧
    (demoProdW.getD 0 []).getD 1 [] = [8] ∧
    ((3 : ZMod 97) = 1 * 3 ∧ (8 : ZMod 97) = 2 * 4) ∧
    ((demoProdW.getD 0 []).getD 0 []).headD 0 *
      ((demoProdW.getD 0 []).getD 1 []).headD 0 = 24 ∧
    (24 : ZMod 97) = (1 * 2) * (3 * 4) ∧
    (TowerProver.create_proof [⟨demoProdW⟩] [] 2 demoTch).map
      (fun r => r.2.1.proofs.length) = some 1 ∧
    (TowerProver.create_proof [⟨demoProdW⟩] [] 2 demoTch).map (fun r => r.1)
      = some [60, 23] ∧
    (TowerVerify.verify [[3, 8]] [] demoProof [2] 2 demoTch).toOption.map (fun r => r.1)
      = some [60, 23] := by
  decide

/-- C8: after the tower verification inside `verify_opcode_proof`, the
verifier checks the numerator `PointAndEval` at logup index 0: a value other
than 1 fails with the lookup-table-witness-not-one error; the value 1 lets
verification continue with the tower outputs. -/
theorem claim_C8 {F : Type} [CommRing F] [DecidableEq F] {α : Type}
    (prod_out_evals logup_out_evals : List (List F)) (tower_proofs : TowerProofs F)
    (expected_rounds : List Nat) (nf : Nat) (t : Transcript F)
    (rest : List F → List (PointAndEval F) → List (PointAndEval F) →
      List (PointAndEval F) → Transcript F → Except VError α) :
    (∀ v, (TowerVerify.verify prod_out_evals logup_out_evals tower_proofs expected_rounds
          nf t).toOption.map (fun r => (r.2.2.1.getD 0 ⟨[], 0⟩).eval) = some v → v ≠ 1 →
      verifyOpcodeTowerStage prod_out_evals logup_out_evals tower_proofs expected_rounds
        nf t rest = .error .lookupTableWitnessNotOne) ∧
    ((TowerVerify.verify prod_out_evals logup_out_evals tower_proofs expected_rounds
          nf t).toOption.map (fun r => (r.2.2.1.getD 0 ⟨[], 0⟩).eval) = some 1 →
      verifyOpcodeTowerStage prod_out_evals logup_out_evals tower_proofs expected_rounds
        nf t rest =
        (TowerVerify.verify prod_out_evals logup_out_evals tower_proofs expected_rounds
          nf t).bind (fun r => rest r.1 r.2.1 r.2.2.1 r.2.2.2.1 r.2.2.2.2)) := by
  cases hver : TowerVerify.verify prod_out_evals logup_out_evals tower_proofs
      expected_rounds nf t with
  | error e =>
      constructor
      · intro v hv
        simp [hver, Except.toOption] at hv
      · intro hv
        simp [hver, Except.toOption] at hv
  | ok r =>
      constructor
      · intro v hv hne
        simp only [hver, Except.toOption, Option.map_some', Option.some.injEq] at hv
        subst hv
        simp only [verifyOpcodeTowerStage, hver, bind, Except.bind]
        rw [if_pos hne]
      · intro hv
        simp only [hver, Except.toOption, Option.map_some', Option.some.injEq] at hv
        simp only [verifyOpcodeTowerStage, hver, bind, Except.bind]
        rw [if_neg (not_not_intro hv)]

/-- Witness for C8 on the concrete two-leaf product scenario: there is no
logup spec, so the numerator `PointAndEval` at index 0 is the default (it
evaluates to 0, not 1) and the stage fails with the
lookup-table-witness-not-one error. -/
theorem claim_C8_witness :
    verifyOpcodeTowerStage [[3, 8]] [] demoProof [2] 2 demoTch
      (fun _ _ _ _ _ => (.ok 0 : Except VError Nat)) = .error .lookupTableWitnessNotOne :=
  (claim_C8 [[3, 8]] [] demoProof [2] 2 demoTch
    (fun _ _ _ _ _ => (.ok 0 : Except VError Nat))).1 0 (by decide) (by decide)

/-- The logup tower witness built from the leaf denominator halves `[1,2]`
and `[3,4]`. -/
def demoLogupW : List (List (List (ZMod 97))) :=
  infer_tower_logup_witness [[1, 2], [3, 4]]

/-- The `TowerProofs` produced by the prover's round loop on a logup-only
tower (obtained from the loop body `createProofCore` directly, since
`create_proof` itself refuses the input). -/
def demoLogupProof : TowerProofs (ZMod 97) :=
  (createProofCore [] [⟨demoLogupW⟩] 2 demoTch).2.1

/-- C10: `TowerProver::create_proof` panics (assertion failure, modelled as
`none`) whenever the product-spec list is empty, even if logup specs are
present, so a logup-only tower proof can never be produced by this prover;
whereas `TowerVerify::verify` accepts an empty product-evaluation list, as
shown on a concrete logup-only instance whose proof data come from the
prover's round loop run directly. -/
theorem claim_C10 {F : Type} [CommRing F]
    (logup_specs : List (TowerProverSpec F)) (num_fanin : Nat) (t : Transcript F) :
    TowerProver.create_proof [] logup_specs num_fanin t = none ∧
    (TowerVerify.verify [] [[4, 6, 3, 8]] demoLogupProof [2] 2 demoTch).toOption.map
      (fun r => r.1) = some [95, 93] := by
  constructor
  · simp [TowerProver.create_proof]
  · decide

end ClaimsConcrete

section ClaimC6

/-- Discriminator for the tower-evaluation-mismatch outcome (the result
tuple holds a transcript, so outcomes are compared by discriminating the
error constructor rather than by full equality). -/
def isMismatch {γ : Type} : Except VError γ → Bool
  | .error .towerEvaluationMismatch => true
  | _ => false

/-- Overwrite the single scalar at position `j` of round `r` of product spec
`s` in the recorded `prod_specs_eval` lists. -/
def setScalarProd {F : Type} (s r j : Nat) (v : F) (pr : TowerProofs F) : TowerProofs F :=
  { pr with prod_specs_eval :=
      updateAt s (fun rounds => updateAt r (fun e => e.set j v) rounds) pr.prod_specs_eval }

/-- Overwrite the single scalar at position `j` of round `r` of logup spec
`s` in the recorded `logup_specs_eval` lists. -/
def setScalarLogup {F : Type} (s r j : Nat) (v : F) (pr : TowerProofs F) : TowerProofs F :=
  { pr with logup_specs_eval :=
      updateAt s (fun rounds => updateAt r (fun e => e.set j v) rounds) pr.logup_specs_eval }

/-- A Fiat-Shamir oracle that answers every query with 0 (a legal oracle:
nothing in prover or verifier rules it out). -/
def degTch : Transcript (ZMod 97) := ⟨fun _ => 0, []⟩

/-- A product tower whose leaf branches `[0,5]` and `[0,7]` start with 0. -/
def degW : List (List (List (ZMod 97))) := infer_tower_product_witness 2 [[0, 5], [0, 7]] 2

/-- The honest `TowerProofs` for the degenerate scenario. -/
def degProof : TowerProofs (ZMod 97) :=
  ((TowerProver.create_proof [⟨degW⟩] [] 2 degTch).map (fun r => r.2.1)).getD
    (TowerProofs.new (ZMod 97) 0 0)

/-- Counterexample to C6: flipping a single scalar of a recorded evaluation
list does not always cause the tower-evaluation-mismatch error.  With the
all-zero oracle and leaves `[0,5]`, `[0,7]`, the honest round-0 product
evaluations are `[0,0]`; replacing the second scalar by 42 leaves
`TowerVerify::verify` succeeding (its round check multiplies the flipped
scalar by the co-factor 0, and the merge coefficient of the flipped slot is
also 0, so the forged value never influences any checked quantity). -/
theorem claim_C6_counterexample :
    (degProof.prod_specs_eval = [[[0, 0]]]) ∧
    ((0 : ZMod 97) ≠ 42) ∧
    (TowerVerify.verify [[0, 35]] [] (setScalarProd 0 0 1 42 degProof)
        [2] 2 degTch).toOption.map (fun r => r.1) = some [0, 0] ∧
    isMismatch (TowerVerify.verify [[0, 35]] [] (setScalarProd 0 0 1 42 degProof)
        [2] 2 degTch) = false := by
  decide

/-- The Fiat-Shamir oracle of the non-degenerate tamper-detection scenario. -/
def amTch : Transcript (ZMod 11) := ⟨fun l => l.sum + 1, []⟩

/-- A 3-layer product tower with leaf branches `[2,3,4,5]` and `[6,7,8,9]`. -/
def amW : List (List (List (ZMod 11))) :=
  infer_tower_product_witness 3 [[2, 3, 4, 5], [6, 7, 8, 9]] 2

/-- A 3-layer logup tower with leaf denominator halves `[1,2,3,4]` and
`[5,6,7,8]`. -/
def amLW : List (List (List (ZMod 11))) := infer_tower_logup_witness [[1, 2, 3, 4], [5, 6, 7, 8]]

/-- The honest `TowerProofs` of the tamper-detection scenario (one product
and one logup spec, two sum-check rounds). -/
def amProof : TowerProofs (ZMod 11) :=
  ((TowerProver.create_proof [⟨amW⟩] [⟨amLW⟩] 2 amTch).map (fun r => r.2.1)).getD
    (TowerProofs.new (ZMod 11) 0 0)

/-- Amended C6: the verifier recomputes every round's expected value from
the recorded evaluation lists and aborts with the tower-evaluation-mismatch
error on any inequality, so a single-scalar flip is caught whenever it
changes some checked quantity — which degenerate zero co-factors can
prevent.  On this non-degenerate two-round instance with one product and
one logup spec, every flip of every scalar of every recorded round
evaluation (both `prod_specs_eval` and `logup_specs_eval`) to every other
field value is rejected with exactly the tower-evaluation-mismatch error. -/
theorem claim_C6_amended :
    (∀ r < 2, ∀ j < 2, ∀ v : ZMod 11,
      v ≠ ((amProof.prod_specs_eval.getD 0 []).getD r []).getD j 0 →
      isMismatch (TowerVerify.verify [[10, 10]] [[0, 4, 6, 10]]
        (setScalarProd 0 r j v amProof) [3, 3] 2 amTch) = true) ∧
    (∀ r < 2, ∀ j < 4, ∀ v : ZMod 11,
      v ≠ ((amProof.logup_specs_eval.getD 0 []).getD r []).getD j 0 →
      isMismatch (TowerVerify.verify [[10, 10]] [[0, 4, 6, 10]]
        (setScalarLogup 0 r j v amProof) [3, 3] 2 amTch) = true) := by
  decide

/-- Witness for the amended C6: flipping the first scalar of the product
spec's round-0 evaluations from its honest value 7 to 8 is rejected with
the tower-evaluation-mismatch error. -/
theorem claim_C6_amended_witness :
    isMismatch (TowerVerify.verify [[10, 10]] [[0, 4, 6, 10]]
      (setScalarProd 0 0 0 8 amProof) [3, 3] 2 amTch) = true :=
  claim_C6_amended.1 0 (by decide) 0 (by decide) 8 (by decide)

end ClaimC6

section MleEq

variable {F : Type} [CommRing F]

theorem pow2_succ_even (n : Nat) : Even (2 ^ (n + 1)) :=
  ⟨2 ^ n, by rw [pow_succ]; ring⟩

theorem pow2_succ_div (n : Nat) : 2 ^ (n + 1) / 2 = 2 ^ n := by
  rw [pow_succ]
  exact Nat.mul_div_cancel _ (by norm_num)

theorem length_flatMap_pair (l : List F) (f g : F → F) :
    (l.flatMap (fun e => [f e, g e])).length = 2 * l.length := by
  induction l with
  | nil => simp
  | cons a l ih =>
      simp only [List.flatMap_cons, List.length_append, ih, List.length_cons,
        List.length_nil]
      omega

theorem eqTable_length (pt : List F) : (eqTable pt).length = 2 ^ pt.length := by
  induction pt with
  | nil => rfl
  | cons r rs ih =>
      simp only [eqTable, length_flatMap_pair, ih, List.length_cons]
      ring

theorem sum_zipWith_flatMapPair (r : F) : ∀ (E v : List F), v.length = 2 * E.length →
    (List.zipWith (· * ·) (E.flatMap (fun e => [(1 - r) * e, r * e])) v).sum =
      (List.zipWith (· * ·) E (fold1 r v)).sum
  | [], v, hv => by
      have : v = [] := by
        simp only [List.length_nil, Nat.mul_zero] at hv
        exact List.eq_nil_of_length_eq_zero hv
      subst this; simp
  | e :: E, [], hv => by
      simp only [List.length_nil, List.length_cons] at hv
      omega
  | e :: E, [a], hv => by
      simp only [List.length_cons, List.length_nil] at hv
      omega
  | e :: E, a :: b :: v, hv => by
      have hv2 : v.length = 2 * E.length := by
        simp only [List.length_cons] at hv
        omega
      show ((1 - r) * e * a + (r * e * b +
        (List.zipWith (· * ·) (E.flatMap (fun e => [(1 - r) * e, r * e])) v).sum)) = _
      rw [sum_zipWith_flatMapPair r E v hv2]
      show _ = e * (a + r * (b - a)) + (List.zipWith (· * ·) E (fold1 r v)).sum
      ring

theorem sum_zipWith_eqTable : ∀ (pt v : List F), v.length = 2 ^ pt.length →
    (List.zipWith (· * ·) (eqTable pt) v).sum = mleEval v pt
  | [], v, hv => by
      obtain ⟨x, rfl⟩ := list_length_one v (by simpa using hv)
      simp [eqTable, mleEval]
  | r :: rs, v, hv => by
      have hlen : v.length = 2 * (eqTable rs).length := by
        rw [hv, eqTable_length, List.length_cons, pow_succ]
        ring
      have hfold : (fold1 r v).length = 2 ^ rs.length := by
        rw [fold1_length, hv, List.length_cons, pow2_succ_div]
      simp only [eqTable, mleEval]
      rw [sum_zipWith_flatMapPair r (eqTable rs) v hlen]
      exact sum_zipWith_eqTable rs (fold1 r v) hfold

theorem fold1_map_mul (c r : F) : ∀ v : List F,
    fold1 r (v.map (fun e => c * e)) = (fold1 r v).map (fun e => c * e)
  | [] => by simp [fold1]
  | [a] => by simp [fold1]
  | a :: b :: v => by
      simp only [List.map_cons, fold1, fold1_map_mul c r v, List.map_cons]
      congr 1
      ring

theorem headD_map_mul (c : F) (v : List F) :
    (v.map (fun e => c * e)).headD 0 = c * v.headD 0 := by
  cases v <;> simp

theorem mleEval_map_mul (c : F) : ∀ (pt v : List F),
    mleEval (v.map (fun e => c * e)) pt = c * mleEval v pt
  | [], v => by simpa [mleEval] using headD_map_mul c v
  | r :: rs, v => by
      simp only [mleEval]
      rw [fold1_map_mul, mleEval_map_mul c rs]

theorem fold1_flatMapPair (r x : F) : ∀ E : List F,
    fold1 x (E.flatMap (fun e => [(1 - r) * e, r * e])) =
      E.map (fun e => ((1 - r) * (1 - x) + r * x) * e)
  | [] => by simp [fold1]
  | e :: E => by
      show fold1 x ((1 - r) * e :: r * e :: E.flatMap (fun e => [(1 - r) * e, r * e])) = _
      simp only [fold1, fold1_flatMapPair r x E, List.map_cons]
      congr 1
      ring

theorem mleEval_eqTable : ∀ (a b : List F), a.length = b.length →
    mleEval (eqTable a) b = eq_eval a b
  | [], [], _ => by simp [eqTable, mleEval, eq_eval]
  | [], b :: bs, h => by simp at h
  | a :: as, [], h => by simp at h
  | r :: rs, x :: xs, h => by
      simp only [eqTable, mleEval, eq_eval, List.zipWith_cons_cons, List.prod_cons]
      rw [fold1_flatMapPair, mleEval_map_mul,
        mleEval_eqTable rs xs (by simpa using h)]
      unfold eq_eval
      ring

theorem fold1_zipWith_add (r : F) : ∀ u v : List F,
    fold1 r (List.zipWith (· + ·) u v) = List.zipWith (· + ·) (fold1 r u) (fold1 r v)
  | [], v => by simp [fold1]
  | a :: u, [] => by simp [fold1]
  | [a], b :: v => by cases v <;> simp [fold1]
  | a :: a2 :: u, [b] => by simp [fold1]
  | a :: a2 :: u, b :: b2 :: v => by
      simp only [List.zipWith_cons_cons, fold1]
      rw [fold1_zipWith_add r u v]
      congr 1
      ring

theorem mleEval_zipWith_add : ∀ (pt u v : List F), u.length = v.length →
    mleEval (List.zipWith (· + ·) u v) pt = mleEval u pt + mleEval v pt
  | [], [], [], _ => by simp [mleEval]
  | [], [], b :: v, h => by simp at h
  | [], a :: u, [], h => by simp at h
  | [], a :: u, b :: v, h => by simp [mleEval]
  | r :: rs, u, v, h => by
      simp only [mleEval]
      rw [fold1_zipWith_add, mleEval_zipWith_add rs (fold1 r u) (fold1 r v)
        (by rw [fold1_length, fold1_length, h])]

theorem fold1_append (s : F) : ∀ A B : List F, Even A.length →
    fold1 s (A ++ B) = fold1 s A ++ fold1 s B
  | [], B, _ => by simp [fold1]
  | [a], B, h => by simp at h
  | a :: a2 :: A, B, h => by
      have hA : Even A.length := by
        rcases h with ⟨m, hm⟩
        simp only [List.length_cons] at hm
        exact ⟨m - 1, by omega⟩
      simp only [List.cons_append, fold1, List.append_eq]
      rw [fold1_append s A B hA]

theorem mleEval_append : ∀ (pt : List F) (A B : List F) (r : F),
    A.length = 2 ^ pt.length → B.length = 2 ^ pt.length →
    mleEval (A ++ B) (pt ++ [r]) = (1 - r) * mleEval A pt + r * mleEval B pt
  | [], A, B, r, hA, hB => by
      obtain ⟨a, rfl⟩ := list_length_one A (by simpa using hA)
      obtain ⟨b, rfl⟩ := list_length_one B (by simpa using hB)
      simp only [List.cons_append, List.nil_append, List.singleton_append, mleEval, fold1,
        List.headD_cons]
      ring
  | x :: pt, A, B, r, hA, hB => by
      have hAe : Even A.length := by rw [hA, List.length_cons]; exact pow2_succ_even _
      have hA2 : (fold1 x A).length = 2 ^ pt.length := by
        rw [fold1_length, hA, List.length_cons, pow2_succ_div]
      have hB2 : (fold1 x B).length = 2 ^ pt.length := by
        rw [fold1_length, hB, List.length_cons, pow2_succ_div]
      simp only [List.cons_append, mleEval]
      rw [fold1_append x A B hAe]
      exact mleEval_append pt (fold1 x A) (fold1 x B) r hA2 hB2

theorem sumcheckProve_point_length [DecidableEq F] : ∀ (n : Nat) (polys : List (List F))
    (terms : List (F × List (List F))) (t : Transcript F),
    (sumcheckProve n polys terms t).2.1.length = n
  | 0, _, _, _ => rfl
  | n + 1, polys, terms, t => by
      simp only [sumcheckProve, List.length_cons]
      rw [sumcheckProve_point_length n]

end MleEq

section TowerWF

variable {F : Type} [CommRing F]

theorem ceil_log2_pow2 (n : Nat) : ceil_log2 (2 ^ n) = n := by
  rw [ceil_log2_eq_clog]
  exact Nat.clog_pow 2 n (by norm_num)

theorem list_length_two {α : Type} (l : List α) (h : l.length = 2) :
    ∃ x y, l = [x, y] := by
  cases l with
  | nil => simp at h
  | cons a l =>
      cases l with
      | nil => simp at h
      | cons b l =>
          cases l with
          | nil => exact ⟨a, b, rfl⟩
          | cons c l => simp at h

theorem towerSlice_join (j : Nat) (v : List F) (hv : v.length = 2 ^ (j + 1)) :
    towerSlice j 0 v ++ towerSlice j 1 v = v := by
  have h0 : towerSlice j 0 v = v.take (2 ^ j) := by
    simp [towerSlice]
  have h1 : towerSlice j 1 v = v.drop (2 ^ j) := by
    rw [towerSlice, Nat.mul_one]
    exact List.take_of_length_le (by rw [List.length_drop, hv, pow_succ]; omega)
  rw [h0, h1, List.take_append_drop]

theorem towerSlice_zipWith (f : F → F → F) (j i : Nat) (u v : List F) :
    towerSlice j i (List.zipWith f u v) =
      List.zipWith f (towerSlice j i u) (towerSlice j i v) := by
  simp only [towerSlice, List.zipWith_distrib_drop, List.zipWith_distrib_take]

/-- Decidable well-formedness of a product-spec witness (root first): layer
`k` has two branches of length `2 ^ k`, and each layer's branch
concatenation is the pointwise product of the next (finer) layer's two
branches — the invariant established by `infer_tower_product_witness` and
assumed by the prover's in-loop sanity assertions. -/
def prodTowerOK (w : List (List (List F))) : Prop :=
  (∀ k, k < w.length → (w.getD k []).length = 2 ∧
    ((w.getD k []).getD 0 []).length = 2 ^ k ∧ ((w.getD k []).getD 1 []).length = 2 ^ k) ∧
  (∀ k, k + 1 < w.length →
    (w.getD k []).getD 0 [] ++ (w.getD k []).getD 1 [] =
      List.zipWith (· * ·) ((w.getD (k + 1) []).getD 0 []) ((w.getD (k + 1) []).getD 1 []))

/-- Decidable well-formedness of a logup-spec witness (root first, each
layer `[p1, p2, q1, q2]`): layer `k` has four vectors of length `2 ^ k`,
and the fraction-sum recurrences `p_next = p2·q1 + p1·q2` and
`q_next = q1·q2` hold on branch concatenations — the invariant established
by `infer_tower_logup_witness`. -/
def logupTowerOK (w : List (List (List F))) : Prop :=
  (∀ k, k < w.length → (w.getD k []).length = 4 ∧
    ∀ b, b < 4 → ((w.getD k []).getD b []).length = 2 ^ k) ∧
  (∀ k, k + 1 < w.length →
    ((w.getD k []).getD 0 [] ++ (w.getD k []).getD 1 [] =
      List.zipWith (· + ·)
        (List.zipWith (· * ·) ((w.getD (k + 1) []).getD 1 []) ((w.getD (k + 1) []).getD 2 []))
        (List.zipWith (· * ·) ((w.getD (k + 1) []).getD 0 []) ((w.getD (k + 1) []).getD 3 []))) ∧
    ((w.getD k []).getD 2 [] ++ (w.getD k []).getD 3 [] =
      List.zipWith (· * ·) ((w.getD (k + 1) []).getD 2 []) ((w.getD (k + 1) []).getD 3 [])))

theorem infer_prod_ok (n : Nat) (last : List (List F)) (hl : last.length = 2)
    (h0 : (last.getD 0 []).length = 2 ^ n) (h1 : (last.getD 1 []).length = 2 ^ n) :
    prodTowerOK (infer_tower_product_witness (n + 1) last 2) := by
  obtain ⟨A, B, rfl⟩ := list_length_two last hl
  simp only [List.getD_cons_zero, List.getD_cons_succ] at h0 h1
  have hshape := productLayerChain_shape n [A, B] ⟨A, B, rfl, h0, h1⟩
  rw [infer_tower_product_witness]
  show prodTowerOK (productLayerChain 2 n [A, B])
  constructor
  · intro k hk
    rw [productLayerChain_length] at hk
    obtain ⟨X, Y, hxy, hX, hY⟩ := hshape k (by omega)
    rw [hxy]
    exact ⟨rfl, by simpa using hX, by simpa using hY⟩
  · intro k hk
    rw [productLayerChain_length] at hk
    obtain ⟨X, Y, hxy, hX, hY⟩ := hshape (k + 1) (by omega)
    rw [productLayerChain_step 2 n [A, B] k (by omega), hxy]
    rw [productNextLayer_concat X Y (2 ^ k) (by rw [hX, pow_succ]; ring)
      (by rw [hY, pow_succ]; ring)]
    simp

theorem infer_logup_ok (n : Nat) (q1 q2 : List F) (hq1 : q1.length = 2 ^ n)
    (hq2 : q2.length = 2 ^ n) :
    logupTowerOK (infer_tower_logup_witness [q1, q2]) := by
  have hst0 : logupStShape (F := F) n (none, (q1, q2)) := ⟨(fun pp h => nomatch h), hq1, hq2⟩
  have hshape := logupLayerChain_shape n (none, (q1, q2)) hst0
  have hlen : (logupLayerChain n ((none : Option (List F × List F)), (q1, q2))).length =
      n + 1 := logupLayerChain_length n _
  rw [infer_tower_logup_witness]
  simp only [List.headD_cons, List.drop_one, List.tail_cons, hq1, ceil_log2_pow2]
  constructor
  · intro k hk
    rw [List.length_map, hlen] at hk
    rw [getD_map_of_lt _ logupToLayer k (none, ([], [])) [] (by rw [hlen]; omega)]
    obtain ⟨hp, hQ1, hQ2⟩ := hshape k (by omega)
    rcases hlevel : (logupLayerChain n ((none : Option (List F × List F)), (q1, q2))).getD k
        (none, ([], [])) with ⟨po, Q1, Q2⟩
    rw [hlevel] at hp hQ1 hQ2
    simp only at hp hQ1 hQ2
    cases po with
    | none =>
        simp only [logupToLayer]
        refine ⟨rfl, ?_⟩
        intro b hb
        interval_cases b <;>
          simp only [List.getD_cons_zero, List.getD_cons_succ, List.length_replicate] <;>
          assumption
    | some pp =>
        obtain ⟨hp1, hp2⟩ := hp pp rfl
        simp only [logupToLayer]
        refine ⟨rfl, ?_⟩
        intro b hb
        interval_cases b <;>
          simp only [List.getD_cons_zero, List.getD_cons_succ] <;>
          assumption
  · intro k hk
    rw [List.length_map, hlen] at hk
    have hkey := logupLayerChain_step n ((none : Option (List F × List F)), (q1, q2))
      (none, ([], [])) k (by omega)
    rw [getD_map_of_lt _ logupToLayer k (none, ([], [])) [] (by rw [hlen]; omega),
      getD_map_of_lt _ logupToLayer (k + 1) (none, ([], [])) [] (by rw [hlen]; omega),
      hkey]
    obtain ⟨hp, hQ1, hQ2⟩ := hshape (k + 1) (by omega)
    rcases hlevel : (logupLayerChain n ((none : Option (List F × List F)), (q1, q2))).getD
        (k + 1) (none, ([], [])) with ⟨po, Q1, Q2⟩
    rw [hlevel] at hp hQ1 hQ2
    simp only at hp hQ1 hQ2
    cases po with
    | none =>
        rw [logupStepState_none Q1 Q2 k hQ1]
        simp only [logupToLayer, List.getD_cons_zero, List.getD_cons_succ]
        constructor
        · rw [zipWith_one_mul_full Q1 Q1.length rfl,
            zipWith_one_mul_full Q2 Q1.length (by rw [hQ1, hQ2]),
            ← towerSlice_zipWith (· + ·) k 0, ← towerSlice_zipWith (· + ·) k 1,
            towerSlice_join k _ (zipWith_length_eq (· + ·) _ _ _ hQ1 hQ2)]
        · rw [← towerSlice_zipWith (· * ·) k 0, ← towerSlice_zipWith (· * ·) k 1,
            towerSlice_join k _ (zipWith_length_eq (· * ·) _ _ _ hQ1 hQ2)]
    | some pp =>
        obtain ⟨hp1, hp2⟩ := hp pp rfl
        rw [show (some pp, (Q1, Q2)) = (some (pp.1, pp.2), (Q1, Q2)) from rfl,
          logupStepState_some pp.1 pp.2 Q1 Q2 k hQ1]
        simp only [logupToLayer, List.getD_cons_zero, List.getD_cons_succ]
        constructor
        · rw [← towerSlice_zipWith (· * ·) k 0 pp.2 Q1,
            ← towerSlice_zipWith (· * ·) k 0 pp.1 Q2,
            ← towerSlice_zipWith (· * ·) k 1 pp.2 Q1,
            ← towerSlice_zipWith (· * ·) k 1 pp.1 Q2,
            ← towerSlice_zipWith (· + ·) k 0, ← towerSlice_zipWith (· + ·) k 1,
            towerSlice_join k _ (zipWith_length_eq (· + ·) _ _ (2 ^ (k + 1))
              (zipWith_length_eq (· * ·) _ _ _ hp2 hQ1)
              (zipWith_length_eq (· * ·) _ _ _ hp1 hQ2))]
        · rw [← towerSlice_zipWith (· * ·) k 0 Q1 Q2,
            ← towerSlice_zipWith (· * ·) k 1 Q1 Q2,
            towerSlice_join k _ (zipWith_length_eq (· * ·) _ _ _ hQ1 hQ2)]

end TowerWF

section TowerClaim

variable {F : Type} [CommRing F]

/-- The product part of the batched claim entering verifier round `r`
(prover round `r + 1`): each spec still owning a layer at index `r + 1`
contributes `alpha · MLE(layer r branch 0 ++ layer r branch 1)(rt)`. -/
def prodClaim (r : Nat) (rt : List F) : List (TowerProverSpec F × F) → F
  | [] => 0
  | (s, alpha) :: rest =>
      (if r + 1 < s.witness.length then
        alpha * mleEval ((s.witness.getD r []).getD 0 [] ++ (s.witness.getD r []).getD 1 []) rt
      else 0) + prodClaim r rt rest

/-- The logup part of the batched claim entering verifier round `r`:
numerator weight times `MLE(p1 ++ p2)` plus denominator weight times
`MLE(q1 ++ q2)` of layer `r`, for each spec still active. -/
def logupClaim (r : Nat) (rt : List F) : List (TowerProverSpec F × (F × F)) → F
  | [] => 0
  | (s, al) :: rest =>
      (if r + 1 < s.witness.length then
        al.1 * mleEval ((s.witness.getD r []).getD 0 [] ++ (s.witness.getD r []).getD 1 []) rt +
          al.2 * mleEval ((s.witness.getD r []).getD 2 [] ++ (s.witness.getD r []).getD 3 []) rt
      else 0) + logupClaim r rt rest

theorem instanceSum_append (A B : List (F × List (List F))) :
    instanceSum (A ++ B) = instanceSum A + instanceSum B := by
  simp [instanceSum]

theorem instanceSum_cons (c : F) (ts : List (List F)) (rest : List (F × List (List F))) :
    instanceSum ((c, ts) :: rest) = c * (prodTables ts).sum + instanceSum rest := by
  simp [instanceSum]

theorem instanceSumAt_append (pt : List F) (A B : List (F × List (List F))) :
    instanceSumAt pt (A ++ B) = instanceSumAt pt A + instanceSumAt pt B := by
  simp [instanceSumAt]

theorem prodClaim_eq_instanceSum (r : Nat) (rt : List F) (hrt : rt.length = r + 1) :
    ∀ zipped : List (TowerProverSpec F × F),
      (∀ p ∈ zipped, prodTowerOK p.1.witness) →
      instanceSum (prodSpecTerms (r + 1) (eqTable rt) zipped) = prodClaim r rt zipped
  | [], _ => by simp [prodSpecTerms, prodClaim, instanceSum]
  | (s, alpha) :: rest, h => by
      have hok := h (s, alpha) (List.mem_cons_self _ _)
      have htail := prodClaim_eq_instanceSum r rt hrt rest
        (fun p hp => h p (List.mem_cons_of_mem _ hp))
      simp only [prodSpecTerms, prodClaim]
      by_cases hact : r + 1 < s.witness.length
      · rw [if_pos hact, if_pos hact]
        obtain ⟨hlay, hb0, hb1⟩ := hok.1 (r + 1) hact
        obtain ⟨b0, b1, hlayer⟩ := list_length_two _ hlay
        rw [hlayer] at hb0 hb1
        simp only [List.getD_cons_zero, List.getD_cons_succ] at hb0 hb1
        have hconcat := hok.2 r hact
        rw [hlayer] at hconcat
        simp only [List.getD_cons_zero, List.getD_cons_succ] at hconcat
        rw [hlayer, instanceSum_cons, htail]
        congr 1
        show alpha * (prodTables [eqTable rt, b0, b1]).sum = _
        have hpt : prodTables [eqTable rt, b0, b1] =
            List.zipWith (· * ·) (eqTable rt) (List.zipWith (· * ·) b0 b1) := rfl
        rw [hpt, sum_zipWith_eqTable rt (List.zipWith (· * ·) b0 b1)
          (by rw [zipWith_length_eq (· * ·) _ _ _ hb0 hb1, hrt]), hconcat]
      · rw [if_neg hact, if_neg hact, htail, zero_add]

theorem logupClaim_eq_instanceSum (r : Nat) (rt : List F) (hrt : rt.length = r + 1) :
    ∀ zipped : List (TowerProverSpec F × (F × F)),
      (∀ p ∈ zipped, logupTowerOK p.1.witness) →
      instanceSum (logupSpecTerms (r + 1) (eqTable rt) zipped) = logupClaim r rt zipped
  | [], _ => by simp [logupSpecTerms, logupClaim, instanceSum]
  | (s, al) :: rest, h => by
      have hok := h (s, al) (List.mem_cons_self _ _)
      have htail := logupClaim_eq_instanceSum r rt hrt rest
        (fun p hp => h p (List.mem_cons_of_mem _ hp))
      simp only [logupSpecTerms, logupClaim]
      by_cases hact : r + 1 < s.witness.length
      · rw [if_pos hact, if_pos hact]
        obtain ⟨hlay, hlens⟩ := hok.1 (r + 1) hact
        have hl0 := hlens 0 (by omega)
        have hl1 := hlens 1 (by omega)
        have hl2 := hlens 2 (by omega)
        have hl3 := hlens 3 (by omega)
        obtain ⟨hcp, hcq⟩ := hok.2 r hact
        rw [instanceSum_cons, instanceSum_cons, instanceSum_cons, htail]
        set L := s.witness.getD (r + 1) []
        set p1 := L.getD 0 []
        set p2 := L.getD 1 []
        set q1 := L.getD 2 []
        set q2 := L.getD 3 []
        have h1 : (prodTables [eqTable rt, p1, q2]).sum =
            mleEval (List.zipWith (· * ·) p1 q2) rt := by
          show (List.zipWith (· * ·) (eqTable rt) (List.zipWith (· * ·) p1 q2)).sum = _
          exact sum_zipWith_eqTable rt _
            (by rw [zipWith_length_eq (· * ·) _ _ _ hl0 hl3, hrt])
        have h2 : (prodTables [eqTable rt, p2, q1]).sum =
            mleEval (List.zipWith (· * ·) p2 q1) rt := by
          show (List.zipWith (· * ·) (eqTable rt) (List.zipWith (· * ·) p2 q1)).sum = _
          exact sum_zipWith_eqTable rt _
            (by rw [zipWith_length_eq (· * ·) _ _ _ hl1 hl2, hrt])
        have h3 : (prodTables [eqTable rt, q1, q2]).sum =
            mleEval (List.zipWith (· * ·) q1 q2) rt := by
          show (List.zipWith (· * ·) (eqTable rt) (List.zipWith (· * ·) q1 q2)).sum = _
          exact sum_zipWith_eqTable rt _
            (by rw [zipWith_length_eq (· * ·) _ _ _ hl2 hl3, hrt])
        have hpsum : mleEval ((s.witness.getD r []).getD 0 [] ++
            (s.witness.getD r []).getD 1 []) rt =
            mleEval (List.zipWith (· * ·) p2 q1) rt +
              mleEval (List.zipWith (· * ·) p1 q2) rt := by
          rw [hcp]
          exact mleEval_zipWith_add rt _ _
            (by rw [zipWith_length_eq (· * ·) _ _ _ hl1 hl2,
              zipWith_length_eq (· * ·) _ _ _ hl0 hl3])
        have hqsum : mleEval ((s.witness.getD r []).getD 2 [] ++
            (s.witness.getD r []).getD 3 []) rt =
            mleEval (List.zipWith (· * ·) q1 q2) rt := by rw [hcq]
        rw [h1, h2, h3, hpsum, hqsum]
        ring
      · rw [if_neg hact, if_neg hact, htail, zero_add]

end TowerClaim

section TowerExpected

variable {F : Type} [CommRing F]

theorem getD_succ_tail {α : Type} (l : List α) (i : Nat) (d : α) :
    l.getD (i + 1) d = l.tail.getD i d := by
  cases l <;> rfl

/-- Drop the first product spec's evaluation lists (index-shift helper). -/
def tailProd (tp : TowerProofs F) : TowerProofs F :=
  { tp with prod_specs_eval := tp.prod_specs_eval.tail }

/-- Drop the first logup spec's evaluation lists (index-shift helper). -/
def tailLogup (tp : TowerProofs F) : TowerProofs F :=
  { tp with logup_specs_eval := tp.logup_specs_eval.tail }

theorem zip3Idx_nil_left {α β : Type} (n : Nat) (ys : List β) :
    zip3Idx n ([] : List α) ys = [] := by
  simp [zip3Idx]

theorem zip3Idx_nil_mid {α β : Type} (n : Nat) (xs : List α) :
    zip3Idx n xs ([] : List β) = [] := by
  simp [zip3Idx]

theorem zip3Idx_succ_cons {α β : Type} (n : Nat) (x : α) (xs : List α) (y : β) (ys : List β) :
    zip3Idx (n + 1) (x :: xs) (y :: ys) =
      (0, x, y) :: (zip3Idx n xs ys).map (fun t => (t.1 + 1, t.2)) := by
  simp only [zip3Idx, List.range_succ_eq_map, List.zip_cons_cons, List.map_cons,
    List.zip_map_left, List.map_map]
  rfl

theorem expectedProdSum_shift (tp : TowerProofs F) (round : Nat) (o rt : List F) :
    ∀ triples : List (Nat × F × Nat),
      expectedProdSum tp round o rt (triples.map (fun t => (t.1 + 1, t.2))) =
        expectedProdSum (tailProd tp) round o rt triples
  | [] => rfl
  | (i, alpha, L) :: rest => by
      simp only [List.map_cons, expectedProdSum]
      rw [expectedProdSum_shift tp round o rt rest,
        getD_succ_tail tp.prod_specs_eval i []]
      rfl

theorem expectedLogupSum_shift (tp : TowerProofs F) (round : Nat) (o rt : List F) :
    ∀ triples : List (Nat × (F × F) × Nat),
      expectedLogupSum tp round o rt (triples.map (fun t => (t.1 + 1, t.2))) =
        expectedLogupSum (tailLogup tp) round o rt triples
  | [] => rfl
  | (i, al, L) :: rest => by
      simp only [List.map_cons, expectedLogupSum]
      rw [expectedLogupSum_shift tp round o rt rest,
        getD_succ_tail tp.logup_specs_eval i []]
      rfl

/-- The next-claim scalar accumulated by `nextProdEvalsFold` (the first
component of its result, which does not depend on the threaded
`PointAndEval` list). -/
def nextProdClaimF (tp : TowerProofs F) (round : Nat) (coeffs : List F) :
    List (Nat × F × Nat) → F
  | [] => 0
  | (i, alpha, L) :: rest =>
      (if round < L - 1 then
        (if round + 1 < L - 1 then
          alpha *
            (List.zipWith (· * ·) ((tp.prod_specs_eval.getD i []).getD round []) coeffs).sum
        else 0)
      else 0) + nextProdClaimF tp round coeffs rest

/-- The next-claim scalar accumulated by `nextLogupEvalsFold`. -/
def nextLogupClaimF (tp : TowerProofs F) (round : Nat) (coeffs : List F) :
    List (Nat × (F × F) × Nat) → F
  | [] => 0
  | (i, al, L) :: rest =>
      (if round < L - 1 then
        (if round + 1 < L - 1 then
          al.1 * (List.zipWith (· * ·)
              (((tp.logup_specs_eval.getD i []).getD round []).take 2) coeffs).sum +
            al.2 * (List.zipWith (· * ·)
              ((((tp.logup_specs_eval.getD i []).getD round []).drop 2).take 2) coeffs).sum
        else 0)
      else 0) + nextLogupClaimF tp round coeffs rest

theorem nextProdEvalsFold_fst (tp : TowerProofs F) (round : Nat) (coeffs rt' : List F) :
    ∀ (triples : List (Nat × F × Nat)) (ile : List (PointAndEval F)),
      (nextProdEvalsFold tp round coeffs rt' triples ile).1 =
        nextProdClaimF tp round coeffs triples
  | [], ile => rfl
  | (i, alpha, L) :: rest, ile => by
      simp only [nextProdEvalsFold, nextProdClaimF]
      by_cases h : round < L - 1
      · simp only [if_pos h]
        rw [nextProdEvalsFold_fst tp round coeffs rt' rest]
      · simp only [if_neg h]
        rw [nextProdEvalsFold_fst tp round coeffs rt' rest, zero_add]

theorem nextLogupEvalsFold_fst (tp : TowerProofs F) (round : Nat) (coeffs rt' : List F) :
    ∀ (triples : List (Nat × (F × F) × Nat))
      (ile : List (PointAndEval F) × List (PointAndEval F)),
      (nextLogupEvalsFold tp round coeffs rt' triples ile).1 =
        nextLogupClaimF tp round coeffs triples
  | [], ile => rfl
  | (i, al, L) :: rest, ile => by
      simp only [nextLogupEvalsFold, nextLogupClaimF]
      by_cases h : round < L - 1
      · simp only [if_pos h]
        rw [nextLogupEvalsFold_fst tp round coeffs rt' rest]
      · simp only [if_neg h]
        rw [nextLogupEvalsFold_fst tp round coeffs rt' rest, zero_add]

theorem nextProdClaimF_shift (tp : TowerProofs F) (round : Nat) (coeffs : List F) :
    ∀ triples : List (Nat × F × Nat),
      nextProdClaimF tp round coeffs (triples.map (fun t => (t.1 + 1, t.2))) =
        nextProdClaimF (tailProd tp) round coeffs triples
  | [] => rfl
  | (i, alpha, L) :: rest => by
      simp only [List.map_cons, nextProdClaimF]
      rw [nextProdClaimF_shift tp round coeffs rest, getD_succ_tail tp.prod_specs_eval i []]
      rfl

theorem nextLogupClaimF_shift (tp : TowerProofs F) (round : Nat) (coeffs : List F) :
    ∀ triples : List (Nat × (F × F) × Nat),
      nextLogupClaimF tp round coeffs (triples.map (fun t => (t.1 + 1, t.2))) =
        nextLogupClaimF (tailLogup tp) round coeffs triples
  | [] => rfl
  | (i, al, L) :: rest => by
      simp only [List.map_cons, nextLogupClaimF]
      rw [nextLogupClaimF_shift tp round coeffs rest, getD_succ_tail tp.logup_specs_eval i []]
      rfl

theorem instanceSumAt_cons2 (pt : List F) (c : F) (ts : List (List F))
    (rest : List (F × List (List F))) :
    instanceSumAt pt ((c, ts) :: rest) =
      c * (ts.map (fun tb => mleEval tb pt)).prod + instanceSumAt pt rest := by
  simp [instanceSumAt]

end TowerExpected

section TowerRoundEq

variable {F : Type} [CommRing F]

theorem eqTable_single (c : F) : eqTable [c] = [(1 - c) * 1, c * 1] := rfl

theorem expectedProdSum_eq (round : Nat) (o pt : List F) (hol : o.length = pt.length) :
    ∀ (specs : List (TowerProverSpec F)) (αs : List F) (tp : TowerProofs F),
      (∀ p ∈ specs, prodTowerOK p.witness) →
      (∀ j, j < specs.length → round + 1 < (specs.getD j ⟨[]⟩).witness.length →
        (tp.prod_specs_eval.getD j []).getD round [] =
          ((specs.getD j ⟨[]⟩).witness.getD (round + 1) []).map (fun v => mleEval v pt)) →
      expectedProdSum tp round o pt
          (zip3Idx specs.length αs (specs.map (fun s => s.witness.length))) =
        instanceSumAt pt (prodSpecTerms (round + 1) (eqTable o) (specs.zip αs))
  | [], αs, tp, _, _ => by
      simp [zip3Idx, expectedProdSum, prodSpecTerms, instanceSumAt]
  | s :: rest, [], tp, _, _ => by
      simp [zip3Idx_nil_left, expectedProdSum, prodSpecTerms, instanceSumAt]
  | s :: rest, alpha :: αs, tp, hwf, hent => by
      rw [List.map_cons, List.length_cons, zip3Idx_succ_cons]
      simp only [expectedProdSum]
      rw [expectedProdSum_shift tp round o pt _]
      have htail := expectedProdSum_eq round o pt hol rest αs (tailProd tp)
        (fun p hp => hwf p (List.mem_cons_of_mem _ hp))
        (fun j hj hact => by
          have := hent (j + 1) (by simpa using hj)
            (by simpa only [List.getD_cons_succ] using hact)
          simpa only [List.getD_cons_succ, getD_succ_tail tp.prod_specs_eval j []] using this)
      simp only [List.zip] at htail
      rw [htail]
      simp only [List.zip, List.zipWith_cons_cons, prodSpecTerms]
      by_cases hact : round + 1 < s.witness.length
      · rw [if_pos hact, if_pos (show round < s.witness.length - 1 by omega)]
        have hent0 := hent 0 (by simp) (by simpa using hact)
        simp only [List.getD_cons_zero] at hent0
        obtain ⟨hlay, hb0, hb1⟩ := (hwf s (List.mem_cons_self _ _)).1 (round + 1) hact
        obtain ⟨b0, b1, hlayer⟩ := list_length_two _ hlay
        rw [hlayer] at hent0
        rw [hlayer, instanceSumAt_cons2, hent0]
        simp only [List.map_cons, List.map_nil, List.prod_cons, List.prod_nil,
          mleEval_eqTable o pt hol]
        ring
      · rw [if_neg hact, if_neg (show ¬ round < s.witness.length - 1 by omega)]
        rw [mul_zero, zero_add]

theorem expectedLogupSum_eq (round : Nat) (o pt : List F) (hol : o.length = pt.length) :
    ∀ (specs : List (TowerProverSpec F)) (als : List (F × F)) (tp : TowerProofs F),
      (∀ j, j < specs.length → round + 1 < (specs.getD j ⟨[]⟩).witness.length →
        (tp.logup_specs_eval.getD j []).getD round [] =
          [mleEval (((specs.getD j ⟨[]⟩).witness.getD (round + 1) []).getD 0 []) pt,
           mleEval (((specs.getD j ⟨[]⟩).witness.getD (round + 1) []).getD 1 []) pt,
           mleEval (((specs.getD j ⟨[]⟩).witness.getD (round + 1) []).getD 2 []) pt,
           mleEval (((specs.getD j ⟨[]⟩).witness.getD (round + 1) []).getD 3 []) pt]) →
      expectedLogupSum tp round o pt
          (zip3Idx specs.length als (specs.map (fun s => s.witness.length))) =
        instanceSumAt pt (logupSpecTerms (round + 1) (eqTable o) (specs.zip als))
  | [], als, tp, _ => by
      simp [zip3Idx, expectedLogupSum, logupSpecTerms, instanceSumAt]
  | s :: rest, [], tp, _ => by
      simp [zip3Idx_nil_left, expectedLogupSum, logupSpecTerms, instanceSumAt]
  | s :: rest, al :: als, tp, hent => by
      rw [List.map_cons, List.length_cons, zip3Idx_succ_cons]
      simp only [expectedLogupSum]
      rw [expectedLogupSum_shift tp round o pt _]
      have htail := expectedLogupSum_eq round o pt hol rest als (tailLogup tp)
        (fun j hj hact => by
          have := hent (j + 1) (by simpa using hj)
            (by simpa only [List.getD_cons_succ] using hact)
          simpa only [List.getD_cons_succ, getD_succ_tail tp.logup_specs_eval j []] using this)
      simp only [List.zip] at htail
      rw [htail]
      simp only [List.zip, List.zipWith_cons_cons, logupSpecTerms]
      by_cases hact : round + 1 < s.witness.length
      · rw [if_pos hact, if_pos (show round < s.witness.length - 1 by omega)]
        have hent0 := hent 0 (by simp) (by simpa using hact)
        simp only [List.getD_cons_zero] at hent0
        rw [hent0, instanceSumAt_cons2, instanceSumAt_cons2, instanceSumAt_cons2]
        simp only [List.getD_cons_zero, List.getD_cons_succ, List.map_cons, List.map_nil,
          List.prod_cons, List.prod_nil, mleEval_eqTable o pt hol]
        ring
      · rw [if_neg hact, if_neg (show ¬ round < s.witness.length - 1 by omega)]
        rw [mul_zero, zero_add]

theorem nextProdClaimF_eq (round : Nat) (pt : List F) (c : F) (hpt : pt.length = round + 1) :
    ∀ (specs : List (TowerProverSpec F)) (αs : List F) (tp : TowerProofs F),
      (∀ p ∈ specs, prodTowerOK p.witness) →
      (∀ j, j < specs.length → round + 1 < (specs.getD j ⟨[]⟩).witness.length →
        (tp.prod_specs_eval.getD j []).getD round [] =
          ((specs.getD j ⟨[]⟩).witness.getD (round + 1) []).map (fun v => mleEval v pt)) →
      nextProdClaimF tp round (eqTable [c])
          (zip3Idx specs.length αs (specs.map (fun s => s.witness.length))) =
        prodClaim (round + 1) (pt ++ [c]) (specs.zip αs)
  | [], αs, tp, _, _ => by
      simp [zip3Idx, nextProdClaimF, prodClaim]
  | s :: rest, [], tp, _, _ => by
      simp [zip3Idx_nil_left, nextProdClaimF, prodClaim]
  | s :: rest, alpha :: αs, tp, hwf, hent => by
      rw [List.map_cons, List.length_cons, zip3Idx_succ_cons]
      simp only [List.zip, List.zipWith_cons_cons, nextProdClaimF, prodClaim]
      rw [nextProdClaimF_shift tp round (eqTable [c]) _]
      have htail := nextProdClaimF_eq round pt c hpt rest αs (tailProd tp)
        (fun p hp => hwf p (List.mem_cons_of_mem _ hp))
        (fun j hj hact => by
          have := hent (j + 1) (by simpa using hj)
            (by simpa only [List.getD_cons_succ] using hact)
          simpa only [List.getD_cons_succ, getD_succ_tail tp.prod_specs_eval j []] using this)
      simp only [List.zip] at htail
      rw [htail]
      congr 1
      by_cases h2 : round + 1 + 1 < s.witness.length
      · rw [if_pos (show round < s.witness.length - 1 by omega),
          if_pos (show round + 1 < s.witness.length - 1 by omega), if_pos h2]
        have hact : round + 1 < s.witness.length := by omega
        have hent0 := hent 0 (by simp) (by simpa using hact)
        simp only [List.getD_cons_zero] at hent0
        obtain ⟨hlay, hb0, hb1⟩ := (hwf s (List.mem_cons_self _ _)).1 (round + 1) hact
        obtain ⟨b0, b1, hlayer⟩ := list_length_two _ hlay
        rw [hlayer] at hent0 hb0 hb1
        simp only [List.getD_cons_zero, List.getD_cons_succ] at hb0 hb1
        have hcon := (hwf s (List.mem_cons_self _ _)).2 (round + 1) h2
        rw [hlayer] at hcon
        simp only [List.getD_cons_zero, List.getD_cons_succ] at hcon
        rw [hent0, eqTable_single, hlayer]
        simp only [List.getD_cons_zero, List.getD_cons_succ]
        rw [mleEval_append pt b0 b1 c (by rw [hb0, hpt]) (by rw [hb1, hpt])]
        simp only [List.map_cons, List.map_nil, List.zipWith_cons_cons, List.zipWith_nil_right,
          List.sum_cons, List.sum_nil]
        ring
      · by_cases h1 : round + 1 < s.witness.length
        · rw [if_pos (show round < s.witness.length - 1 by omega),
            if_neg (show ¬ round + 1 < s.witness.length - 1 by omega), if_neg h2]
        · rw [if_neg (show ¬ round < s.witness.length - 1 by omega), if_neg h2]

theorem nextLogupClaimF_eq (round : Nat) (pt : List F) (c : F) (hpt : pt.length = round + 1) :
    ∀ (specs : List (TowerProverSpec F)) (als : List (F × F)) (tp : TowerProofs F),
      (∀ p ∈ specs, logupTowerOK p.witness) →
      (∀ j, j < specs.length → round + 1 < (specs.getD j ⟨[]⟩).witness.length →
        (tp.logup_specs_eval.getD j []).getD round [] =
          [mleEval (((specs.getD j ⟨[]⟩).witness.getD (round + 1) []).getD 0 []) pt,
           mleEval (((specs.getD j ⟨[]⟩).witness.getD (round + 1) []).getD 1 []) pt,
           mleEval (((specs.getD j ⟨[]⟩).witness.getD (round + 1) []).getD 2 []) pt,
           mleEval (((specs.getD j ⟨[]⟩).witness.getD (round + 1) []).getD 3 []) pt]) →
      nextLogupClaimF tp round (eqTable [c])
          (zip3Idx specs.length als (specs.map (fun s => s.witness.length))) =
        logupClaim (round + 1) (pt ++ [c]) (specs.zip als)
  | [], als, tp, _, _ => by
      simp [zip3Idx, nextLogupClaimF, logupClaim]
  | s :: rest, [], tp, _, _ => by
      simp [zip3Idx_nil_left, nextLogupClaimF, logupClaim]
  | s :: rest, al :: als, tp, hwf, hent => by
      rw [List.map_cons, List.length_cons, zip3Idx_succ_cons]
      simp only [List.zip, List.zipWith_cons_cons, nextLogupClaimF, logupClaim]
      rw [nextLogupClaimF_shift tp round (eqTable [c]) _]
      have htail := nextLogupClaimF_eq round pt c hpt rest als (tailLogup tp)
        (fun p hp => hwf p (List.mem_cons_of_mem _ hp))
        (fun j hj hact => by
          have := hent (j + 1) (by simpa using hj)
            (by simpa only [List.getD_cons_succ] using hact)
          simpa only [List.getD_cons_succ, getD_succ_tail tp.logup_specs_eval j []] using this)
      simp only [List.zip] at htail
      rw [htail]
      congr 1
      by_cases h2 : round + 1 + 1 < s.witness.length
      · rw [if_pos (show round < s.witness.length - 1 by omega),
          if_pos (show round + 1 < s.witness.length - 1 by omega), if_pos h2]
        have hact : round + 1 < s.witness.length := by omega
        have hent0 := hent 0 (by simp) (by simpa using hact)
        simp only [List.getD_cons_zero] at hent0
        obtain ⟨hlay, hlens⟩ := (hwf s (List.mem_cons_self _ _)).1 (round + 1) hact
        have hl0 := hlens 0 (by omega)
        have hl1 := hlens 1 (by omega)
        have hl2 := hlens 2 (by omega)
        have hl3 := hlens 3 (by omega)
        rw [hent0, eqTable_single]
        rw [mleEval_append pt _ _ c (by rw [hl0, hpt]) (by rw [hl1, hpt]),
          mleEval_append pt _ _ c (by rw [hl2, hpt]) (by rw [hl3, hpt])]
        simp only [List.take_succ_cons, List.drop_succ_cons, List.drop_zero, List.take_nil,
          List.take_zero, List.zipWith_cons_cons, List.zipWith_nil_right, List.sum_cons,
          List.sum_nil]
        ring
      · by_cases h1 : round + 1 < s.witness.length
        · rw [if_pos (show round < s.witness.length - 1 by omega),
            if_neg (show ¬ round + 1 < s.witness.length - 1 by omega), if_neg h2]
        · rw [if_neg (show ¬ round < s.witness.length - 1 by omega), if_neg h2]

end TowerRoundEq

section TowerBookkeeping

variable {F : Type} [CommRing F]

theorem updateAt_length {α : Type} : ∀ (i : Nat) (f : α → α) (l : List α),
    (updateAt i f l).length = l.length
  | i, _, [] => by cases i <;> rfl
  | 0, f, a :: l => rfl
  | i + 1, f, a :: l => by simp [updateAt, updateAt_length i f l]

theorem drop_getD_cons {α : Type} : ∀ (l : List α) (i : Nat) (d : α), i < l.length →
    l.drop i = l.getD i d :: l.drop (i + 1)
  | [], i, d, h => by simp at h
  | a :: l, 0, d, _ => rfl
  | a :: l, i + 1, d, h => by
      simp only [List.drop_succ_cons, List.getD_cons_succ]
      exact drop_getD_cons l i d (by simpa using h)

theorem take_succ_getD {α : Type} : ∀ (l : List α) (i : Nat) (d : α), i < l.length →
    l.take (i + 1) = l.take i ++ [l.getD i d]
  | [], i, d, h => by simp at h
  | a :: l, 0, d, _ => rfl
  | a :: l, i + 1, d, h => by
      simp only [List.take_succ_cons, List.getD_cons_succ, List.cons_append]
      rw [take_succ_getD l i d (by simpa using h)]

theorem updateAt_decomp {α : Type} : ∀ (l : List α) (i : Nat) (f : α → α) (d : α),
    i < l.length →
    updateAt i f l = l.take i ++ f (l.getD i d) :: l.drop (i + 1)
  | [], i, f, d, h => by simp at h
  | a :: l, 0, f, d, _ => rfl
  | a :: l, i + 1, f, d, h => by
      simp only [updateAt, List.take_succ_cons, List.getD_cons_succ, List.drop_succ_cons,
        List.cons_append]
      rw [updateAt_decomp l i f d (by simpa using h)]

/-- The cumulative effect on `TowerProofs` of distributing the product
evaluations: each active spec's evaluation-list gains the entry
`layer.map f` (and its point-list gains `rt_prime`). -/
def applyProdPushes (round : Nat) (rt' : List F) (f : List F → F) :
    List (TowerProverSpec F) → Nat → TowerProofs F → TowerProofs F
  | [], _, pr => pr
  | s :: rest, i, pr =>
      if round < s.witness.length then
        applyProdPushes round rt' f rest (i + 1)
          (pr.push_prod_evals_and_point i ((s.witness.getD round []).map f) rt')
      else applyProdPushes round rt' f rest (i + 1) pr

/-- The cumulative effect on `TowerProofs` of distributing the logup
evaluations: each active spec records `[p1, p2, q1, q2]` evaluated at the
sum-check point. -/
def applyLogupPushes (round : Nat) (rt' : List F) (f : List F → F) :
    List (TowerProverSpec F) → Nat → TowerProofs F → TowerProofs F
  | [], _, pr => pr
  | s :: rest, i, pr =>
      if round < s.witness.length then
        applyLogupPushes round rt' f rest (i + 1)
          (pr.push_logup_evals_and_point i
            [f ((s.witness.getD round []).getD 0 []), f ((s.witness.getD round []).getD 1 []),
             f ((s.witness.getD round []).getD 2 []), f ((s.witness.getD round []).getD 3 [])]
            rt')
      else applyLogupPushes round rt' f rest (i + 1) pr

theorem pushProdEvals_spec (round : Nat) (rt' : List F) (f : List F → F) :
    ∀ (specs : List (TowerProverSpec F)) (i : Nat) (extra : List F) (pr : TowerProofs F),
      (∀ s ∈ specs, round < s.witness.length → (s.witness.getD round []).length = 2) →
      pushProdEvals 2 round rt' specs i
          (List.map f (prodSpecPolys round specs) ++ extra) pr =
        (applyProdPushes round rt' f specs i pr, extra)
  | [], i, extra, pr, _ => by
      simp [pushProdEvals, applyProdPushes, prodSpecPolys]
  | s :: rest, i, extra, pr, h => by
      have hrest := fun s hs => h s (List.mem_cons_of_mem _ hs)
      by_cases hact : round < s.witness.length
      · have hlay := h s (List.mem_cons_self _ _) hact
        simp only [prodSpecPolys, if_pos hact, List.map_append, List.append_assoc]
        simp only [pushProdEvals, applyProdPushes, if_pos hact]
        have hlen : (List.map f (s.witness.getD round [])).length = 2 := by
          rw [List.length_map, hlay]
        rw [show (2 : Nat) = (List.map f (s.witness.getD round [])).length from hlen.symm,
          List.take_left, List.drop_left]
        rw [hlen]
        exact pushProdEvals_spec round rt' f rest (i + 1) extra _ hrest
      · simp only [prodSpecPolys, if_neg hact, List.nil_append]
        simp only [pushProdEvals, applyProdPushes, if_neg hact]
        exact pushProdEvals_spec round rt' f rest (i + 1) extra pr hrest

theorem pushLogupEvals_spec (round : Nat) (rt' : List F) (f : List F → F) :
    ∀ (specs : List (TowerProverSpec F)) (i : Nat) (extra : List F) (pr : TowerProofs F),
      pushLogupEvals round rt' specs i
          (List.map f (logupSpecPolys round specs) ++ extra) pr =
        (applyLogupPushes round rt' f specs i pr, extra)
  | [], i, extra, pr => by
      simp [pushLogupEvals, applyLogupPushes, logupSpecPolys]
  | s :: rest, i, extra, pr => by
      by_cases hact : round < s.witness.length
      · simp only [logupSpecPolys, if_pos hact, List.map_append, List.append_assoc,
          List.map_cons, List.map_nil, List.cons_append, List.nil_append]
        simp only [pushLogupEvals, applyLogupPushes, if_pos hact]
        simp only [List.getD_cons_zero, List.getD_cons_succ, List.drop_succ_cons,
          List.drop_zero]
        exact pushLogupEvals_spec round rt' f rest (i + 1) extra _
      · simp only [logupSpecPolys, if_neg hact, List.nil_append]
        simp only [pushLogupEvals, applyLogupPushes, if_neg hact]
        exact pushLogupEvals_spec round rt' f rest (i + 1) extra pr

end TowerBookkeeping

section TowerBookkeeping2

variable {F : Type} [CommRing F]

theorem ceil_log2_two : ceil_log2 2 = 1 := by
  have h := ceil_log2_pow2 1
  simpa using h

theorem drawChallenges_length : ∀ (n : Nat) (t : Transcript F),
    (drawChallenges n t).1.length = n
  | 0, _ => rfl
  | n + 1, t => by
      simp only [drawChallenges, List.length_cons]
      rw [drawChallenges_length n]

theorem applyProdPushes_proofs (round : Nat) (rt' : List F) (f : List F → F) :
    ∀ (specs : List (TowerProverSpec F)) (i : Nat) (pr : TowerProofs F),
      (applyProdPushes round rt' f specs i pr).proofs = pr.proofs
  | [], _, _ => rfl
  | s :: rest, i, pr => by
      simp only [applyProdPushes]
      by_cases h : round < s.witness.length
      · rw [if_pos h, applyProdPushes_proofs round rt' f rest (i + 1) _]
        rfl
      · rw [if_neg h, applyProdPushes_proofs round rt' f rest (i + 1) pr]

theorem applyProdPushes_logup (round : Nat) (rt' : List F) (f : List F → F) :
    ∀ (specs : List (TowerProverSpec F)) (i : Nat) (pr : TowerProofs F),
      (applyProdPushes round rt' f specs i pr).logup_specs_eval = pr.logup_specs_eval
  | [], _, _ => rfl
  | s :: rest, i, pr => by
      simp only [applyProdPushes]
      by_cases h : round < s.witness.length
      · rw [if_pos h, applyProdPushes_logup round rt' f rest (i + 1) _]
        rfl
      · rw [if_neg h, applyProdPushes_logup round rt' f rest (i + 1) pr]

theorem applyLogupPushes_proofs (round : Nat) (rt' : List F) (f : List F → F) :
    ∀ (specs : List (TowerProverSpec F)) (i : Nat) (pr : TowerProofs F),
      (applyLogupPushes round rt' f specs i pr).proofs = pr.proofs
  | [], _, _ => rfl
  | s :: rest, i, pr => by
      simp only [applyLogupPushes]
      by_cases h : round < s.witness.length
      · rw [if_pos h, applyLogupPushes_proofs round rt' f rest (i + 1) _]
        rfl
      · rw [if_neg h, applyLogupPushes_proofs round rt' f rest (i + 1) pr]

theorem applyLogupPushes_prod (round : Nat) (rt' : List F) (f : List F → F) :
    ∀ (specs : List (TowerProverSpec F)) (i : Nat) (pr : TowerProofs F),
      (applyLogupPushes round rt' f specs i pr).prod_specs_eval = pr.prod_specs_eval
  | [], _, _ => rfl
  | s :: rest, i, pr => by
      simp only [applyLogupPushes]
      by_cases h : round < s.witness.length
      · rw [if_pos h, applyLogupPushes_prod round rt' f rest (i + 1) _]
        rfl
      · rw [if_neg h, applyLogupPushes_prod round rt' f rest (i + 1) pr]

theorem applyProdPushes_evals (round : Nat) (rt' : List F) (f : List F → F) :
    ∀ (specs : List (TowerProverSpec F)) (i : Nat) (pr : TowerProofs F),
      i + specs.length ≤ pr.prod_specs_eval.length →
      (applyProdPushes round rt' f specs i pr).prod_specs_eval =
        pr.prod_specs_eval.take i ++
          List.zipWith (fun s old =>
              if round < s.witness.length then old ++ [(s.witness.getD round []).map f]
              else old)
            specs (pr.prod_specs_eval.drop i) ++
          pr.prod_specs_eval.drop (i + specs.length)
  | [], i, pr, _ => by
      simp [applyProdPushes, List.take_append_drop]
  | s :: rest, i, pr, hle => by
      have hi : i < pr.prod_specs_eval.length := by
        simp only [List.length_cons] at hle
        omega
      simp only [applyProdPushes]
      rw [drop_getD_cons pr.prod_specs_eval i [] hi, List.zipWith_cons_cons]
      by_cases h : round < s.witness.length
      · rw [if_pos h, if_pos h]
        rw [applyProdPushes_evals round rt' f rest (i + 1) _
          (by simp only [TowerProofs.push_prod_evals_and_point, updateAt_length,
            List.length_cons] at hle ⊢; omega)]
        simp only [TowerProofs.push_prod_evals_and_point]
        rw [updateAt_decomp pr.prod_specs_eval i _ [] hi]
        have hta : (pr.prod_specs_eval.take i).length = i := by
          rw [List.length_take]
          omega
        rw [show (pr.prod_specs_eval.take i ++
            (pr.prod_specs_eval.getD i [] ++ [(s.witness.getD round []).map f]) ::
              pr.prod_specs_eval.drop (i + 1)).take (i + 1) =
            pr.prod_specs_eval.take i ++
              [pr.prod_specs_eval.getD i [] ++ [(s.witness.getD round []).map f]] from by
          rw [show i + 1 = (pr.prod_specs_eval.take i).length + 1 by rw [hta],
            List.take_append]
          rfl]
        rw [show (pr.prod_specs_eval.take i ++
            (pr.prod_specs_eval.getD i [] ++ [(s.witness.getD round []).map f]) ::
              pr.prod_specs_eval.drop (i + 1)).drop (i + 1) =
            pr.prod_specs_eval.drop (i + 1) from by
          rw [show i + 1 = (pr.prod_specs_eval.take i).length + 1 by rw [hta],
            List.drop_append]
          rfl]
        rw [show (pr.prod_specs_eval.take i ++
            (pr.prod_specs_eval.getD i [] ++ [(s.witness.getD round []).map f]) ::
              pr.prod_specs_eval.drop (i + 1)).drop (i + 1 + rest.length) =
            pr.prod_specs_eval.drop (i + (rest.length + 1)) from by
          rw [show i + 1 + rest.length = (pr.prod_specs_eval.take i).length +
            (1 + rest.length) by rw [hta]; omega, List.drop_append,
            show 1 + rest.length = rest.length + 1 by omega]
          simp only [List.drop_succ_cons, List.drop_drop]
          congr 1
          omega]
        simp [List.append_assoc]
      · rw [if_neg h, if_neg h]
        rw [applyProdPushes_evals round rt' f rest (i + 1) pr
          (by simp only [List.length_cons] at hle; omega)]
        rw [take_succ_getD pr.prod_specs_eval i [] hi,
          show i + 1 + rest.length = i + (rest.length + 1) by omega]
        simp [List.append_assoc]

end TowerBookkeeping2

section TowerBookkeeping3

variable {F : Type} [CommRing F]

theorem applyLogupPushes_evals (round : Nat) (rt' : List F) (f : List F → F) :
    ∀ (specs : List (TowerProverSpec F)) (i : Nat) (pr : TowerProofs F),
      i + specs.length ≤ pr.logup_specs_eval.length →
      (applyLogupPushes round rt' f specs i pr).logup_specs_eval =
        pr.logup_specs_eval.take i ++
          List.zipWith (fun s old =>
              if round < s.witness.length then old ++
                [[f ((s.witness.getD round []).getD 0 []),
                  f ((s.witness.getD round []).getD 1 []),
                  f ((s.witness.getD round []).getD 2 []),
                  f ((s.witness.getD round []).getD 3 [])]]
              else old)
            specs (pr.logup_specs_eval.drop i) ++
          pr.logup_specs_eval.drop (i + specs.length)
  | [], i, pr, _ => by
      simp [applyLogupPushes, List.take_append_drop]
  | s :: rest, i, pr, hle => by
      have hi : i < pr.logup_specs_eval.length := by
        simp only [List.length_cons] at hle
        omega
      simp only [applyLogupPushes]
      rw [drop_getD_cons pr.logup_specs_eval i [] hi, List.zipWith_cons_cons]
      by_cases h : round < s.witness.length
      · rw [if_pos h, if_pos h]
        rw [applyLogupPushes_evals round rt' f rest (i + 1) _
          (by simp only [TowerProofs.push_logup_evals_and_point, updateAt_length,
            List.length_cons] at hle ⊢; omega)]
        simp only [TowerProofs.push_logup_evals_and_point]
        rw [updateAt_decomp pr.logup_specs_eval i _ [] hi]
        have hta : (pr.logup_specs_eval.take i).length = i := by
          rw [List.length_take]
          omega
        rw [show (pr.logup_specs_eval.take i ++
            (pr.logup_specs_eval.getD i [] ++
              [[f ((s.witness.getD round []).getD 0 []),
                f ((s.witness.getD round []).getD 1 []),
                f ((s.witness.getD round []).getD 2 []),
                f ((s.witness.getD round []).getD 3 [])]]) ::
              pr.logup_specs_eval.drop (i + 1)).take (i + 1) =
            pr.logup_specs_eval.take i ++
              [pr.logup_specs_eval.getD i [] ++
                [[f ((s.witness.getD round []).getD 0 []),
                  f ((s.witness.getD round []).getD 1 []),
                  f ((s.witness.getD round []).getD 2 []),
                  f ((s.witness.getD round []).getD 3 [])]]] from by
          rw [show i + 1 = (pr.logup_specs_eval.take i).length + 1 by rw [hta],
            List.take_append]
          rfl]
        rw [show (pr.logup_specs_eval.take i ++
            (pr.logup_specs_eval.getD i [] ++
              [[f ((s.witness.getD round []).getD 0 []),
                f ((s.witness.getD round []).getD 1 []),
                f ((s.witness.getD round []).getD 2 []),
                f ((s.witness.getD round []).getD 3 [])]]) ::
              pr.logup_specs_eval.drop (i + 1)).drop (i + 1) =
            pr.logup_specs_eval.drop (i + 1) from by
          rw [show i + 1 = (pr.logup_specs_eval.take i).length + 1 by rw [hta],
            List.drop_append]
          rfl]
        rw [show (pr.logup_specs_eval.take i ++
            (pr.logup_specs_eval.getD i [] ++
              [[f ((s.witness.getD round []).getD 0 []),
                f ((s.witness.getD round []).getD 1 []),
                f ((s.witness.getD round []).getD 2 []),
                f ((s.witness.getD round []).getD 3 [])]]) ::
              pr.logup_specs_eval.drop (i + 1)).drop (i + 1 + rest.length) =
            pr.logup_specs_eval.drop (i + (rest.length + 1)) from by
          rw [show i + 1 + rest.length = (pr.logup_specs_eval.take i).length +
            (1 + rest.length) by rw [hta]; omega, List.drop_append,
            show 1 + rest.length = rest.length + 1 by omega]
          simp only [List.drop_succ_cons, List.drop_drop]
          congr 1
          omega]
        simp [List.append_assoc]
      · rw [if_neg h, if_neg h]
        rw [applyLogupPushes_evals round rt' f rest (i + 1) pr
          (by simp only [List.length_cons] at hle; omega)]
        rw [take_succ_getD pr.logup_specs_eval i [] hi,
          show i + 1 + rest.length = i + (rest.length + 1) by omega]
        simp [List.append_assoc]

theorem pushLogupEvals_spec2 (round : Nat) (rt' : List F) (f : List F → F)
    (specs : List (TowerProverSpec F)) (i : Nat) (pr : TowerProofs F) :
    pushLogupEvals round rt' specs i (List.map f (logupSpecPolys round specs)) pr =
      (applyLogupPushes round rt' f specs i pr, []) := by
  have h := pushLogupEvals_spec round rt' f specs i [] pr
  rwa [List.append_nil] at h

theorem towerRound_eq [DecidableEq F] (prod_specs logup_specs : List (TowerProverSpec F))
    (out_rt αs : List F) (P : TowerProofs F) (t : Transcript F) (round : Nat)
    (hsh : ∀ s ∈ prod_specs, round < s.witness.length →
      (s.witness.getD round []).length = 2) :
    towerRound 2 prod_specs logup_specs ((out_rt, αs), P, t) round =
      (let eqT := eqTable out_rt
       let terms := prodSpecTerms round eqT (prod_specs.zip αs) ++
         logupSpecTerms round eqT
           (logup_specs.zip (alphaPairs (αs.drop prod_specs.length)))
       let sc := sumcheckProve out_rt.length
         (eqT :: (prodSpecPolys round prod_specs ++ logupSpecPolys round logup_specs))
         terms t
       let rm := drawChallenges 1 sc.2.2.2
       let rt_prime := sc.2.1 ++ rm.1
       let na := get_challenge_pows (prod_specs.length + logup_specs.length * 2) rm.2
       ((rt_prime, na.1),
        applyLogupPushes round rt_prime (fun v => mleEval v sc.2.1) logup_specs 0
          (applyProdPushes round rt_prime (fun v => mleEval v sc.2.1) prod_specs 0
            (P.push_sumcheck_proofs sc.1)),
        na.2)) := by
  simp only [towerRound, ceil_log2_two]
  have hevals : ((sumcheckProve out_rt.length
      (eqTable out_rt :: (prodSpecPolys round prod_specs ++ logupSpecPolys round logup_specs))
      (prodSpecTerms round (eqTable out_rt) (prod_specs.zip αs) ++
        logupSpecTerms round (eqTable out_rt)
          (logup_specs.zip (alphaPairs (αs.drop prod_specs.length)))) t).2.2.1).map
        (fun p => p.headD 0) =
      (eqTable out_rt :: (prodSpecPolys round prod_specs ++ logupSpecPolys round logup_specs)).map
        (fun p => mleEval p ((sumcheckProve out_rt.length
          (eqTable out_rt ::
            (prodSpecPolys round prod_specs ++ logupSpecPolys round logup_specs))
          (prodSpecTerms round (eqTable out_rt) (prod_specs.zip αs) ++
            logupSpecTerms round (eqTable out_rt)
              (logup_specs.zip (alphaPairs (αs.drop prod_specs.length)))) t).2.1)) :=
    sumcheckProve_finalEvals _ _ _ _
  rw [hevals]
  simp only [List.map_cons, List.map_append, List.drop_succ_cons, List.drop_zero]
  rw [pushProdEvals_spec _ _ _ prod_specs 0 _ _ hsh]
  dsimp only
  rw [pushLogupEvals_spec2]

end TowerBookkeeping3

section TowerLoopHelpers

variable {F : Type} [CommRing F]

theorem zip_take_right {α β : Type} : ∀ (as : List α) (bs : List β),
    as.zip (bs.take as.length) = as.zip bs
  | [], bs => by simp
  | a :: as, [] => by simp
  | a :: as, b :: bs => by
      simp only [List.length_cons, List.take_succ_cons, List.zip_cons_cons]
      rw [zip_take_right as bs]

theorem take_zip {α β : Type} : ∀ (n : Nat) (as : List α) (bs : List β),
    (as.zip bs).take n = (as.take n).zip (bs.take n)
  | 0, _, _ => by simp
  | n + 1, [], bs => by simp
  | n + 1, a :: as, [] => by simp
  | n + 1, a :: as, b :: bs => by
      simp only [List.zip_cons_cons, List.take_succ_cons]
      rw [take_zip n as bs]

theorem zip3Idx_take {α β : Type} (n : Nat) (xs : List α) (ys : List β) :
    zip3Idx n xs ys = zip3Idx n (xs.take n) (ys.take n) := by
  unfold zip3Idx
  rw [show (List.range n).zip (xs.zip ys) =
      (List.range n).zip ((xs.zip ys).take (List.range n).length) from
    (zip_take_right _ _).symm]
  rw [List.length_range, take_zip]

theorem termsWF_append (n : Nat) (A B : List (F × List (List F)))
    (hA : termsWF n A) (hB : termsWF n B) : termsWF n (A ++ B) := by
  intro ct hct
  rcases List.mem_append.mp hct with h | h
  · exact hA ct h
  · exact hB ct h

theorem prodSpecTerms_termsWF (ρ : Nat) (o : List F) (ho : o.length = ρ) :
    ∀ zipped : List (TowerProverSpec F × F),
      (∀ p ∈ zipped, prodTowerOK p.1.witness) →
      termsWF ρ (prodSpecTerms ρ (eqTable o) zipped)
  | [], _ => by intro ct hct; simp [prodSpecTerms] at hct
  | (s, alpha) :: rest, h => by
      have htail := prodSpecTerms_termsWF ρ o ho rest
        (fun p hp => h p (List.mem_cons_of_mem _ hp))
      simp only [prodSpecTerms]
      by_cases hact : ρ < s.witness.length
      · rw [if_pos hact]
        intro ct hct
        rcases List.mem_cons.mp hct with rfl | hmem
        · refine ⟨by simp, ?_⟩
          intro tb htb
          obtain ⟨hlay, hb0, hb1⟩ := (h (s, alpha) (List.mem_cons_self _ _)).1 ρ hact
          obtain ⟨b0, b1, hlayer⟩ := list_length_two _ hlay
          rw [hlayer] at hb0 hb1 htb
          simp only [List.getD_cons_zero, List.getD_cons_succ] at hb0 hb1
          rcases List.mem_cons.mp htb with rfl | htb2
          · rw [eqTable_length, ho]
          rcases List.mem_cons.mp htb2 with rfl | htb3
          · exact hb0
          rcases List.mem_cons.mp htb3 with rfl | htb4
          · exact hb1
          · simp at htb4
        · exact htail ct hmem
      · rw [if_neg hact]
        exact htail

theorem logupSpecTerms_termsWF (ρ : Nat) (o : List F) (ho : o.length = ρ) :
    ∀ zipped : List (TowerProverSpec F × (F × F)),
      (∀ p ∈ zipped, logupTowerOK p.1.witness) →
      termsWF ρ (logupSpecTerms ρ (eqTable o) zipped)
  | [], _ => by intro ct hct; simp [logupSpecTerms] at hct
  | (s, al) :: rest, h => by
      have htail := logupSpecTerms_termsWF ρ o ho rest
        (fun p hp => h p (List.mem_cons_of_mem _ hp))
      simp only [logupSpecTerms]
      by_cases hact : ρ < s.witness.length
      · rw [if_pos hact]
        obtain ⟨hlay, hlens⟩ := (h (s, al) (List.mem_cons_self _ _)).1 ρ hact
        have hl0 := hlens 0 (by omega)
        have hl1 := hlens 1 (by omega)
        have hl2 := hlens 2 (by omega)
        have hl3 := hlens 3 (by omega)
        have he : (eqTable o).length = 2 ^ ρ := by rw [eqTable_length, ho]
        intro ct hct
        rcases List.mem_cons.mp hct with rfl | hmem
        · refine ⟨by simp, ?_⟩
          intro tb htb
          rcases List.mem_cons.mp htb with rfl | htb2
          · exact he
          rcases List.mem_cons.mp htb2 with rfl | htb3
          · exact hl0
          rcases List.mem_cons.mp htb3 with rfl | htb4
          · exact hl3
          · simp at htb4
        rcases List.mem_cons.mp hmem with rfl | hmem2
        · refine ⟨by simp, ?_⟩
          intro tb htb
          rcases List.mem_cons.mp htb with rfl | htb2
          · exact he
          rcases List.mem_cons.mp htb2 with rfl | htb3
          · exact hl1
          rcases List.mem_cons.mp htb3 with rfl | htb4
          · exact hl2
          · simp at htb4
        rcases List.mem_cons.mp hmem2 with rfl | hmem3
        · refine ⟨by simp, ?_⟩
          intro tb htb
          rcases List.mem_cons.mp htb with rfl | htb2
          · exact he
          rcases List.mem_cons.mp htb2 with rfl | htb3
          · exact hl2
          rcases List.mem_cons.mp htb3 with rfl | htb4
          · exact hl3
          · simp at htb4
        · exact htail ct hmem3
      · rw [if_neg hact]
        exact htail

theorem getD_zipWith {α β γ : Type} (g : α → β → γ) (a : List α) (b : List β)
    (j : Nat) (da : α) (db : β) (dc : γ) (ha : j < a.length) (hb : j < b.length) :
    (List.zipWith g a b).getD j dc = g (a.getD j da) (b.getD j db) := by
  rw [List.getD_eq_getElem _ _ (by rw [List.length_zipWith]; omega),
    List.getD_eq_getElem _ _ ha, List.getD_eq_getElem _ _ hb, List.getElem_zipWith]

/-- `Q` extends `P`: same spec counts, and every record list of `P`
(sum-check messages, per-spec evaluation lists) is a prefix of the
corresponding list of `Q`. -/
def proofsExtends (P Q : TowerProofs F) : Prop :=
  (∃ tl, Q.proofs = P.proofs ++ tl) ∧
  Q.prod_specs_eval.length = P.prod_specs_eval.length ∧
  Q.logup_specs_eval.length = P.logup_specs_eval.length ∧
  (∀ j, ∃ tl, Q.prod_specs_eval.getD j [] = P.prod_specs_eval.getD j [] ++ tl) ∧
  (∀ j, ∃ tl, Q.logup_specs_eval.getD j [] = P.logup_specs_eval.getD j [] ++ tl)

theorem proofsExtends_refl (P : TowerProofs F) : proofsExtends P P :=
  ⟨⟨[], by simp⟩, rfl, rfl, fun j => ⟨[], by simp⟩, fun j => ⟨[], by simp⟩⟩

theorem proofsExtends_trans (P Q R : TowerProofs F) (h1 : proofsExtends P Q)
    (h2 : proofsExtends Q R) : proofsExtends P R := by
  obtain ⟨⟨t1, ht1⟩, hl1, hm1, hp1, hq1⟩ := h1
  obtain ⟨⟨t2, ht2⟩, hl2, hm2, hp2, hq2⟩ := h2
  refine ⟨⟨t1 ++ t2, by rw [ht2, ht1, List.append_assoc]⟩, hl2.trans hl1, hm2.trans hm1,
    ?_, ?_⟩
  · intro j
    obtain ⟨u1, hu1⟩ := hp1 j
    obtain ⟨u2, hu2⟩ := hp2 j
    exact ⟨u1 ++ u2, by rw [hu2, hu1, List.append_assoc]⟩
  · intro j
    obtain ⟨u1, hu1⟩ := hq1 j
    obtain ⟨u2, hu2⟩ := hq2 j
    exact ⟨u1 ++ u2, by rw [hu2, hu1, List.append_assoc]⟩

theorem take_len_map_append {α β : Type} (f : α → β) (A B : List α) :
    ((A ++ B).map f).take A.length = A.map f := by
  rw [List.map_append, show A.length = (A.map f).length from (List.length_map _ _).symm,
    List.take_left]

theorem drop_len_map_append {α β : Type} (f : α → β) (A B : List α) :
    ((A ++ B).map f).drop A.length = B.map f := by
  rw [List.map_append, show A.length = (A.map f).length from (List.length_map _ _).symm,
    List.drop_left]

theorem take_len_map {α β : Type} (f : α → β) (A : List α) :
    (A.map f).take A.length = A.map f := by
  rw [show A.length = (A.map f).length from (List.length_map _ _).symm, List.take_length]

end TowerLoopHelpers

section TowerLoop

variable {F : Type} [CommRing F] [DecidableEq F]

theorem towerLoop_complete (prod_specs logup_specs : List (TowerProverSpec F))
    (hwfP : ∀ s ∈ prod_specs, prodTowerOK s.witness)
    (hwfL : ∀ s ∈ logup_specs, logupTowerOK s.witness) :
    ∀ (mr r : Nat) (out_rt αs : List F) (P : TowerProofs F) (t : Transcript F)
      (fin : (List F × List F) × TowerProofs F × Transcript F),
      fin = (List.range' (r + 1) mr).foldl (towerRound 2 prod_specs logup_specs)
        ((out_rt, αs), P, t) →
      out_rt.length = r + 1 →
      P.proofs.length = r →
      P.prod_specs_eval.length = prod_specs.length →
      P.logup_specs_eval.length = logup_specs.length →
      (∀ j, j < prod_specs.length →
        (P.prod_specs_eval.getD j []).length =
          min r ((prod_specs.getD j ⟨[]⟩).witness.length - 1)) →
      (∀ j, j < logup_specs.length →
        (P.logup_specs_eval.getD j []).length =
          min r ((logup_specs.getD j ⟨[]⟩).witness.length - 1)) →
      ∀ pILE lpILE lqILE : List (PointAndEval F),
      ∃ vfin : TowerVerifyState F,
        (List.range' r mr).foldlM
          (towerVerifyRound fin.2.1
            ((prod_specs ++ logup_specs).map (fun s => s.witness.length))
            prod_specs.length logup_specs.length 1)
          ⟨⟨out_rt, prodClaim r out_rt (prod_specs.zip αs) +
              logupClaim r out_rt
                (logup_specs.zip (alphaPairs (αs.drop prod_specs.length)))⟩,
            αs, pILE, lpILE, lqILE, t⟩ = .ok vfin ∧
        vfin.pe.point = fin.1.1 ∧
        vfin.tr = fin.2.2 ∧
        proofsExtends P fin.2.1 ∧
        fin.2.1.proofs.length = r + mr ∧
        (∀ j, j < prod_specs.length →
          (fin.2.1.prod_specs_eval.getD j []).length =
            min (r + mr) ((prod_specs.getD j ⟨[]⟩).witness.length - 1)) ∧
        (∀ j, j < logup_specs.length →
          (fin.2.1.logup_specs_eval.getD j []).length =
            min (r + mr) ((logup_specs.getD j ⟨[]⟩).witness.length - 1)) := by
  intro mr
  induction mr with
  | zero =>
      intro r out_rt αs P t fin hfin hrt hPp hPl hLl hPe hLe pILE lpILE lqILE
      subst hfin
      refine ⟨⟨⟨out_rt, prodClaim r out_rt (prod_specs.zip αs) +
          logupClaim r out_rt
            (logup_specs.zip (alphaPairs (αs.drop prod_specs.length)))⟩,
        αs, pILE, lpILE, lqILE, t⟩, rfl, rfl, rfl, proofsExtends_refl P, ?_, ?_, ?_⟩
      · simpa using hPp
      · intro j hj
        rw [Nat.add_zero]
        exact hPe j hj
      · intro j hj
        rw [Nat.add_zero]
        exact hLe j hj
  | succ mr ih =>
      intro r out_rt αs P t fin hfin hrt hPp hPl hLl hPe hLe pILE lpILE lqILE
      have hsh : ∀ s ∈ prod_specs, r + 1 < s.witness.length →
          (s.witness.getD (r + 1) []).length = 2 :=
        fun s hs hact => ((hwfP s hs).1 (r + 1) hact).1
      set eqT := eqTable out_rt with heqT
      set terms := prodSpecTerms (r + 1) eqT (prod_specs.zip αs) ++
        logupSpecTerms (r + 1) eqT
          (logup_specs.zip (alphaPairs (αs.drop prod_specs.length))) with hterms
      set polys := eqT :: (prodSpecPolys (r + 1) prod_specs ++
        logupSpecPolys (r + 1) logup_specs) with hpolys
      set sc := sumcheckProve out_rt.length polys terms t with hsc
      set rm := drawChallenges 1 sc.2.2.2 with hrm
      set rt2 := sc.2.1 ++ rm.1 with hrt2def
      set na := get_challenge_pows (prod_specs.length + logup_specs.length * 2) rm.2
        with hna
      set f := fun v : List F => mleEval v sc.2.1 with hf
      set P2 := applyLogupPushes (r + 1) rt2 f logup_specs 0
        (applyProdPushes (r + 1) rt2 f prod_specs 0
          (P.push_sumcheck_proofs sc.1)) with hP2
      have hcomp : towerRound 2 prod_specs logup_specs ((out_rt, αs), P, t) (r + 1) =
          ((rt2, na.1), P2, na.2) := by
        rw [towerRound_eq prod_specs logup_specs out_rt αs P t (r + 1) hsh]
      rw [List.range'_succ, List.foldl_cons, hcomp] at hfin
      -- prover-side invariants for the advanced state
      have hptlen : sc.2.1.length = r + 1 := by
        rw [hsc, sumcheckProve_point_length, hrt]
      have hrt2len : rt2.length = r + 1 + 1 := by
        rw [hrt2def, List.length_append, hptlen, hrm, drawChallenges_length]
      have hP2proofs : P2.proofs = P.proofs ++ [sc.1] := by
        rw [hP2, applyLogupPushes_proofs, applyProdPushes_proofs]
        rfl
      have hP2p : P2.proofs.length = r + 1 := by
        rw [hP2proofs, List.length_append, hPp]
        rfl
      have hpushed : (P.push_sumcheck_proofs sc.1).prod_specs_eval = P.prod_specs_eval :=
        rfl
      have hpushedL : (P.push_sumcheck_proofs sc.1).logup_specs_eval = P.logup_specs_eval :=
        rfl
      have hP2evals : P2.prod_specs_eval =
          List.zipWith (fun s old =>
              if r + 1 < s.witness.length then old ++ [(s.witness.getD (r + 1) []).map f]
              else old)
            prod_specs P.prod_specs_eval := by
        rw [hP2, applyLogupPushes_prod,
          applyProdPushes_evals _ _ _ _ 0 _ (by rw [hpushed, hPl]; omega)]
        rw [hpushed]
        simp only [List.take_zero, List.drop_zero, List.nil_append, Nat.zero_add]
        rw [← hPl, List.drop_length, List.append_nil]
      have hP2levals : P2.logup_specs_eval =
          List.zipWith (fun s old =>
              if r + 1 < s.witness.length then old ++
                [[f ((s.witness.getD (r + 1) []).getD 0 []),
                  f ((s.witness.getD (r + 1) []).getD 1 []),
                  f ((s.witness.getD (r + 1) []).getD 2 []),
                  f ((s.witness.getD (r + 1) []).getD 3 [])]]
              else old)
            logup_specs P.logup_specs_eval := by
        have hmid : (applyProdPushes (r + 1) rt2 f prod_specs 0
            (P.push_sumcheck_proofs sc.1)).logup_specs_eval = P.logup_specs_eval := by
          rw [applyProdPushes_logup]
          rfl
        rw [hP2, applyLogupPushes_evals _ _ _ _ 0 _ (by rw [hmid, hLl]; omega)]
        rw [hmid]
        simp only [List.take_zero, List.drop_zero, List.nil_append, Nat.zero_add]
        rw [← hLl, List.drop_length, List.append_nil]
      have hP2l : P2.prod_specs_eval.length = prod_specs.length := by
        rw [hP2evals, List.length_zipWith, hPl, Nat.min_self]
      have hL2l : P2.logup_specs_eval.length = logup_specs.length := by
        rw [hP2levals, List.length_zipWith, hLl, Nat.min_self]
      have hP2e : ∀ j, j < prod_specs.length →
          (P2.prod_specs_eval.getD j []).length =
            min (r + 1) ((prod_specs.getD j ⟨[]⟩).witness.length - 1) := by
        intro j hj
        rw [hP2evals, getD_zipWith _ prod_specs P.prod_specs_eval j ⟨[]⟩ [] [] hj
          (by omega)]
        by_cases hact : r + 1 < (prod_specs.getD j ⟨[]⟩).witness.length
        · rw [if_pos hact, List.length_append, hPe j hj]
          simp only [List.length_cons, List.length_nil]
          omega
        · rw [if_neg hact, hPe j hj]
          omega
      have hL2e : ∀ j, j < logup_specs.length →
          (P2.logup_specs_eval.getD j []).length =
            min (r + 1) ((logup_specs.getD j ⟨[]⟩).witness.length - 1) := by
        intro j hj
        rw [hP2levals, getD_zipWith _ logup_specs P.logup_specs_eval j ⟨[]⟩ [] [] hj
          (by omega)]
        by_cases hact : r + 1 < (logup_specs.getD j ⟨[]⟩).witness.length
        · rw [if_pos hact, List.length_append, hLe j hj]
          simp only [List.length_cons, List.length_nil]
          omega
        · rw [if_neg hact, hLe j hj]
          omega
      -- instantiate the induction hypothesis for the remaining rounds
      obtain ⟨vfin, hfold, hvpt, hvtr, hext, hflen, hfpe, hfle⟩ :=
        ih (r + 1) rt2 na.1 P2 na.2 fin hfin hrt2len hP2p hP2l hL2l hP2e hL2e
          (nextProdEvalsFold fin.2.1 r (eqTable rm.1) rt2
            (zip3Idx prod_specs.length na.1
              ((prod_specs ++ logup_specs).map (fun s => s.witness.length))) pILE).2
          (nextLogupEvalsFold fin.2.1 r (eqTable rm.1) rt2
            (zip3Idx logup_specs.length (alphaPairs (na.1.drop prod_specs.length))
              (((prod_specs ++ logup_specs).map (fun s => s.witness.length)).drop
                prod_specs.length)) (lpILE, lqILE)).2.1
          (nextLogupEvalsFold fin.2.1 r (eqTable rm.1) rt2
            (zip3Idx logup_specs.length (alphaPairs (na.1.drop prod_specs.length))
              (((prod_specs ++ logup_specs).map (fun s => s.witness.length)).drop
                prod_specs.length)) (lpILE, lqILE)).2.2
      -- step extension P → P2
      have hstepext : proofsExtends P P2 := by
        refine ⟨⟨[sc.1], hP2proofs⟩, by rw [hP2l, hPl], by rw [hL2l, hLl], ?_, ?_⟩
        · intro j
          by_cases hj : j < prod_specs.length
          · rw [hP2evals, getD_zipWith _ prod_specs P.prod_specs_eval j ⟨[]⟩ [] [] hj
              (by omega)]
            by_cases hact : r + 1 < (prod_specs.getD j ⟨[]⟩).witness.length
            · exact ⟨_, by rw [if_pos hact]⟩
            · exact ⟨[], by rw [if_neg hact, List.append_nil]⟩
          · refine ⟨[], ?_⟩
            rw [List.getD_eq_default _ _ (by rw [hP2l]; omega),
              List.getD_eq_default _ _ (by rw [hPl]; omega), List.append_nil]
        · intro j
          by_cases hj : j < logup_specs.length
          · rw [hP2levals, getD_zipWith _ logup_specs P.logup_specs_eval j ⟨[]⟩ [] [] hj
              (by omega)]
            by_cases hact : r + 1 < (logup_specs.getD j ⟨[]⟩).witness.length
            · exact ⟨_, by rw [if_pos hact]⟩
            · exact ⟨[], by rw [if_neg hact, List.append_nil]⟩
          · refine ⟨[], ?_⟩
            rw [List.getD_eq_default _ _ (by rw [hL2l]; omega),
              List.getD_eq_default _ _ (by rw [hLl]; omega), List.append_nil]
      -- final-proofs entry facts needed for this round's verification
      have hmsgs : fin.2.1.proofs.getD r [] = sc.1 := by
        obtain ⟨tl, htl⟩ := hext.1
        rw [htl, hP2proofs, List.append_assoc,
          List.getD_append_right _ _ _ _ (by rw [hPp]),
          hPp, Nat.sub_self]
        rfl
      have hTPp : ∀ j, j < prod_specs.length →
          r + 1 < (prod_specs.getD j ⟨[]⟩).witness.length →
          (fin.2.1.prod_specs_eval.getD j []).getD r [] =
            ((prod_specs.getD j ⟨[]⟩).witness.getD (r + 1) []).map f := by
        intro j hj hact
        obtain ⟨u, hu⟩ := hext.2.2.2.1 j
        rw [hu, hP2evals, getD_zipWith _ prod_specs P.prod_specs_eval j ⟨[]⟩ [] [] hj
          (by omega), if_pos hact, List.append_assoc,
          List.getD_append_right _ _ _ _ (by rw [hPe j hj]; omega),
          hPe j hj, show min r ((prod_specs.getD j ⟨[]⟩).witness.length - 1) = r by omega,
          Nat.sub_self]
        rfl
      have hTPl : ∀ j, j < logup_specs.length →
          r + 1 < (logup_specs.getD j ⟨[]⟩).witness.length →
          (fin.2.1.logup_specs_eval.getD j []).getD r [] =
            [f (((logup_specs.getD j ⟨[]⟩).witness.getD (r + 1) []).getD 0 []),
             f (((logup_specs.getD j ⟨[]⟩).witness.getD (r + 1) []).getD 1 []),
             f (((logup_specs.getD j ⟨[]⟩).witness.getD (r + 1) []).getD 2 []),
             f (((logup_specs.getD j ⟨[]⟩).witness.getD (r + 1) []).getD 3 [])] := by
        intro j hj hact
        obtain ⟨u, hu⟩ := hext.2.2.2.2 j
        rw [hu, hP2levals, getD_zipWith _ logup_specs P.logup_specs_eval j ⟨[]⟩ [] [] hj
          (by omega), if_pos hact, List.append_assoc,
          List.getD_append_right _ _ _ _ (by rw [hLe j hj]; omega),
          hLe j hj, show min r ((logup_specs.getD j ⟨[]⟩).witness.length - 1) = r by omega,
          Nat.sub_self]
        rfl
      -- the batched claim entering this round equals the instance sum
      have hzP : ∀ p ∈ prod_specs.zip αs, prodTowerOK p.1.witness :=
        fun p hp => hwfP p.1 (List.of_mem_zip hp).1
      have hzL : ∀ p ∈ logup_specs.zip (alphaPairs (αs.drop prod_specs.length)),
          logupTowerOK p.1.witness :=
        fun p hp => hwfL p.1 (List.of_mem_zip hp).1
      have htermsWF : termsWF out_rt.length terms := by
        rw [hterms, heqT, hrt]
        exact termsWF_append _ _ _
          (prodSpecTerms_termsWF (r + 1) out_rt hrt _ hzP)
          (logupSpecTerms_termsWF (r + 1) out_rt hrt _ hzL)
      have hclaim : prodClaim r out_rt (prod_specs.zip αs) +
          logupClaim r out_rt (logup_specs.zip (alphaPairs (αs.drop prod_specs.length))) =
          instanceSum terms := by
        rw [hterms, heqT, instanceSum_append,
          prodClaim_eq_instanceSum r out_rt hrt _ hzP,
          logupClaim_eq_instanceSum r out_rt hrt _ hzL]
      have hmsgslen : sc.1.length = (r + 1) * 1 := by
        rw [hsc, sumcheckProve_msgs_length, hrt, Nat.mul_one]
      have hcomplete := sumcheckVerifyAux_complete out_rt.length polys terms t htermsWF
      rw [← hsc] at hcomplete
      have hver : sumcheckVerify ((r + 1) * 1)
          (prodClaim r out_rt (prod_specs.zip αs) +
            logupClaim r out_rt (logup_specs.zip (alphaPairs (αs.drop prod_specs.length))))
          (fin.2.1.proofs.getD r []) t =
          some (sc.2.1, instanceSumAt sc.2.1 terms, sc.2.2.2) := by
        rw [hmsgs]
        simp only [sumcheckVerify]
        rw [if_pos hmsgslen, hclaim]
        exact hcomplete
      have holen : out_rt.length = sc.2.1.length := by rw [hptlen, hrt]
      have hexpP : expectedProdSum fin.2.1 r out_rt sc.2.1
          (zip3Idx prod_specs.length αs
            ((prod_specs ++ logup_specs).map (fun s => s.witness.length))) =
          instanceSumAt sc.2.1
            (prodSpecTerms (r + 1) (eqTable out_rt) (prod_specs.zip αs)) := by
        rw [zip3Idx_take, take_len_map_append (fun s => s.witness.length) prod_specs
          logup_specs]
        rw [expectedProdSum_eq r out_rt sc.2.1 holen prod_specs (αs.take prod_specs.length)
          fin.2.1 hwfP hTPp]
        rw [zip_take_right prod_specs αs]
      have hexpL : expectedLogupSum fin.2.1 r out_rt sc.2.1
          (zip3Idx logup_specs.length (alphaPairs (αs.drop prod_specs.length))
            (((prod_specs ++ logup_specs).map (fun s => s.witness.length)).drop
              prod_specs.length)) =
          instanceSumAt sc.2.1 (logupSpecTerms (r + 1) (eqTable out_rt)
            (logup_specs.zip (alphaPairs (αs.drop prod_specs.length)))) := by
        rw [drop_len_map_append (fun s => s.witness.length) prod_specs logup_specs]
        rw [zip3Idx_take, take_len_map (fun s => s.witness.length) logup_specs]
        rw [expectedLogupSum_eq r out_rt sc.2.1 holen logup_specs
          ((alphaPairs (αs.drop prod_specs.length)).take logup_specs.length) fin.2.1 hTPl]
        rw [zip_take_right logup_specs (alphaPairs (αs.drop prod_specs.length))]
      obtain ⟨c0, hc0⟩ : ∃ c, rm.1 = [c] := ⟨_, rfl⟩
      have hnextP : nextProdClaimF fin.2.1 r (eqTable rm.1)
          (zip3Idx prod_specs.length na.1
            ((prod_specs ++ logup_specs).map (fun s => s.witness.length))) =
          prodClaim (r + 1) rt2 (prod_specs.zip na.1) := by
        rw [zip3Idx_take, take_len_map_append (fun s => s.witness.length) prod_specs
          logup_specs, hc0]
        rw [nextProdClaimF_eq r sc.2.1 c0 hptlen prod_specs (na.1.take prod_specs.length)
          fin.2.1 hwfP hTPp]
        rw [zip_take_right prod_specs na.1, hrt2def, hc0]
      have hnextL : nextLogupClaimF fin.2.1 r (eqTable rm.1)
          (zip3Idx logup_specs.length (alphaPairs (na.1.drop prod_specs.length))
            (((prod_specs ++ logup_specs).map (fun s => s.witness.length)).drop
              prod_specs.length)) =
          logupClaim (r + 1) rt2
            (logup_specs.zip (alphaPairs (na.1.drop prod_specs.length))) := by
        rw [drop_len_map_append (fun s => s.witness.length) prod_specs logup_specs]
        rw [zip3Idx_take, take_len_map (fun s => s.witness.length) logup_specs, hc0]
        rw [nextLogupClaimF_eq r sc.2.1 c0 hptlen logup_specs
          ((alphaPairs (na.1.drop prod_specs.length)).take logup_specs.length)
          fin.2.1 hwfL hTPl]
        rw [zip_take_right logup_specs (alphaPairs (na.1.drop prod_specs.length)),
          hrt2def, hc0]
      have hround : towerVerifyRound fin.2.1
          ((prod_specs ++ logup_specs).map (fun s => s.witness.length))
          prod_specs.length logup_specs.length 1
          ⟨⟨out_rt, prodClaim r out_rt (prod_specs.zip αs) +
              logupClaim r out_rt
                (logup_specs.zip (alphaPairs (αs.drop prod_specs.length)))⟩,
            αs, pILE, lpILE, lqILE, t⟩ r =
          .ok ⟨⟨rt2, prodClaim (r + 1) rt2 (prod_specs.zip na.1) +
              logupClaim (r + 1) rt2
                (logup_specs.zip (alphaPairs (na.1.drop prod_specs.length)))⟩,
            na.1,
            (nextProdEvalsFold fin.2.1 r (eqTable rm.1) rt2
              (zip3Idx prod_specs.length na.1
                ((prod_specs ++ logup_specs).map (fun s => s.witness.length))) pILE).2,
            (nextLogupEvalsFold fin.2.1 r (eqTable rm.1) rt2
              (zip3Idx logup_specs.length (alphaPairs (na.1.drop prod_specs.length))
                (((prod_specs ++ logup_specs).map (fun s => s.witness.length)).drop
                  prod_specs.length)) (lpILE, lqILE)).2.1,
            (nextLogupEvalsFold fin.2.1 r (eqTable rm.1) rt2
              (zip3Idx logup_specs.length (alphaPairs (na.1.drop prod_specs.length))
                (((prod_specs ++ logup_specs).map (fun s => s.witness.length)).drop
                  prod_specs.length)) (lpILE, lqILE)).2.2,
            na.2⟩ := by
        simp only [towerVerifyRound]
        rw [hver]
        dsimp only
        rw [if_pos (show expectedProdSum fin.2.1 r out_rt sc.2.1
            (zip3Idx prod_specs.length αs
              ((prod_specs ++ logup_specs).map (fun s => s.witness.length))) +
            expectedLogupSum fin.2.1 r out_rt sc.2.1
              (zip3Idx logup_specs.length (alphaPairs (αs.drop prod_specs.length))
                (((prod_specs ++ logup_specs).map (fun s => s.witness.length)).drop
                  prod_specs.length)) =
            instanceSumAt sc.2.1 terms from by
          rw [hexpP, hexpL, hterms, heqT, instanceSumAt_append])]
        rw [← hrm, ← hna, ← hrt2def,
          nextProdEvalsFold_fst, nextLogupEvalsFold_fst, hnextP, hnextL]
      refine ⟨vfin, ?_, hvpt, hvtr, proofsExtends_trans P P2 fin.2.1 hstepext hext,
        ?_, ?_, ?_⟩
      · rw [List.range'_succ, List.foldlM_cons, hround]
        simp only [bind, Except.bind]
        exact hfold
      · rw [hflen]
        omega
      · intro j hj
        rw [show r + (mr + 1) = r + 1 + mr by omega]
        exact hfpe j hj
      · intro j hj
        rw [show r + (mr + 1) = r + 1 + mr by omega]
        exact hfle j hj

end TowerLoop

section TowerInitial

variable {F : Type} [CommRing F]

theorem getD_replicate_nil {α : Type} (n j : Nat) :
    (List.replicate n ([] : List α)).getD j [] = [] := by
  rw [List.getD_eq_getElem?_getD, List.getElem?_replicate]
  split <;> rfl

theorem initial_prod_claim (rt0 : List F) :
    ∀ (specs : List (TowerProverSpec F)) (αs : List F),
      (∀ s ∈ specs, prodTowerOK s.witness ∧ 2 ≤ s.witness.length) →
      (((specs.map (fun s =>
          (s.witness.getD 0 []).getD 0 [] ++ (s.witness.getD 0 []).getD 1 [])).zip αs).map
        (fun pe => mleEval pe.1 rt0 * pe.2)).sum =
      prodClaim 0 rt0 (specs.zip αs)
  | [], αs, _ => by simp [prodClaim]
  | s :: rest, [], _ => by simp [prodClaim]
  | s :: rest, alpha :: αs, h => by
      have hact : 0 + 1 < s.witness.length := by
        have := (h s (List.mem_cons_self _ _)).2
        omega
      have ih := initial_prod_claim rt0 rest αs (fun p hp => h p (List.mem_cons_of_mem _ hp))
      simp only [List.zip] at ih ⊢
      simp only [List.map_cons, List.zipWith_cons_cons, List.sum_cons, prodClaim]
      rw [ih, if_pos hact]
      ring

theorem initial_logup_claim (rt0 : List F) :
    ∀ (specs : List (TowerProverSpec F)) (als : List (F × F)),
      (∀ s ∈ specs, logupTowerOK s.witness ∧ 2 ≤ s.witness.length) →
      (((specs.map (fun s =>
          (s.witness.getD 0 []).getD 0 [] ++ (s.witness.getD 0 []).getD 1 [] ++
          (s.witness.getD 0 []).getD 2 [] ++ (s.witness.getD 0 []).getD 3 [])).zip als).map
        (fun pe => mleEval [pe.1.getD 0 0, pe.1.getD 1 0] rt0 * pe.2.1 +
          mleEval [pe.1.getD 2 0, pe.1.getD 3 0] rt0 * pe.2.2)).sum =
      logupClaim 0 rt0 (specs.zip als)
  | [], als, _ => by simp [logupClaim]
  | s :: rest, [], _ => by simp [logupClaim]
  | s :: rest, al :: als, h => by
      have hok := (h s (List.mem_cons_self _ _)).1
      have hact : 0 + 1 < s.witness.length := by
        have := (h s (List.mem_cons_self _ _)).2
        omega
      obtain ⟨hlay, hlens⟩ := hok.1 0 (by omega)
      obtain ⟨v0, hv0⟩ := list_length_one ((s.witness.getD 0 []).getD 0 [])
        (by rw [hlens 0 (by omega)]; norm_num)
      obtain ⟨v1, hv1⟩ := list_length_one ((s.witness.getD 0 []).getD 1 [])
        (by rw [hlens 1 (by omega)]; norm_num)
      obtain ⟨v2, hv2⟩ := list_length_one ((s.witness.getD 0 []).getD 2 [])
        (by rw [hlens 2 (by omega)]; norm_num)
      obtain ⟨v3, hv3⟩ := list_length_one ((s.witness.getD 0 []).getD 3 [])
        (by rw [hlens 3 (by omega)]; norm_num)
      have ih := initial_logup_claim rt0 rest als
        (fun p hp => h p (List.mem_cons_of_mem _ hp))
      simp only [List.zip] at ih ⊢
      simp only [List.map_cons, List.zipWith_cons_cons, List.sum_cons, logupClaim]
      rw [ih, if_pos hact, hv0, hv1, hv2, hv3]
      simp only [List.cons_append, List.nil_append, List.singleton_append,
        List.getD_cons_zero, List.getD_cons_succ]
      ring

end TowerInitial

section ClaimC1

theorem isEmpty_false_of_length_pos {α : Type} (l : List α) (h : 0 < l.length) :
    l.isEmpty = false := by
  cases l with
  | nil => simp at h
  | cons a l => rfl

theorem length_pos_of_isEmpty_false {α : Type} (l : List α) (h : l.isEmpty = false) :
    0 < l.length := by
  cases l with
  | nil => simp [List.isEmpty] at h
  | cons a l => simp

/-- C1: for every valid set of witness layer towers (well-formed product and
logup towers of depth at least 2, with at least one product spec) and a
verifier transcript seeded identically to the prover's,
`TowerVerify::verify` applied to the `TowerProofs` produced by
`TowerProver::create_proof` — with the output evaluations, round counts and
fan-in the callers pass — returns `Ok`, and the final point it returns
equals the final point `create_proof` returned (as does the final
transcript). -/
theorem claim_C1 {F : Type} [CommRing F] [DecidableEq F]
    (prod_specs logup_specs : List (TowerProverSpec F)) (t : Transcript F)
    (hne : prod_specs.isEmpty = false)
    (hwfP : ∀ s ∈ prod_specs, prodTowerOK s.witness)
    (hwfL : ∀ s ∈ logup_specs, logupTowerOK s.witness)
    (hdP : ∀ s ∈ prod_specs, 2 ≤ s.witness.length)
    (hdL : ∀ s ∈ logup_specs, 2 ≤ s.witness.length) :
    ∃ rt proofs tfin,
      TowerProver.create_proof prod_specs logup_specs 2 t = some (rt, proofs, tfin) ∧
      ∃ pI lpI lqI,
        TowerVerify.verify
          (prod_specs.map (fun s =>
            (s.witness.getD 0 []).getD 0 [] ++ (s.witness.getD 0 []).getD 1 []))
          (logup_specs.map (fun s =>
            (s.witness.getD 0 []).getD 0 [] ++ (s.witness.getD 0 []).getD 1 [] ++
            (s.witness.getD 0 []).getD 2 [] ++ (s.witness.getD 0 []).getD 3 []))
          proofs ((prod_specs ++ logup_specs).map (fun s => s.witness.length)) 2 t =
          .ok (rt, pI, lpI, lqI, tfin) := by
  set ap := get_challenge_pows (prod_specs.length + logup_specs.length * 2) t with hap
  set rt0 := drawChallenges 1 ap.2 with hrt0
  set maxR := ((prod_specs ++ logup_specs).map (fun s => s.witness.length)).foldr max 0
    with hmaxR
  set P0 := TowerProofs.new F prod_specs.length logup_specs.length with hP0
  set fin := (List.range' 1 (maxR - 1)).foldl (towerRound 2 prod_specs logup_specs)
    ((rt0.1, ap.1), P0, rt0.2) with hfindef
  have hprover : TowerProver.create_proof prod_specs logup_specs 2 t =
      some (createProofCore prod_specs logup_specs 2 t) := by
    simp only [TowerProver.create_proof]
    rw [if_pos ⟨trivial, hne⟩]
  have hcore : createProofCore prod_specs logup_specs 2 t =
      (fin.1.1, fin.2.1, fin.2.2) := by
    simp only [createProofCore, ceil_log2_two]
  have hP0pl : P0.prod_specs_eval.length = prod_specs.length := by
    rw [hP0]
    exact List.length_replicate _ _
  have hP0ll : P0.logup_specs_eval.length = logup_specs.length := by
    rw [hP0]
    exact List.length_replicate _ _
  have hP0pe : ∀ j, j < prod_specs.length →
      (P0.prod_specs_eval.getD j []).length =
        min 0 ((prod_specs.getD j ⟨[]⟩).witness.length - 1) := by
    intro j hj
    rw [hP0]
    show ((List.replicate prod_specs.length []).getD j []).length = _
    rw [getD_replicate_nil]
    simp only [List.length_nil]
    omega
  have hP0le : ∀ j, j < logup_specs.length →
      (P0.logup_specs_eval.getD j []).length =
        min 0 ((logup_specs.getD j ⟨[]⟩).witness.length - 1) := by
    intro j hj
    rw [hP0]
    show ((List.replicate logup_specs.length []).getD j []).length = _
    rw [getD_replicate_nil]
    simp only [List.length_nil]
    omega
  have hrt01 : rt0.1.length = 0 + 1 := by rw [hrt0, drawChallenges_length]
  obtain ⟨vfin, hfold, hvpt, hvtr, hext, hplen, hpe2, hle2⟩ :=
    towerLoop_complete prod_specs logup_specs hwfP hwfL (maxR - 1) 0 rt0.1 ap.1 P0 rt0.2
      fin hfindef hrt01 rfl hP0pl hP0ll hP0pe hP0le
      (List.replicate prod_specs.length ⟨[], 0⟩)
      (List.replicate logup_specs.length ⟨[], 0⟩)
      (List.replicate logup_specs.length ⟨[], 0⟩)
  refine ⟨fin.1.1, fin.2.1, fin.2.2, by rw [hprover, hcore], vfin.prodILE,
    vfin.logupPILE, vfin.logupQILE, ?_⟩
  have g1 : (prod_specs.map (fun s =>
      (s.witness.getD 0 []).getD 0 [] ++ (s.witness.getD 0 []).getD 1 [])).length =
      fin.2.1.prod_spec_size := by
    show _ = fin.2.1.prod_specs_eval.length
    rw [List.length_map, hext.2.1, hP0pl]
  have g2 : (prod_specs.map (fun s =>
      (s.witness.getD 0 []).getD 0 [] ++ (s.witness.getD 0 []).getD 1 [])).all
      (fun e => e.length = 2) = true := by
    rw [List.all_eq_true]
    intro e he
    rw [List.mem_map] at he
    obtain ⟨s, hs, rfl⟩ := he
    obtain ⟨_, hb0, hb1⟩ := (hwfP s hs).1 0 (by have := hdP s hs; omega)
    rw [decide_eq_true_eq, List.length_append, hb0, hb1]
    norm_num
  have g3 : (logup_specs.map (fun s =>
      (s.witness.getD 0 []).getD 0 [] ++ (s.witness.getD 0 []).getD 1 [] ++
      (s.witness.getD 0 []).getD 2 [] ++ (s.witness.getD 0 []).getD 3 [])).length =
      fin.2.1.logup_spec_size := by
    show _ = fin.2.1.logup_specs_eval.length
    rw [List.length_map, hext.2.2.1, hP0ll]
  have g4 : (logup_specs.map (fun s =>
      (s.witness.getD 0 []).getD 0 [] ++ (s.witness.getD 0 []).getD 1 [] ++
      (s.witness.getD 0 []).getD 2 [] ++ (s.witness.getD 0 []).getD 3 [])).all
      (fun e => e.length = 4) = true := by
    rw [List.all_eq_true]
    intro e he
    rw [List.mem_map] at he
    obtain ⟨s, hs, rfl⟩ := he
    obtain ⟨_, hlens⟩ := (hwfL s hs).1 0 (by have := hdL s hs; omega)
    rw [decide_eq_true_eq, List.length_append, List.length_append, List.length_append,
      hlens 0 (by omega), hlens 1 (by omega), hlens 2 (by omega), hlens 3 (by omega)]
    norm_num
  have g5 : ((prod_specs ++ logup_specs).map (fun s => s.witness.length)).length =
      (prod_specs.map (fun s =>
        (s.witness.getD 0 []).getD 0 [] ++ (s.witness.getD 0 []).getD 1 [])).length +
      (logup_specs.map (fun s =>
        (s.witness.getD 0 []).getD 0 [] ++ (s.witness.getD 0 []).getD 1 [] ++
        (s.witness.getD 0 []).getD 2 [] ++ (s.witness.getD 0 []).getD 3 [])).length := by
    simp
  have g6 : ((prod_specs ++ logup_specs).map
      (fun s => s.witness.length)).isEmpty = false := by
    apply isEmpty_false_of_length_pos
    rw [List.length_map, List.length_append]
    have := length_pos_of_isEmpty_false prod_specs hne
    omega
  simp only [TowerVerify.verify]
  rw [if_pos ⟨trivial, g1, g2, g3, g4, g5, g6⟩]
  simp only [List.length_map, ceil_log2_two]
  rw [← hap, ← hrt0]
  rw [initial_prod_claim rt0.1 prod_specs ap.1 (fun s hs => ⟨hwfP s hs, hdP s hs⟩),
    initial_logup_claim rt0.1 logup_specs (alphaPairs (ap.1.drop prod_specs.length))
      (fun s hs => ⟨hwfL s hs, hdL s hs⟩)]
  rw [← hmaxR, List.range_eq_range', hfold]
  dsimp only
  rw [hvpt, hvtr]

end ClaimC1
section TowerWFDecidable

variable {F : Type} [CommRing F] [DecidableEq F]

theorem prodTowerOK_iff (w : List (List (List F))) :
    prodTowerOK w ↔
      ((∀ k, k < w.length → (w.getD k []).length = 2 ∧
        ((w.getD k []).getD 0 []).length = 2 ^ k ∧
        ((w.getD k []).getD 1 []).length = 2 ^ k) ∧
      (∀ k, k < w.length - 1 →
        (w.getD k []).getD 0 [] ++ (w.getD k []).getD 1 [] =
          List.zipWith (· * ·) ((w.getD (k + 1) []).getD 0 [])
            ((w.getD (k + 1) []).getD 1 []))) := by
  constructor
  · rintro ⟨h1, h2⟩
    exact ⟨h1, fun k hk => h2 k (by omega)⟩
  · rintro ⟨h1, h2⟩
    exact ⟨h1, fun k hk => h2 k (by omega)⟩

theorem logupTowerOK_iff (w : List (List (List F))) :
    logupTowerOK w ↔
      ((∀ k, k < w.length → (w.getD k []).length = 4 ∧
        ∀ b, b < 4 → ((w.getD k []).getD b []).length = 2 ^ k) ∧
      (∀ k, k < w.length - 1 →
        ((w.getD k []).getD 0 [] ++ (w.getD k []).getD 1 [] =
          List.zipWith (· + ·)
            (List.zipWith (· * ·) ((w.getD (k + 1) []).getD 1 [])
              ((w.getD (k + 1) []).getD 2 []))
            (List.zipWith (· * ·) ((w.getD (k + 1) []).getD 0 [])
              ((w.getD (k + 1) []).getD 3 []))) ∧
        ((w.getD k []).getD 2 [] ++ (w.getD k []).getD 3 [] =
          List.zipWith (· * ·) ((w.getD (k + 1) []).getD 2 [])
            ((w.getD (k + 1) []).getD 3 [])))) := by
  constructor
  · rintro ⟨h1, h2⟩
    exact ⟨h1, fun k hk => h2 k (by omega)⟩
  · rintro ⟨h1, h2⟩
    exact ⟨h1, fun k hk => h2 k (by omega)⟩

instance (w : List (List (List F))) : Decidable (prodTowerOK w) :=
  decidable_of_iff _ (prodTowerOK_iff w).symm

instance (w : List (List (List F))) : Decidable (logupTowerOK w) :=
  decidable_of_iff _ (logupTowerOK_iff w).symm

end TowerWFDecidable

/-- Witness for C1: the concrete two-spec scenario over `ZMod 11` (a 3-layer
product tower and a 3-layer logup tower) — the prover succeeds and the
verifier accepts its proof, ending at the same final point and transcript. -/
theorem claim_C1_witness :
    ∃ rt proofs tfin,
      TowerProver.create_proof ([⟨amW⟩] : List (TowerProverSpec (ZMod 11)))
        ([⟨amLW⟩] : List (TowerProverSpec (ZMod 11))) 2 amTch = some (rt, proofs, tfin) ∧
      ∃ pI lpI lqI,
        TowerVerify.verify
          (([⟨amW⟩] : List (TowerProverSpec (ZMod 11))).map (fun s =>
            (s.witness.getD 0 []).getD 0 [] ++ (s.witness.getD 0 []).getD 1 []))
          (([⟨amLW⟩] : List (TowerProverSpec (ZMod 11))).map (fun s =>
            (s.witness.getD 0 []).getD 0 [] ++ (s.witness.getD 0 []).getD 1 [] ++
            (s.witness.getD 0 []).getD 2 [] ++ (s.witness.getD 0 []).getD 3 []))
          proofs ((([⟨amW⟩] : List (TowerProverSpec (ZMod 11))) ++
            ([⟨amLW⟩] : List (TowerProverSpec (ZMod 11)))).map
            (fun s => s.witness.length)) 2 amTch =
          .ok (rt, pI, lpI, lqI, tfin) :=
  claim_C1 ([⟨amW⟩] : List (TowerProverSpec (ZMod 11)))
    ([⟨amLW⟩] : List (TowerProverSpec (ZMod 11))) amTch (by decide) (by decide)
    (by decide) (by decide) (by decide)

section ClaimC7

theorem le_foldr_max (l : List Nat) : ∀ x ∈ l, x ≤ l.foldr max 0 := by
  induction l with
  | nil => intro x hx; simp at hx
  | cons a l ih =>
      intro x hx
      rcases List.mem_cons.mp hx with rfl | hx2
      · simp only [List.foldr_cons]
        exact le_max_left _ _
      · have := ih x hx2
        simp only [List.foldr_cons]
        omega

/-- C7: (a) a product tower built over `nv` variables has `nv` layers and a
logup tower over half-vectors of length `2^n` has `n + 1` layers, so with
`nv = log2(num_instances) + ceil_log2(leaf_width)` each spec participates in
`nv - 1` sum-check rounds; (b) on an honest run the prover emits exactly
`max_s L_s - 1` round proofs and records exactly `L_s - 1` evaluation lists
for each spec; (c) a spec exhausted at a round contributes exactly zero to
that round's recomputed batched claim and its `PointAndEval` is passed
through unchanged (frozen) by the merge step, for products and logups
alike. -/
theorem claim_C7 {F : Type} [CommRing F] [DecidableEq F] :
    (∀ (nv : Nat) (last : List (List F)), 1 ≤ nv →
      (infer_tower_product_witness nv last 2).length = nv) ∧
    (∀ (n : Nat) (q1 q2 : List F), q1.length = 2 ^ n →
      (infer_tower_logup_witness [q1, q2]).length = n + 1) ∧
    (∀ (prod_specs logup_specs : List (TowerProverSpec F)) (t : Transcript F)
      (rt : List F) (proofs : TowerProofs F) (tfin : Transcript F),
      (∀ s ∈ prod_specs, prodTowerOK s.witness) →
      (∀ s ∈ logup_specs, logupTowerOK s.witness) →
      TowerProver.create_proof prod_specs logup_specs 2 t = some (rt, proofs, tfin) →
      proofs.proofs.length =
        (((prod_specs ++ logup_specs).map (fun s => s.witness.length)).foldr max 0) - 1 ∧
      (∀ j, j < prod_specs.length →
        (proofs.prod_specs_eval.getD j []).length =
          (prod_specs.getD j ⟨[]⟩).witness.length - 1) ∧
      (∀ j, j < logup_specs.length →
        (proofs.logup_specs_eval.getD j []).length =
          (logup_specs.getD j ⟨[]⟩).witness.length - 1)) ∧
    (∀ (tp : TowerProofs F) (round : Nat) (o rt : List F) (i : Nat) (alpha : F)
      (L : Nat) (rest : List (Nat × F × Nat)), ¬ round < L - 1 →
      expectedProdSum tp round o rt ((i, alpha, L) :: rest) =
        expectedProdSum tp round o rt rest) ∧
    (∀ (tp : TowerProofs F) (round : Nat) (o rt : List F) (i : Nat) (al : F × F)
      (L : Nat) (rest : List (Nat × (F × F) × Nat)), ¬ round < L - 1 →
      expectedLogupSum tp round o rt ((i, al, L) :: rest) =
        expectedLogupSum tp round o rt rest) ∧
    (∀ (tp : TowerProofs F) (round : Nat) (coeffs rt' : List F) (i : Nat) (alpha : F)
      (L : Nat) (rest : List (Nat × F × Nat)) (ile : List (PointAndEval F)),
      ¬ round < L - 1 →
      nextProdEvalsFold tp round coeffs rt' ((i, alpha, L) :: rest) ile =
        (0 + (nextProdEvalsFold tp round coeffs rt' rest ile).1,
         (nextProdEvalsFold tp round coeffs rt' rest ile).2)) ∧
    (∀ (tp : TowerProofs F) (round : Nat) (coeffs rt' : List F) (i : Nat) (al : F × F)
      (L : Nat) (rest : List (Nat × (F × F) × Nat))
      (ile : List (PointAndEval F) × List (PointAndEval F)), ¬ round < L - 1 →
      nextLogupEvalsFold tp round coeffs rt' ((i, al, L) :: rest) ile =
        (0 + (nextLogupEvalsFold tp round coeffs rt' rest ile).1,
         (nextLogupEvalsFold tp round coeffs rt' rest ile).2)) := by
  refine ⟨?_, ?_, ?_, ?_, ?_, ?_, ?_⟩
  · intro nv last hnv
    rw [infer_tower_product_witness, productLayerChain_length]
    omega
  · intro n q1 q2 hq1
    rw [infer_tower_logup_witness]
    simp only [List.headD_cons, List.drop_one, List.tail_cons, hq1, ceil_log2_pow2]
    rw [List.length_map, logupLayerChain_length]
  · intro prod_specs logup_specs t rt proofs tfin hwfP hwfL hcp
    simp only [TowerProver.create_proof] at hcp
    split at hcp
    case isFalse => exact absurd hcp (by simp)
    case isTrue hcond =>
      simp only [Option.some.injEq] at hcp
      set ap := get_challenge_pows (prod_specs.length + logup_specs.length * 2) t with hap
      set rt0 := drawChallenges 1 ap.2 with hrt0
      set maxR := ((prod_specs ++ logup_specs).map (fun s => s.witness.length)).foldr max 0
        with hmaxR
      set P0 := TowerProofs.new F prod_specs.length logup_specs.length with hP0
      set fin := (List.range' 1 (maxR - 1)).foldl (towerRound 2 prod_specs logup_specs)
        ((rt0.1, ap.1), P0, rt0.2) with hfindef
      have hcore : createProofCore prod_specs logup_specs 2 t =
          (fin.1.1, fin.2.1, fin.2.2) := by
        simp only [createProofCore, ceil_log2_two]
      rw [hcore] at hcp
      have hproofs : proofs = fin.2.1 := by
        have := congrArg (fun x => x.2.1) hcp
        simpa using this.symm
      have hP0pl : P0.prod_specs_eval.length = prod_specs.length := by
        rw [hP0]
        exact List.length_replicate _ _
      have hP0ll : P0.logup_specs_eval.length = logup_specs.length := by
        rw [hP0]
        exact List.length_replicate _ _
      have hP0pe : ∀ j, j < prod_specs.length →
          (P0.prod_specs_eval.getD j []).length =
            min 0 ((prod_specs.getD j ⟨[]⟩).witness.length - 1) := by
        intro j hj
        rw [hP0]
        show ((List.replicate prod_specs.length []).getD j []).length = _
        rw [getD_replicate_nil]
        simp only [List.length_nil]
        omega
      have hP0le : ∀ j, j < logup_specs.length →
          (P0.logup_specs_eval.getD j []).length =
            min 0 ((logup_specs.getD j ⟨[]⟩).witness.length - 1) := by
        intro j hj
        rw [hP0]
        show ((List.replicate logup_specs.length []).getD j []).length = _
        rw [getD_replicate_nil]
        simp only [List.length_nil]
        omega
      have hrt01 : rt0.1.length = 0 + 1 := by rw [hrt0, drawChallenges_length]
      obtain ⟨vfin, hfold, hvpt, hvtr, hext, hplen, hpe2, hle2⟩ :=
        towerLoop_complete prod_specs logup_specs hwfP hwfL (maxR - 1) 0 rt0.1 ap.1 P0
          rt0.2 fin hfindef hrt01 rfl hP0pl hP0ll hP0pe hP0le [] [] []
      have hLbound : ∀ j, j < prod_specs.length →
          (prod_specs.getD j ⟨[]⟩).witness.length ≤ maxR := by
        intro j hj
        rw [hmaxR]
        refine le_foldr_max _ _ ?_
        rw [List.mem_map]
        refine ⟨prod_specs.getD j ⟨[]⟩, ?_, rfl⟩
        refine List.mem_append_left _ ?_
        rw [List.getD_eq_getElem _ _ hj]
        exact List.getElem_mem _
      have hLboundL : ∀ j, j < logup_specs.length →
          (logup_specs.getD j ⟨[]⟩).witness.length ≤ maxR := by
        intro j hj
        rw [hmaxR]
        refine le_foldr_max _ _ ?_
        rw [List.mem_map]
        refine ⟨logup_specs.getD j ⟨[]⟩, ?_, rfl⟩
        refine List.mem_append_right _ ?_
        rw [List.getD_eq_getElem _ _ hj]
        exact List.getElem_mem _
      refine ⟨?_, ?_, ?_⟩
      · rw [hproofs, hplen]
        omega
      · intro j hj
        rw [hproofs, hpe2 j hj]
        have := hLbound j hj
        omega
      · intro j hj
        rw [hproofs, hle2 j hj]
        have := hLboundL j hj
        omega
  · intro tp round o rt i alpha L rest h
    simp only [expectedProdSum, if_neg h, mul_zero, zero_add]
  · intro tp round o rt i al L rest h
    simp only [expectedLogupSum, if_neg h, mul_zero, zero_add]
  · intro tp round coeffs rt' i alpha L rest ile h
    simp only [nextProdEvalsFold, if_neg h]
  · intro tp round coeffs rt' i al L rest ile h
    simp only [nextLogupEvalsFold, if_neg h]

/-- Witness for C7: a spec whose tower has 2 layers is exhausted at round 5
and contributes zero to the recomputed batched claim. -/
theorem claim_C7_witness :
    expectedProdSum (TowerProofs.new (ZMod 97) 1 0) 5 [1] [2] [(0, 3, 2)] =
      expectedProdSum (TowerProofs.new (ZMod 97) 1 0) 5 [1] [2] [] :=
  (claim_C7 (F := ZMod 97)).2.2.2.1 (TowerProofs.new (ZMod 97) 1 0) 5 [1] [2] 0 3 2 []
    (by decide)

end ClaimC7
